import Mathlib

/-!
Verification of the transportation-problem solver (MODI / stepping-stone method)
from `src/utils/solver.ts` and the step-driver from the application component.

The tableau is embedded shallowly: a grid is a function from coordinates to
cells, JavaScript numbers are embedded as integers (`ℤ`; the solver only adds,
subtracts, multiplies, takes minima and compares, so this is exact for the
integer data the application produces), the JavaScript value `Infinity` used to
initialise minimum computations is the top element of `WithTop ℤ`, and
`null`/`undefined` fields are `Option`.  The cell type `../types` is not part
of the source tree; its shape is modelled from the spec (section 3, Data
Model) and from how the solver reads and writes cells.
-/

set_option maxHeartbeats 1000000

namespace Transport

/-- Presentation annotation on a cell (`highlight` in the source).  Modelled
from the spec: "highlight (presentation-only annotation:
entering/leaving/loop-plus/loop-minus/none)". -/
inductive Highlight : Type
  | hNone
  | entering
  | leaving
  | loopPlus
  | loopMinus
deriving DecidableEq, Repr

/-- One tableau entry.  Modelled from the spec (section 3): `cost` (immutable),
`allocation` (a quantity or "empty", i.e. `null`), `isBasic` (`isBasin` in the
source), `opportunityCost` (defined only for evaluated non-basic cells), and
the presentation `highlight`.  The source's `row`/`col` fields are the cell's
coordinates; in the functional embedding they are the indices at which the
cell is stored, so they are not duplicated inside the structure. -/
structure Cell : Type where
  cost : ℤ
  allocation : Option ℤ
  isBasin : Bool
  opportunityCost : Option ℤ
  highlight : Highlight
deriving DecidableEq, Repr

/-- The working tableau: a `rows × cols` matrix of cells. -/
def Grid (rows cols : ℕ) : Type :=
  Fin rows → Fin cols → Cell

instance (rows cols : ℕ) : DecidableEq (Grid rows cols) :=
  inferInstanceAs (DecidableEq (Fin rows → Fin cols → Cell))

/-- Pointwise update of one grid cell. -/
def setCell {rows cols : ℕ} (g : Grid rows cols) (r : Fin rows) (c : Fin cols)
    (f : Cell → Cell) : Grid rows cols :=
  fun r' c' => if r' = r ∧ c' = c then f (g r' c') else g r' c'

/-- The immutable problem data (`ProblemState` in the source, restricted to
the fields the solver reads: `costs`, `initialSupply`, `initialDemand` and the
dimensions, which here are type indices). -/
structure ProblemState (rows cols : ℕ) : Type where
  costs : Fin rows → Fin cols → ℤ
  initialSupply : Fin rows → ℤ
  initialDemand : Fin cols → ℤ

/-- A coordinate pair, `LoopNode`/cell coordinates in the source. -/
def Node (rows cols : ℕ) : Type :=
  Fin rows × Fin cols

instance (rows cols : ℕ) : DecidableEq (Node rows cols) :=
  inferInstanceAs (DecidableEq (Fin rows × Fin cols))

instance (rows cols : ℕ) : Fintype (Node rows cols) :=
  inferInstanceAs (Fintype (Fin rows × Fin cols))

/-- Row-major list of all coordinates, the iteration order of the nested
`for (r) for (c)` loops in the source. -/
def indexList (rows cols : ℕ) : List (Node rows cols) :=
  (List.finRange rows).flatMap fun r => (List.finRange cols).map fun c => (r, c)

/-- Source: `createEmptyGrid`.  Every cell starts with its cost, no
allocation, non-basic, no opportunity cost, highlight "none". -/
def createEmptyGrid (rows cols : ℕ) (costs : Fin rows → Fin cols → ℤ) :
    Grid rows cols :=
  fun r c =>
    { cost := costs r c
      allocation := none
      isBasin := false
      opportunityCost := none
      highlight := Highlight.hNone }

/-- Contribution of a single cell to the total cost.  Source:
`if (c.allocation) sum += c.allocation * c.cost` — a `null` (and, by
JavaScript truthiness, a zero) allocation contributes nothing; a zero
allocation also contributes `0 * cost = 0`, so the guard is value-preserving. -/
def cellCost (c : Cell) : ℤ :=
  match c.allocation with
  | none => 0
  | some a => if a = 0 then 0 else a * c.cost

/-- Source: `calculateTotalCost`. -/
def calculateTotalCost {rows cols : ℕ} (g : Grid rows cols) : ℤ :=
  Finset.univ.sum fun r : Fin rows => Finset.univ.sum fun c : Fin cols => cellCost (g r c)

/-! ### The least-cost initial solution (`solveLeastCost`) -/

/-- State threaded through the allocation loop of `solveLeastCost`:
the grid under construction, the remaining supply `s`, the remaining
demand `d` and the number of basic cells created so far. -/
structure LCState (rows cols : ℕ) : Type where
  grid : Grid rows cols
  s : Fin rows → ℤ
  d : Fin cols → ℤ
  basicCellsCount : ℕ

/-- One step of the allocation loop of `solveLeastCost`: if the cell's row
still has supply and its column still has demand, allocate the minimum of the
two, mark the cell basic and decrement both. -/
def lcAlloc {rows cols : ℕ} (st : LCState rows cols) (rc : Node rows cols) :
    LCState rows cols :=
  if 0 < st.s rc.1 ∧ 0 < st.d rc.2 then
    { grid := setCell st.grid rc.1 rc.2 fun cell =>
        { cell with allocation := some (min (st.s rc.1) (st.d rc.2)), isBasin := true }
      s := Function.update st.s rc.1 (st.s rc.1 - min (st.s rc.1) (st.d rc.2))
      d := Function.update st.d rc.2 (st.d rc.2 - min (st.s rc.1) (st.d rc.2))
      basicCellsCount := st.basicCellsCount + 1 }
  else st

/-- One step of the degeneracy-repair loop of `solveLeastCost`: while more
basic cells are needed, mark the next non-basic cell basic with an
artificial zero allocation.  (The source's `break` when `needed <= 0` is
embedded as the counter guard: once `needed = 0` every remaining step is a
no-op.) -/
def lcRepair {rows cols : ℕ} (st : Grid rows cols × ℕ) (rc : Node rows cols) :
    Grid rows cols × ℕ :=
  if 0 < st.2 ∧ ¬(st.1 rc.1 rc.2).isBasin = true then
    (setCell st.1 rc.1 rc.2 fun cell =>
      { cell with isBasin := true, allocation := some 0 }, st.2 - 1)
  else st

/-- The cell list of `solveLeastCost`, sorted ascending by cost.  The source
sorts with the comparator `(a, b) => a.cost - b.cost` using the (stable)
JavaScript array sort; `List.insertionSort` is a stable sort, so ties keep
their row-major order exactly as in the source. -/
def sortedCells {rows cols : ℕ} (costs : Fin rows → Fin cols → ℤ) :
    List (Node rows cols) :=
  List.insertionSort (fun a b => costs a.1 a.2 ≤ costs b.1 b.2) (indexList rows cols)

/-- Source: `solveLeastCost`.  Greedy least-cost allocation over the sorted
cell list, followed by degeneracy repair up to `rows + cols - 1` basic
cells. -/
def solveLeastCost {rows cols : ℕ} (p : ProblemState rows cols) : Grid rows cols :=
  let cells := sortedCells p.costs
  let st0 : LCState rows cols :=
    { grid := createEmptyGrid rows cols p.costs
      s := p.initialSupply
      d := p.initialDemand
      basicCellsCount := 0 }
  let st := cells.foldl lcAlloc st0
  let requiredBasic := rows + cols - 1
  if st.basicCellsCount < requiredBasic then
    (cells.foldl lcRepair (st.grid, requiredBasic - st.basicCellsCount)).1
  else st.grid

/-! ### Potentials (`calculatePotentials`) -/

/-- The mutable pair of potential vectors: `u[r]`, `v[c]`, each either known
or `null`. -/
structure Potentials (rows cols : ℕ) : Type where
  u : Fin rows → Option ℤ
  v : Fin cols → Option ℤ

/-- One cell visit inside a propagation pass: on a basic cell, if exactly one
of `u[r]`, `v[c]` is known, derive the other from `u + v = cost` and record
that something changed. -/
def potStep {rows cols : ℕ} (g : Grid rows cols)
    (st : Potentials rows cols × Bool) (rc : Node rows cols) :
    Potentials rows cols × Bool :=
  if (g rc.1 rc.2).isBasin = true then
    match st.1.u rc.1, st.1.v rc.2 with
    | some ur, none =>
        ({ st.1 with v := Function.update st.1.v rc.2 (some ((g rc.1 rc.2).cost - ur)) }, true)
    | none, some vc =>
        ({ st.1 with u := Function.update st.1.u rc.1 (some ((g rc.1 rc.2).cost - vc)) }, true)
    | _, _ => st
  else st

/-- One full row-major pass of the propagation loop, returning the new
potentials and the `changed` flag. -/
def potPass {rows cols : ℕ} (g : Grid rows cols) (p : Potentials rows cols) :
    Potentials rows cols × Bool :=
  (indexList rows cols).foldl (potStep g) (p, false)

/-- The `while (changed)` loop of `calculatePotentials`.  Each changing pass
fills at least one unknown entry, of which there are at most `rows + cols`,
so with fuel `rows + cols + 1` the fuel never runs out and the fixpoint the
source's unbounded loop reaches is returned (`potPass_fuel_reaches_fixpoint`
below). -/
def potLoop {rows cols : ℕ} (g : Grid rows cols) :
    ℕ → Potentials rows cols → Potentials rows cols
  | 0, p => p
  | fuel + 1, p =>
      let step := potPass g p
      if step.2 = true then potLoop g fuel step.1 else p

/-- Source: `calculatePotentials`.  Start from all-unknown with `u[0] = 0`
and propagate `u + v = cost` over basic cells until stable. -/
def calculatePotentials {rows cols : ℕ} (g : Grid rows cols) : Potentials rows cols :=
  let p0 : Potentials rows cols :=
    { u := fun r => if (r : ℕ) = 0 then some 0 else none
      v := fun _ => none }
  potLoop g (rows + cols + 1) p0

/-! ### Opportunity costs (`calculateOpportunityCosts`) -/

/-- Result of `calculateOpportunityCosts`: the annotated grid, the minimum
delta (`Infinity`, i.e. `⊤`, when no cell was evaluated) and the entering
cell (`null` when no cell was evaluated). -/
structure OppResult (rows cols : ℕ) : Type where
  grid : Grid rows cols
  minDelta : WithTop ℤ
  enteringCell : Option (Node rows cols)

/-- One cell visit of `calculateOpportunityCosts`: non-basic cells whose two
potentials are known receive `delta = cost − (u + v)` and compete for the
minimum (strictly smaller wins, so the first minimiser in row-major order is
kept); all other cells get their opportunity cost erased. -/
def oppStep {rows cols : ℕ} (u : Fin rows → Option ℤ) (v : Fin cols → Option ℤ)
    (st : OppResult rows cols) (rc : Node rows cols) : OppResult rows cols :=
  if h : ¬(st.grid rc.1 rc.2).isBasin = true ∧ (u rc.1).isSome = true ∧ (v rc.2).isSome = true then
    let delta := (st.grid rc.1 rc.2).cost - ((u rc.1).get h.2.1 + (v rc.2).get h.2.2)
    { grid := setCell st.grid rc.1 rc.2 fun cell => { cell with opportunityCost := some delta }
      minDelta := if (delta : WithTop ℤ) < st.minDelta then (delta : WithTop ℤ) else st.minDelta
      enteringCell := if (delta : WithTop ℤ) < st.minDelta then some rc else st.enteringCell }
  else
    { st with grid := setCell st.grid rc.1 rc.2 fun cell => { cell with opportunityCost := none } }

/-- Source: `calculateOpportunityCosts`. -/
def calculateOpportunityCosts {rows cols : ℕ} (g : Grid rows cols)
    (u : Fin rows → Option ℤ) (v : Fin cols → Option ℤ) : OppResult rows cols :=
  (indexList rows cols).foldl (oppStep u v)
    { grid := g, minDelta := ⊤, enteringCell := none }

/-! ### Loop search (`findLoop`) -/

/-- Candidate next nodes for a horizontal move from `current` in `findLoop`:
every other column of the current row whose cell is basic, plus the start
cell itself when `current` sits in the start's row, in ascending column
order. -/
def nextNodesH {rows cols : ℕ} (g : Grid rows cols) (start current : Node rows cols) :
    List (Node rows cols) :=
  (List.finRange cols).filterMap fun c =>
    if c ≠ current.2 then
      if c = start.2 ∧ current.1 = start.1 then some (current.1, c)
      else if (g current.1 c).isBasin = true then some (current.1, c)
      else none
    else none

/-- Candidate next nodes for a vertical move, the column analogue of
`nextNodesH`. -/
def nextNodesV {rows cols : ℕ} (g : Grid rows cols) (start current : Node rows cols) :
    List (Node rows cols) :=
  (List.finRange rows).filterMap fun r =>
    if r ≠ current.1 then
      if r = start.1 ∧ current.2 = start.2 then some (r, current.2)
      else if (g r current.2).isBasin = true then some (r, current.2)
      else none
    else none

/-- The recursive backtracking search of `findLoop`.  `path` is the stack of
nodes pushed so far (the source's `path` array before the current push),
`visited` the visited set.  Each recursive call pushes `current`, accepts
when it is back at `start` with length ≥ 4, rejects an early return to
`start`, and otherwise tries the candidate moves in order, skipping an
immediate backtrack to the previous node and any visited node other than
`start`.  Failing branches leave no trace, matching the source's symmetric
push/pop and add/delete.  The explicit fuel only bounds the recursion depth;
each call extends the path by one node and, apart from the final return to
`start`, only by unvisited nodes, so depth `rows * cols + 2` is never
exhausted. -/
def searchLoop {rows cols : ℕ} (g : Grid rows cols) (start : Node rows cols) :
    ℕ → Node rows cols → Bool → List (Node rows cols) → Finset (Node rows cols) →
    Option (List (Node rows cols))
  | 0, _, _, _, _ => none
  | fuel + 1, current, isHorizontal, path, visited =>
      let path' := path ++ [current]
      let visited' := insert current visited
      if 4 ≤ path'.length ∧ current = start then some path'
      else if 1 < path'.length ∧ current = start then none
      else
        let nexts := if isHorizontal then nextNodesH g start current
                     else nextNodesV g start current
        nexts.findSome? fun next =>
          if path.getLast? = some next then none
          else if next ∉ visited' ∨ next = start then
            searchLoop g start fuel next (!isHorizontal) path' visited'
          else none

/-- Source: `findLoop`.  Search first with an initial row move, then with an
initial column move. -/
def findLoop {rows cols : ℕ} (start : Node rows cols) (g : Grid rows cols) :
    Option (List (Node rows cols)) :=
  match searchLoop g start (rows * cols + 2) start true [] ∅ with
  | some path => some path
  | none => searchLoop g start (rows * cols + 2) start false [] ∅

/-! ### Pivot (`applyPivot`) -/

/-- The θ computation of `applyPivot`: fold over the odd ("minus") positions
of the loop, keeping the strictly smallest non-`null` allocation and the
first node attaining it.  θ starts at `Infinity` (`⊤`). -/
def thetaFold {rows cols : ℕ} (g : Grid rows cols) (loop : List (Node rows cols)) :
    WithTop ℤ × Option (Node rows cols) :=
  loop.enum.foldl
    (fun st inode =>
      if inode.1 % 2 = 1 then
        match (g inode.2.1 inode.2.2).allocation with
        | some a => if (a : WithTop ℤ) < st.1 then ((a : WithTop ℤ), some inode.2) else st
        | none => st
      else st)
    (⊤, none)

/-- Allocation update for a "plus" cell: `allocation! += theta`.  In the
source θ is a number by the time it is applied whenever some minus cell has a
non-`null` allocation; the `⊤` case (which would produce JavaScript
`Infinity`, not representable in `Option ℤ`) erases the allocation and is
unreachable in every verified context. -/
def addTheta (a : Option ℤ) (theta : WithTop ℤ) : Option ℤ :=
  match theta with
  | ⊤ => none
  | (t : ℤ) => some (a.getD 0 + t)

/-- Allocation update for a "minus" cell: `allocation! -= theta`. -/
def subTheta (a : Option ℤ) (theta : WithTop ℤ) : Option ℤ :=
  match theta with
  | ⊤ => none
  | (t : ℤ) => some (a.getD 0 - t)

/-- The deep copy of `applyPivot`, which also normalises `null` allocations
to `0` (`allocation: c.allocation ?? 0`). -/
def pivotBase {rows cols : ℕ} (g : Grid rows cols) : Grid rows cols :=
  fun r c => { g r c with allocation := some (((g r c).allocation).getD 0) }

/-- One step of the θ-application loop of `applyPivot`: even positions gain
θ and are marked basic, odd positions lose θ. -/
def pivotStep {rows cols : ℕ} (theta : WithTop ℤ) (gr : Grid rows cols)
    (inode : ℕ × Node rows cols) : Grid rows cols :=
  if inode.1 % 2 = 0 then
    setCell gr inode.2.1 inode.2.2 fun cell =>
      { cell with allocation := addTheta cell.allocation theta, isBasin := true }
  else
    setCell gr inode.2.1 inode.2.2 fun cell =>
      { cell with allocation := subTheta cell.allocation theta }

/-- The θ-application loop of `applyPivot`: `for (i = 0; i < loop.length - 1; i++)`,
run on the deep copy. -/
def pivotApplied {rows cols : ℕ} (g : Grid rows cols) (loop : List (Node rows cols)) :
    Grid rows cols :=
  (loop.take (loop.length - 1)).enum.foldl (pivotStep (thetaFold g loop).1) (pivotBase g)

/-- The leaving-variable removal of `applyPivot`: when a leaving node was
found it becomes non-basic with a `null` allocation. -/
def pivotAfterLeaving {rows cols : ℕ} (g : Grid rows cols) (loop : List (Node rows cols)) :
    Grid rows cols :=
  match (thetaFold g loop).2 with
  | some leaving =>
      setCell (pivotApplied g loop) leaving.1 leaving.2 fun cell =>
        { cell with isBasin := false, allocation := none }
  | none => pivotApplied g loop

/-- The entering-node step of `applyPivot`: `loop[0]` is forced into the
basis.  (`loop[0]` on an empty loop would fault in the source; the embedding
leaves the grid unchanged there, a branch no verified context reaches since
`findLoop` only returns non-empty paths.) -/
def pivotAfterStart {rows cols : ℕ} (g : Grid rows cols) (loop : List (Node rows cols)) :
    Grid rows cols :=
  match loop.head? with
  | some start =>
      setCell (pivotAfterLeaving g loop) start.1 start.2 fun cell => { cell with isBasin := true }
  | none => pivotAfterLeaving g loop

/-- Source: `applyPivot`.  Compute θ and the leaving node, deep-copy the grid
normalising `null` allocations to `0`, add θ on even loop positions (and mark
them basic), subtract θ on odd positions (the loop skips its last element,
the duplicated start node), drop the leaving node from the basis, force the
entering node into the basis, and finally reset the allocation of every
non-basic cell to `null`. -/
def applyPivot {rows cols : ℕ} (g : Grid rows cols) (loop : List (Node rows cols)) :
    Grid rows cols × WithTop ℤ :=
  (fun r c =>
    if (pivotAfterStart g loop r c).isBasin = true then pivotAfterStart g loop r c
    else { pivotAfterStart g loop r c with allocation := none },
   (thetaFold g loop).1)

/-! ### One full iteration (`performFullIteration`) -/

/-- Result of `performFullIteration`, one constructor per `return` statement
of the source. -/
inductive FullIterResult (rows cols : ℕ) : Type
  | optimal (grid : Grid rows cols) (cost : ℤ)
  | error (message : String)
  | pivoted (grid : Grid rows cols) (cost : ℤ) (theta : WithTop ℤ)
deriving DecidableEq

/-- Clearing of presentation state after a pivot: erase opportunity costs and
highlights (source: the `cleanGrid` map). -/
def cleanGrid {rows cols : ℕ} (g : Grid rows cols) : Grid rows cols :=
  fun r c => { g r c with opportunityCost := none, highlight := Highlight.hNone }

/-- Source: `performFullIteration`.  Potentials, then deltas; if the minimum
delta is ≥ 0 report optimality, otherwise find the loop for the entering cell
and pivot, reporting an explicit error when the entering cell is missing or
the loop search fails. -/
def performFullIteration {rows cols : ℕ} (g : Grid rows cols) :
    FullIterResult rows cols :=
  let pots := calculatePotentials g
  let opp := calculateOpportunityCosts g pots.u pots.v
  if (0 : WithTop ℤ) ≤ opp.minDelta then
    FullIterResult.optimal opp.grid (calculateTotalCost opp.grid)
  else
    match opp.enteringCell with
    | none => FullIterResult.error "无法找到调入变量"
    | some enteringCell =>
        match findLoop enteringCell opp.grid with
        | none => FullIterResult.error "无法找到闭回路 (退化或逻辑错误)"
        | some loop =>
            let piv := applyPivot opp.grid loop
            let cg := cleanGrid piv.1
            FullIterResult.pivoted cg (calculateTotalCost cg) piv.2

/-! ### The granular step driver (`handleNextStep` in the application) -/

/-- Solver phase, the `status` field of the application state. -/
inductive Status : Type
  | input
  | ready
  | potentials
  | deltas
  | loop
  | optimal
deriving DecidableEq, Repr

/-- The solver-relevant fields of the application's `SolverState` (the
message strings are presentation only and are not modelled). -/
structure SolverState (rows cols : ℕ) : Type where
  grid : Grid rows cols
  u : Fin rows → Option ℤ
  v : Fin cols → Option ℤ
  totalCost : ℤ
  status : Status
  iteration : ℕ
deriving DecidableEq

/-- The scan `prev.grid.forEach(... if (c.highlight === 'entering') en = ...)`
of the step driver: the last cell in row-major order whose highlight is
`entering`, or `none` when there is none (the source then keeps the
out-of-bounds sentinel `{r: -1, c: -1}`). -/
def findEnteringMark {rows cols : ℕ} (g : Grid rows cols) : Option (Node rows cols) :=
  (indexList rows cols).foldl
    (fun acc rc => if (g rc.1 rc.2).highlight = Highlight.entering then some rc else acc)
    none

/-- Source: `handleNextStep` (the `setSolver` updater), one `case` per
status.  A result of `none` models the `TypeError` the source throws when a
phase dereferences the `{r: -1, c: -1}` sentinel left by a failed
entering-cell scan (`grid[-1]` is `undefined`); every other path returns the
updated state.  In the `deltas` case a failed loop search leaves the state
unchanged apart from the error message, which is not modelled. -/
def handleNextStep {rows cols : ℕ} (st : SolverState rows cols) :
    Option (SolverState rows cols) :=
  match st.status with
  | Status.ready =>
      let pots := calculatePotentials st.grid
      some { st with u := pots.u, v := pots.v, status := Status.potentials }
  | Status.potentials =>
      let opp := calculateOpportunityCosts st.grid st.u st.v
      if (0 : WithTop ℤ) ≤ opp.minDelta then
        some { st with grid := opp.grid, status := Status.optimal }
      else
        let marked :=
          match opp.enteringCell with
          | some e => setCell opp.grid e.1 e.2 fun cell => { cell with highlight := Highlight.entering }
          | none => opp.grid
        some { st with grid := marked, status := Status.deltas }
  | Status.deltas =>
      match findEnteringMark st.grid with
      | none => none
      | some en =>
          match findLoop en st.grid with
          | some loop =>
              let marked := loop.enum.foldl
                (fun gr inode =>
                  if inode.1 = 0 then gr
                  else setCell gr inode.2.1 inode.2.2 fun cell =>
                    { cell with highlight :=
                        if inode.1 % 2 = 0 then Highlight.loopPlus else Highlight.loopMinus })
                st.grid
              some { st with grid := marked, status := Status.loop }
          | none => some st
  | Status.loop =>
      match findEnteringMark st.grid with
      | none => none
      | some eNode =>
          match findLoop eNode st.grid with
          | some loopToApply =>
              let piv := applyPivot st.grid loopToApply
              let cg := cleanGrid piv.1
              some { st with
                grid := cg
                totalCost := calculateTotalCost cg
                u := fun _ => none
                v := fun _ => none
                status := Status.ready
                iteration := st.iteration + 1 }
          | none => some st
  | _ => some st

/-! ## Basic lemmas about the embedding -/

section BasicLemmas

variable {rows cols : ℕ}

@[simp]
theorem setCell_same (g : Grid rows cols) (r : Fin rows) (c : Fin cols) (f : Cell → Cell) :
    setCell g r c f r c = f (g r c) := by
  simp [setCell]

theorem setCell_ne (g : Grid rows cols) (r : Fin rows) (c : Fin cols) (f : Cell → Cell)
    {r' : Fin rows} {c' : Fin cols} (h : ¬(r' = r ∧ c' = c)) :
    setCell g r c f r' c' = g r' c' := by
  simp [setCell, h]

theorem setCell_apply (g : Grid rows cols) (r : Fin rows) (c : Fin cols) (f : Cell → Cell)
    (r' : Fin rows) (c' : Fin cols) :
    setCell g r c f r' c' = if r' = r ∧ c' = c then f (g r' c') else g r' c' := rfl

theorem mem_indexList (rc : Node rows cols) : rc ∈ indexList rows cols := by
  rcases rc with ⟨r, c⟩
  simp only [indexList, List.mem_flatMap, List.mem_map]
  exact ⟨r, List.mem_finRange r, c, List.mem_finRange c, rfl⟩

theorem indexList_nodup : (indexList rows cols).Nodup := by
  refine List.nodup_flatMap.mpr ⟨?_, ?_⟩
  · intro r _
    exact (List.nodup_finRange cols).map fun c c' h => congrArg Prod.snd h
  · refine (List.nodup_finRange rows).imp ?_
    intro r r' hne x hx hx'
    simp only [List.mem_map] at hx hx'
    obtain ⟨c, _, rfl⟩ := hx
    obtain ⟨c', _, h⟩ := hx'
    exact hne (congrArg Prod.fst h.symm)

end BasicLemmas

/-! ## Claim C9: characterisation of `calculateOpportunityCosts` -/

section OppCosts

variable {rows cols : ℕ}

/-- A cell is evaluated by `calculateOpportunityCosts` when it is non-basic
and both its potentials are known. -/
def oppEligible (g : Grid rows cols) (u : Fin rows → Option ℤ) (v : Fin cols → Option ℤ)
    (rc : Node rows cols) : Prop :=
  ¬(g rc.1 rc.2).isBasin = true ∧ (u rc.1).isSome = true ∧ (v rc.2).isSome = true

instance (g : Grid rows cols) (u : Fin rows → Option ℤ) (v : Fin cols → Option ℤ)
    (rc : Node rows cols) : Decidable (oppEligible g u v rc) := by
  unfold oppEligible; infer_instance

/-- The reduced cost the source assigns to an evaluated cell. -/
def oppDelta (g : Grid rows cols) (u : Fin rows → Option ℤ) (v : Fin cols → Option ℤ)
    (rc : Node rows cols) : ℤ :=
  (g rc.1 rc.2).cost - ((u rc.1).getD 0 + (v rc.2).getD 0)

/-- A single opportunity-cost step only touches the `opportunityCost` field. -/
theorem oppStep_preserves (u : Fin rows → Option ℤ) (v : Fin cols → Option ℤ)
    (st : OppResult rows cols) (x rc : Node rows cols) :
    ((oppStep u v st x).grid rc.1 rc.2).cost = (st.grid rc.1 rc.2).cost ∧
    ((oppStep u v st x).grid rc.1 rc.2).isBasin = (st.grid rc.1 rc.2).isBasin ∧
    ((oppStep u v st x).grid rc.1 rc.2).allocation = (st.grid rc.1 rc.2).allocation ∧
    ((oppStep u v st x).grid rc.1 rc.2).highlight = (st.grid rc.1 rc.2).highlight := by
  unfold oppStep
  split <;> simp only [setCell_apply] <;> split <;> simp

/-- Fields other than `opportunityCost` are never touched by the
opportunity-cost fold. -/
theorem oppFold_preserves (u : Fin rows → Option ℤ) (v : Fin cols → Option ℤ)
    (l : List (Node rows cols)) (st : OppResult rows cols) (rc : Node rows cols) :
    ((l.foldl (oppStep u v) st).grid rc.1 rc.2).cost = (st.grid rc.1 rc.2).cost ∧
    ((l.foldl (oppStep u v) st).grid rc.1 rc.2).isBasin = (st.grid rc.1 rc.2).isBasin ∧
    ((l.foldl (oppStep u v) st).grid rc.1 rc.2).allocation = (st.grid rc.1 rc.2).allocation ∧
    ((l.foldl (oppStep u v) st).grid rc.1 rc.2).highlight = (st.grid rc.1 rc.2).highlight := by
  induction l generalizing st with
  | nil => exact ⟨rfl, rfl, rfl, rfl⟩
  | cons x xs ih =>
    obtain ⟨h1, h2, h3, h4⟩ := oppStep_preserves u v st x rc
    obtain ⟨g1, g2, g3, g4⟩ := ih (oppStep u v st x)
    exact ⟨g1.trans h1, g2.trans h2, g3.trans h3, g4.trans h4⟩

/-- Invariant of the minimum/entering-cell accumulator of
`calculateOpportunityCosts` after processing the cells in `done`: either
nothing eligible was seen, or the entering cell is an eligible cell, the
minimum equals its delta, it is a weak minimiser over everything processed
and a strict minimiser over everything processed before it. -/
def MinInv (g : Grid rows cols) (u : Fin rows → Option ℤ) (v : Fin cols → Option ℤ)
    (done : List (Node rows cols)) (st : OppResult rows cols) : Prop :=
  (st.minDelta = ⊤ ∧ st.enteringCell = none ∧ ∀ rc ∈ done, ¬oppEligible g u v rc)
  ∨ (∃ e l1 l2, done = l1 ++ e :: l2 ∧ oppEligible g u v e ∧ st.enteringCell = some e ∧
      st.minDelta = (oppDelta g u v e : WithTop ℤ) ∧
      (∀ rc ∈ done, oppEligible g u v rc → oppDelta g u v e ≤ oppDelta g u v rc) ∧
      (∀ rc ∈ l1, oppEligible g u v rc → oppDelta g u v e < oppDelta g u v rc))

theorem oppFold_spec (g : Grid rows cols) (u : Fin rows → Option ℤ)
    (v : Fin cols → Option ℤ) :
    ∀ (l done : List (Node rows cols)) (st : OppResult rows cols),
    (∀ rc : Node rows cols, (st.grid rc.1 rc.2).cost = (g rc.1 rc.2).cost ∧
      (st.grid rc.1 rc.2).isBasin = (g rc.1 rc.2).isBasin) →
    (∀ rc ∈ done, (st.grid rc.1 rc.2).opportunityCost =
      (if oppEligible g u v rc then some (oppDelta g u v rc) else none)) →
    MinInv g u v done st →
    (∀ rc : Node rows cols,
      ((l.foldl (oppStep u v) st).grid rc.1 rc.2).cost = (g rc.1 rc.2).cost ∧
      ((l.foldl (oppStep u v) st).grid rc.1 rc.2).isBasin = (g rc.1 rc.2).isBasin) ∧
    (∀ rc ∈ done ++ l, ((l.foldl (oppStep u v) st).grid rc.1 rc.2).opportunityCost =
      (if oppEligible g u v rc then some (oppDelta g u v rc) else none)) ∧
    MinInv g u v (done ++ l) (l.foldl (oppStep u v) st) := by
  intro l
  induction l with
  | nil =>
    intro done st hf ho hm
    simpa using ⟨hf, ho, hm⟩
  | cons x xs ih =>
    intro done st hf ho hm
    simp only [List.foldl_cons]
    have hstep : ∀ rc : Node rows cols,
        ((oppStep u v st x).grid rc.1 rc.2).cost = (g rc.1 rc.2).cost ∧
        ((oppStep u v st x).grid rc.1 rc.2).isBasin = (g rc.1 rc.2).isBasin := by
      intro rc
      obtain ⟨h1, h2, _, _⟩ := oppStep_preserves u v st x rc
      exact ⟨h1.trans (hf rc).1, h2.trans (hf rc).2⟩
    have helig : (¬(st.grid x.1 x.2).isBasin = true ∧ (u x.1).isSome = true ∧
        (v x.2).isSome = true) ↔ oppEligible g u v x := by
      unfold oppEligible
      rw [(hf x).2]
    have hdelta : ∀ (h : ¬(st.grid x.1 x.2).isBasin = true ∧ (u x.1).isSome = true ∧
        (v x.2).isSome = true),
        (st.grid x.1 x.2).cost - ((u x.1).get h.2.1 + (v x.2).get h.2.2) = oppDelta g u v x := by
      intro h
      obtain ⟨a, ha⟩ := Option.isSome_iff_exists.mp h.2.1
      obtain ⟨b, hb⟩ := Option.isSome_iff_exists.mp h.2.2
      unfold oppDelta
      rw [(hf x).1]
      simp [ha, hb]
    have hoppx : ((oppStep u v st x).grid x.1 x.2).opportunityCost =
        (if oppEligible g u v x then some (oppDelta g u v x) else none) := by
      unfold oppStep
      split
      · next h =>
        rw [if_pos (helig.mp h)]
        simp [hdelta h]
      · next h =>
        rw [if_neg (fun he => h (helig.mpr he))]
        simp
    have hoppold : ∀ rc ∈ done, ((oppStep u v st x).grid rc.1 rc.2).opportunityCost =
        (if oppEligible g u v rc then some (oppDelta g u v rc) else none) := by
      intro rc hrc
      by_cases hx : rc = x
      · exact hx ▸ hoppx
      · have : ¬(rc.1 = x.1 ∧ rc.2 = x.2) := by
          intro hcontra
          exact hx (Prod.ext hcontra.1 hcontra.2)
        unfold oppStep
        split <;> simp only <;> rw [setCell_ne _ _ _ _ this] <;> exact ho rc hrc
    have hmin' : MinInv g u v (done ++ [x]) (oppStep u v st x) := by
      unfold oppStep
      split
      · next h =>
        have hex : oppEligible g u v x := helig.mp h
        rw [hdelta h]
        rcases hm with ⟨hmd, hme, hnone⟩ | ⟨e, l1, l2, hsplit, he, hece, hmd, hle, hlt⟩
        · refine Or.inr ⟨x, done, [], rfl, hex, ?_, ?_, ?_, ?_⟩
          · simp only [hmd]
            rw [if_pos (by exact lt_of_le_of_ne le_top (by simp))]
          · simp only [hmd]
            rw [if_pos (by exact lt_of_le_of_ne le_top (by simp))]
          · intro rc hrc hrce
            rcases List.mem_append.mp hrc with hrc | hrc
            · exact absurd hrce (hnone rc hrc)
            · rw [List.mem_singleton.mp hrc]
          · intro rc hrc hrce
            exact absurd hrce (hnone rc hrc)
        · rw [hmd]
          by_cases hcmp : (oppDelta g u v x : WithTop ℤ) < (oppDelta g u v e : WithTop ℤ)
          · have hcmpz : oppDelta g u v x < oppDelta g u v e := by exact_mod_cast hcmp
            refine Or.inr ⟨x, done, [], by simp, hex, ?_, ?_, ?_, ?_⟩
            · simp only [if_pos hcmp]
            · simp only [if_pos hcmp]
            · intro rc hrc hrce
              rcases List.mem_append.mp hrc with hrc | hrc
              · exact le_of_lt (lt_of_lt_of_le hcmpz (hle rc hrc hrce))
              · rw [List.mem_singleton.mp hrc]
            · intro rc hrc hrce
              exact lt_of_lt_of_le hcmpz (hle rc hrc hrce)
          · have hcmpz : oppDelta g u v e ≤ oppDelta g u v x := by
              have := not_lt.mp hcmp
              exact_mod_cast this
            refine Or.inr ⟨e, l1, l2 ++ [x], by rw [hsplit]; simp, he, ?_, ?_, ?_, ?_⟩
            · simp only [if_neg hcmp, hece]
            · simp only [if_neg hcmp, hmd]
            · intro rc hrc hrce
              rcases List.mem_append.mp hrc with hrc | hrc
              · exact hle rc hrc hrce
              · rw [List.mem_singleton.mp hrc]; exact hcmpz
            · exact hlt
      · next h =>
        have hnex : ¬oppEligible g u v x := fun he => h (helig.mpr he)
        rcases hm with ⟨hmd, hme, hnone⟩ | ⟨e, l1, l2, hsplit, he, hece, hmd, hle, hlt⟩
        · refine Or.inl ⟨hmd, hme, ?_⟩
          intro rc hrc
          rcases List.mem_append.mp hrc with hrc | hrc
          · exact hnone rc hrc
          · rw [List.mem_singleton.mp hrc]; exact hnex
        · refine Or.inr ⟨e, l1, l2 ++ [x], by rw [hsplit]; simp, he, hece, hmd, ?_, hlt⟩
          intro rc hrc hrce
          rcases List.mem_append.mp hrc with hrc | hrc
          · exact hle rc hrc hrce
          · rw [List.mem_singleton.mp hrc] at hrce
            exact absurd hrce hnex
    have := ih (done ++ [x]) (oppStep u v st x) hstep
      (fun rc hrc => List.mem_append.mp hrc |>.elim
        (fun hr => hoppold rc hr)
        (fun hr => (List.mem_singleton.mp hr) ▸ hoppx))
      hmin'
    simpa using this

end OppCosts

/-! ## Lemmas about `solveLeastCost` (claim C2) -/

section LeastCost

variable {rows cols : ℕ}

/-- Number of basic cells of a grid. -/
def countBasic (g : Grid rows cols) : ℕ :=
  (Finset.univ.filter fun rc : Node rows cols => (g rc.1 rc.2).isBasin = true).card

/-- Total allocated quantity of one row (empty allocations count 0). -/
def rowAlloc (g : Grid rows cols) (r : Fin rows) : ℤ :=
  Finset.univ.sum fun c : Fin cols => ((g r c).allocation).getD 0

/-- Total allocated quantity of one column. -/
def colAlloc (g : Grid rows cols) (c : Fin cols) : ℤ :=
  Finset.univ.sum fun r : Fin rows => ((g r c).allocation).getD 0

theorem rowAlloc_setCell (g : Grid rows cols) (r0 : Fin rows) (c0 : Fin cols)
    (f : Cell → Cell) (r : Fin rows) :
    rowAlloc (setCell g r0 c0 f) r =
      if r = r0 then
        rowAlloc g r + (((f (g r0 c0)).allocation).getD 0 - ((g r0 c0).allocation).getD 0)
      else rowAlloc g r := by
  by_cases hr : r = r0
  · subst hr
    rw [if_pos rfl]
    unfold rowAlloc
    rw [← Finset.sum_erase_add _ _ (Finset.mem_univ c0),
      ← Finset.sum_erase_add _ _ (Finset.mem_univ c0)]
    have hcong : ∀ c ∈ Finset.univ.erase c0,
        ((setCell g r c0 f r c).allocation).getD 0 = ((g r c).allocation).getD 0 := by
      intro c hc
      rw [setCell_ne _ _ _ _ (fun hcontra => (Finset.mem_erase.mp hc).1 hcontra.2)]
    rw [Finset.sum_congr rfl hcong, setCell_same]
    ring
  · rw [if_neg hr]
    unfold rowAlloc
    refine Finset.sum_congr rfl ?_
    intro c _
    rw [setCell_ne _ _ _ _ (fun hcontra => hr hcontra.1)]

theorem colAlloc_setCell (g : Grid rows cols) (r0 : Fin rows) (c0 : Fin cols)
    (f : Cell → Cell) (c : Fin cols) :
    colAlloc (setCell g r0 c0 f) c =
      if c = c0 then
        colAlloc g c + (((f (g r0 c0)).allocation).getD 0 - ((g r0 c0).allocation).getD 0)
      else colAlloc g c := by
  by_cases hc : c = c0
  · subst hc
    rw [if_pos rfl]
    unfold colAlloc
    rw [← Finset.sum_erase_add _ _ (Finset.mem_univ r0),
      ← Finset.sum_erase_add _ _ (Finset.mem_univ r0)]
    have hcong : ∀ r ∈ Finset.univ.erase r0,
        ((setCell g r0 c f r c).allocation).getD 0 = ((g r c).allocation).getD 0 := by
      intro r hr
      rw [setCell_ne _ _ _ _ (fun hcontra => (Finset.mem_erase.mp hr).1 hcontra.1)]
    rw [Finset.sum_congr rfl hcong, setCell_same]
    ring
  · rw [if_neg hc]
    unfold colAlloc
    refine Finset.sum_congr rfl ?_
    intro r _
    rw [setCell_ne _ _ _ _ (fun hcontra => hc hcontra.2)]

theorem countBasic_setCell_new (g : Grid rows cols) (r0 : Fin rows) (c0 : Fin cols)
    (f : Cell → Cell) (hold : ¬(g r0 c0).isBasin = true)
    (hnew : (f (g r0 c0)).isBasin = true) :
    countBasic (setCell g r0 c0 f) = countBasic g + 1 := by
  unfold countBasic
  have hset : (Finset.univ.filter fun rc : Node rows cols =>
      (setCell g r0 c0 f rc.1 rc.2).isBasin = true) =
      insert ((r0, c0) : Node rows cols)
        (Finset.univ.filter fun rc : Node rows cols => (g rc.1 rc.2).isBasin = true) := by
    ext rc
    simp only [Finset.mem_filter, Finset.mem_univ, true_and, Finset.mem_insert]
    by_cases hrc : rc = (r0, c0)
    · subst hrc
      simp [setCell_same, hnew]
    · have hne : ¬(rc.1 = r0 ∧ rc.2 = c0) := by
        intro hcontra
        exact hrc (Prod.ext hcontra.1 hcontra.2)
      rw [setCell_ne _ _ _ _ hne]
      constructor
      · exact fun h => Or.inr h
      · intro h
        rcases h with h | h
        · exact absurd h hrc
        · exact h
  rw [hset, Finset.card_insert_of_not_mem]
  simp only [Finset.mem_filter, Finset.mem_univ, true_and]
  exact hold

/-- Number of non-basic cells of `g` among the nodes of `l`. -/
def nbCount (g : Grid rows cols) (l : List (Node rows cols)) : ℕ :=
  (l.filter fun rc => !(g rc.1 rc.2).isBasin).length

/-- Invariant of the greedy allocation loop of `solveLeastCost` after
processing the cells in `processed`: remaining supply/demand account exactly
for what has been allocated, stay non-negative and balanced; every processed
cell has exhausted its row or its column; the basic-cell count plus the
number of still-positive rows and columns is bounded by `rows + cols`, with
one slack once everything is exhausted; and the grid ties allocations to the
basis. -/
structure GInv (p : ProblemState rows cols) (processed : List (Node rows cols))
    (st : LCState rows cols) : Prop where
  rowSum : ∀ r, rowAlloc st.grid r + st.s r = p.initialSupply r
  colSum : ∀ c, colAlloc st.grid c + st.d c = p.initialDemand c
  sNonneg : ∀ r, 0 ≤ st.s r
  dNonneg : ∀ c, 0 ≤ st.d c
  balance : Finset.univ.sum st.s = Finset.univ.sum st.d
  processedZero : ∀ rc ∈ processed, st.s rc.1 = 0 ∨ st.d rc.2 = 0
  countBound : st.basicCellsCount
      + (Finset.univ.filter fun r => 0 < st.s r).card
      + (Finset.univ.filter fun c => 0 < st.d c).card ≤ rows + cols
  countTight : (Finset.univ.filter fun r => 0 < st.s r).card = 0 →
      (Finset.univ.filter fun c => 0 < st.d c).card = 0 →
      st.basicCellsCount ≤ rows + cols - 1
  countEq : st.basicCellsCount = countBasic st.grid
  untouched : ∀ rc : Node rows cols, rc ∉ processed →
      (st.grid rc.1 rc.2).allocation = none ∧ (st.grid rc.1 rc.2).isBasin = false
  nbNone : ∀ rc : Node rows cols, ¬(st.grid rc.1 rc.2).isBasin = true →
      (st.grid rc.1 rc.2).allocation = none
  bSome : ∀ rc : Node rows cols, (st.grid rc.1 rc.2).isBasin = true →
      (st.grid rc.1 rc.2).allocation ≠ none

/-- Cardinality of the positive-entry filter after decreasing one positive
entry: unchanged if the new value is still positive, one less if it reached
zero. -/
theorem posFilter_update {n : ℕ} (f : Fin n → ℤ) (i : Fin n) (v : ℤ)
    (hpos : 0 < f i) (hv : 0 ≤ v) :
    (Finset.univ.filter fun j => 0 < Function.update f i v j).card =
      (Finset.univ.filter fun j => 0 < f j).card - (if v = 0 then 1 else 0) ∧
    1 ≤ (Finset.univ.filter fun j => 0 < f j).card := by
  have hmem : i ∈ Finset.univ.filter fun j => 0 < f j := by
    simp [hpos]
  have hcard1 : 1 ≤ (Finset.univ.filter fun j => 0 < f j).card :=
    Finset.card_pos.mpr ⟨i, hmem⟩
  refine ⟨?_, hcard1⟩
  by_cases hzero : v = 0
  · rw [if_pos hzero]
    have hset : (Finset.univ.filter fun j => 0 < Function.update f i v j) =
        (Finset.univ.filter fun j => 0 < f j).erase i := by
      ext j
      by_cases hj : j = i
      · subst hj
        simp [Function.update_same, hzero]
      · simp [Function.update_noteq hj, hj]
    rw [hset, Finset.card_erase_of_mem hmem]
  · rw [if_neg hzero]
    have hvpos : 0 < v := lt_of_le_of_ne hv (Ne.symm hzero)
    have hset : (Finset.univ.filter fun j => 0 < Function.update f i v j) =
        Finset.univ.filter fun j => 0 < f j := by
      ext j
      by_cases hj : j = i
      · subst hj
        simp [Function.update_same, hvpos, hpos]
      · simp [Function.update_noteq hj]
    rw [hset]
    omega

/-- One greedy step preserves the invariant. -/
theorem lcAlloc_inv {p : ProblemState rows cols} {processed : List (Node rows cols)}
    {st : LCState rows cols} (rc : Node rows cols)
    (hinv : GInv p processed st) (hnotin : rc ∉ processed) :
    GInv p (processed ++ [rc]) (lcAlloc st rc) := by
  unfold lcAlloc
  by_cases hcond : 0 < st.s rc.1 ∧ 0 < st.d rc.2
  · rw [if_pos hcond]
    obtain ⟨hold_none, hold_nb⟩ := hinv.untouched rc hnotin
    set alloc := min (st.s rc.1) (st.d rc.2) with halloc
    have hallocpos : 0 < alloc := lt_min hcond.1 hcond.2
    have halloc_le_s : alloc ≤ st.s rc.1 := min_le_left _ _
    have halloc_le_d : alloc ≤ st.d rc.2 := min_le_right _ _
    have hzero_or : st.s rc.1 - alloc = 0 ∨ st.d rc.2 - alloc = 0 := by
      rcases min_choice (st.s rc.1) (st.d rc.2) with h | h
      · left; omega
      · right; omega
    have hPfacts := posFilter_update st.s rc.1 (st.s rc.1 - alloc) hcond.1 (by omega)
    have hQfacts := posFilter_update st.d rc.2 (st.d rc.2 - alloc) hcond.2 (by omega)
    refine ⟨?_, ?_, ?_, ?_, ?_, ?_, ?_, ?_, ?_, ?_, ?_, ?_⟩ <;> dsimp only
    · intro r
      rw [rowAlloc_setCell]
      by_cases hr : r = rc.1
      · subst hr
        rw [if_pos rfl, Function.update_same, hold_none]
        have := hinv.rowSum rc.1
        simp only [Option.getD_some, Option.getD_none]
        omega
      · rw [if_neg hr, Function.update_noteq hr]
        exact hinv.rowSum r
    · intro c
      rw [colAlloc_setCell]
      by_cases hc : c = rc.2
      · subst hc
        rw [if_pos rfl, Function.update_same, hold_none]
        have := hinv.colSum rc.2
        simp only [Option.getD_some, Option.getD_none]
        omega
      · rw [if_neg hc, Function.update_noteq hc]
        exact hinv.colSum c
    · intro r
      by_cases hr : r = rc.1
      · subst hr
        rw [Function.update_same]
        omega
      · rw [Function.update_noteq hr]
        exact hinv.sNonneg r
    · intro c
      by_cases hc : c = rc.2
      · subst hc
        rw [Function.update_same]
        omega
      · rw [Function.update_noteq hc]
        exact hinv.dNonneg c
    · have hs : Finset.univ.sum (Function.update st.s rc.1 (st.s rc.1 - alloc)) =
          Finset.univ.sum st.s - alloc := by
        rw [Finset.sum_update_of_mem (Finset.mem_univ rc.1), ← Finset.erase_eq]
        have h1 := Finset.sum_erase_add Finset.univ st.s (Finset.mem_univ rc.1)
        have h2 : Finset.univ.sum st.s = ∑ x : Fin rows, st.s x := rfl
        omega
      have hd : Finset.univ.sum (Function.update st.d rc.2 (st.d rc.2 - alloc)) =
          Finset.univ.sum st.d - alloc := by
        rw [Finset.sum_update_of_mem (Finset.mem_univ rc.2), ← Finset.erase_eq]
        have h1 := Finset.sum_erase_add Finset.univ st.d (Finset.mem_univ rc.2)
        have h2 : Finset.univ.sum st.d = ∑ x : Fin cols, st.d x := rfl
        omega
      rw [hs, hd, hinv.balance]
    · intro rc' hrc'
      rcases List.mem_append.mp hrc' with hrc' | hrc'
      · rcases hinv.processedZero rc' hrc' with hz | hz
        · by_cases hr : rc'.1 = rc.1
          · exact absurd (hr ▸ hz) (by intro h; rw [h] at hcond; exact absurd hcond.1 (by omega))
          · left
            rw [Function.update_noteq hr]
            exact hz
        · by_cases hc : rc'.2 = rc.2
          · exact absurd (hc ▸ hz) (by intro h; rw [h] at hcond; exact absurd hcond.2 (by omega))
          · right
            rw [Function.update_noteq hc]
            exact hz
      · rw [List.mem_singleton.mp hrc']
        rcases hzero_or with h | h
        · left
          rw [Function.update_same]
          exact h
        · right
          rw [Function.update_same]
          exact h
    · have hbound := hinv.countBound
      rcases hzero_or with h | h
      · have hP := hPfacts.1
        rw [if_pos h] at hP
        have hQle : (Finset.univ.filter fun c => 0 < Function.update st.d rc.2
            (st.d rc.2 - alloc) c).card ≤ (Finset.univ.filter fun c => 0 < st.d c).card := by
          have hQ := hQfacts.1
          split at hQ <;> omega
        have hP1 := hPfacts.2
        omega
      · have hQ := hQfacts.1
        rw [if_pos h] at hQ
        have hPle : (Finset.univ.filter fun r => 0 < Function.update st.s rc.1
            (st.s rc.1 - alloc) r).card ≤ (Finset.univ.filter fun r => 0 < st.s r).card := by
          have hP := hPfacts.1
          split at hP <;> omega
        have hQ1 := hQfacts.2
        omega
    · intro hP' hQ'
      have hsz : st.s rc.1 - alloc = 0 := by
        by_contra hcontra
        have hP := hPfacts.1
        rw [if_neg hcontra] at hP
        have : rc.1 ∈ Finset.univ.filter fun r => 0 < Function.update st.s rc.1
            (st.s rc.1 - alloc) r := by
          simp only [Finset.mem_filter, Finset.mem_univ, true_and, Function.update_same]
          omega
        have : 1 ≤ (Finset.univ.filter fun r => 0 < Function.update st.s rc.1
            (st.s rc.1 - alloc) r).card := Finset.card_pos.mpr ⟨rc.1, this⟩
        omega
      have hdz : st.d rc.2 - alloc = 0 := by
        by_contra hcontra
        have hQ := hQfacts.1
        rw [if_neg hcontra] at hQ
        have : rc.2 ∈ Finset.univ.filter fun c => 0 < Function.update st.d rc.2
            (st.d rc.2 - alloc) c := by
          simp only [Finset.mem_filter, Finset.mem_univ, true_and, Function.update_same]
          omega
        have : 1 ≤ (Finset.univ.filter fun c => 0 < Function.update st.d rc.2
            (st.d rc.2 - alloc) c).card := Finset.card_pos.mpr ⟨rc.2, this⟩
        omega
      have hP := hPfacts.1
      have hQ := hQfacts.1
      rw [if_pos hsz] at hP
      rw [if_pos hdz] at hQ
      have hbound := hinv.countBound
      have hP1 := hPfacts.2
      have hQ1 := hQfacts.2
      omega
    · rw [hinv.countEq, countBasic_setCell_new st.grid rc.1 rc.2 _ (by rw [hold_nb]; simp)
        (by simp)]
    · intro rc' hrc'
      have hne : rc' ≠ rc := by
        intro h
        subst h
        exact hrc' (by simp)
      have hne' : ¬(rc'.1 = rc.1 ∧ rc'.2 = rc.2) := by
        intro h
        exact hne (Prod.ext h.1 h.2)
      rw [setCell_ne _ _ _ _ hne']
      exact hinv.untouched rc' fun h => hrc' (List.mem_append_left _ h)
    · intro rc' hrc'
      by_cases hne : rc' = (rc.1, rc.2)
      · subst hne
        rw [setCell_same] at hrc'
        simp at hrc'
      · have hne' : ¬(rc'.1 = rc.1 ∧ rc'.2 = rc.2) := by
          intro h
          exact hne (Prod.ext h.1 h.2)
        rw [setCell_ne _ _ _ _ hne'] at hrc' ⊢
        exact hinv.nbNone rc' hrc'
    · intro rc' hrc'
      by_cases hne : rc' = (rc.1, rc.2)
      · subst hne
        rw [setCell_same]
        simp
      · have hne' : ¬(rc'.1 = rc.1 ∧ rc'.2 = rc.2) := by
          intro h
          exact hne (Prod.ext h.1 h.2)
        rw [setCell_ne _ _ _ _ hne'] at hrc' ⊢
        exact hinv.bSome rc' hrc'
  · rw [if_neg hcond]
    refine ⟨hinv.rowSum, hinv.colSum, hinv.sNonneg, hinv.dNonneg, hinv.balance, ?_,
      hinv.countBound, hinv.countTight, hinv.countEq,
      fun rc' h => hinv.untouched rc' fun hm => h (List.mem_append_left _ hm),
      hinv.nbNone, hinv.bSome⟩
    intro rc' hrc'
    rcases List.mem_append.mp hrc' with hrc' | hrc'
    · exact hinv.processedZero rc' hrc'
    · rw [List.mem_singleton.mp hrc']
      rcases not_and_or.mp hcond with h | h
      · left
        have := hinv.sNonneg rc.1
        omega
      · right
        have := hinv.dNonneg rc.2
        omega

/-- The greedy fold preserves the invariant along any duplicate-free cell
list. -/
theorem lcFold_inv (p : ProblemState rows cols) :
    ∀ (l processed : List (Node rows cols)) (st : LCState rows cols),
    (processed ++ l).Nodup → GInv p processed st →
    GInv p (processed ++ l) (l.foldl lcAlloc st) := by
  intro l
  induction l with
  | nil => intro processed st _ h; simpa using h
  | cons x xs ih =>
    intro processed st hnodup hinv
    have hxnot : x ∉ processed := by
      have hdisj := List.disjoint_of_nodup_append hnodup
      intro hmem
      exact hdisj hmem (List.mem_cons_self x xs)
    have hstep := lcAlloc_inv x hinv hxnot
    have hnodup' : ((processed ++ [x]) ++ xs).Nodup := by
      simpa using hnodup
    have := ih (processed ++ [x]) (lcAlloc st x) hnodup' hstep
    simpa using this

/-- The invariant holds initially. -/
theorem lcInit_inv (p : ProblemState rows cols)
    (hs : ∀ r, 0 ≤ p.initialSupply r) (hd : ∀ c, 0 ≤ p.initialDemand c)
    (hbal : Finset.univ.sum p.initialSupply = Finset.univ.sum p.initialDemand) :
    GInv p []
      { grid := createEmptyGrid rows cols p.costs
        s := p.initialSupply
        d := p.initialDemand
        basicCellsCount := 0 } := by
  refine ⟨?_, ?_, hs, hd, hbal, by simp, ?_, ?_, ?_, ?_, ?_, ?_⟩
  · intro r
    have : rowAlloc (createEmptyGrid rows cols p.costs) r = 0 := by
      unfold rowAlloc createEmptyGrid
      simp
    rw [this]
    ring
  · intro c
    have : colAlloc (createEmptyGrid rows cols p.costs) c = 0 := by
      unfold colAlloc createEmptyGrid
      simp
    rw [this]
    ring
  · dsimp only
    have h1 : (Finset.univ.filter fun r : Fin rows => 0 < p.initialSupply r).card ≤ rows := by
      have := Finset.card_filter_le Finset.univ fun r : Fin rows => 0 < p.initialSupply r
      simpa using this
    have h2 : (Finset.univ.filter fun c : Fin cols => 0 < p.initialDemand c).card ≤ cols := by
      have := Finset.card_filter_le Finset.univ fun c : Fin cols => 0 < p.initialDemand c
      simpa using this
    omega
  · intro _ _
    exact Nat.zero_le _
  · unfold countBasic createEmptyGrid
    simp
  · intro rc _
    exact ⟨rfl, rfl⟩
  · intro rc _
    rfl
  · intro rc hrc
    simp [createEmptyGrid] at hrc

/-- Invariant of the degeneracy-repair loop, indexed by the cells still to be
visited. -/
structure RInv (p : ProblemState rows cols) (remaining : List (Node rows cols))
    (st : Grid rows cols × ℕ) : Prop where
  total : countBasic st.1 + st.2 = rows + cols - 1
  enough : st.2 ≤ nbCount st.1 remaining
  rowsum : ∀ r, rowAlloc st.1 r = p.initialSupply r
  colsum : ∀ c, colAlloc st.1 c = p.initialDemand c
  nbNone : ∀ rc : Node rows cols, ¬(st.1 rc.1 rc.2).isBasin = true →
      (st.1 rc.1 rc.2).allocation = none
  bSome : ∀ rc : Node rows cols, (st.1 rc.1 rc.2).isBasin = true →
      (st.1 rc.1 rc.2).allocation ≠ none

/-- Setting a cell outside a node list does not change how many of the
list's cells are non-basic. -/
theorem nbCount_setCell_notmem (g : Grid rows cols) (rc : Node rows cols)
    (f : Cell → Cell) (l : List (Node rows cols)) (h : rc ∉ l) :
    nbCount (setCell g rc.1 rc.2 f) l = nbCount g l := by
  unfold nbCount
  congr 1
  refine List.filter_congr ?_
  intro x hx
  have hne : ¬(x.1 = rc.1 ∧ x.2 = rc.2) := by
    intro hcontra
    exact h ((Prod.ext hcontra.1 hcontra.2 : x = rc) ▸ hx)
  rw [setCell_ne _ _ _ _ hne]

/-- One repair step preserves the repair invariant. -/
theorem lcRepair_inv {p : ProblemState rows cols} {rest : List (Node rows cols)}
    {st : Grid rows cols × ℕ} (rc : Node rows cols)
    (hinv : RInv p (rc :: rest) st) (hnotin : rc ∉ rest) :
    RInv p rest (lcRepair st rc) := by
  unfold lcRepair
  by_cases hcond : 0 < st.2 ∧ ¬(st.1 rc.1 rc.2).isBasin = true
  · rw [if_pos hcond]
    have hcons : nbCount st.1 (rc :: rest) = nbCount st.1 rest + 1 := by
      unfold nbCount
      rw [List.filter_cons_of_pos]
      · rfl
      · simpa using hcond.2
    refine ⟨?_, ?_, ?_, ?_, ?_, ?_⟩
    · have := hinv.total
      have hc := countBasic_setCell_new st.1 rc.1 rc.2
        (fun cell => { cell with isBasin := true, allocation := some 0 }) hcond.2 (by simp)
      dsimp only
      omega
    · have := hinv.enough
      have hnb := nbCount_setCell_notmem st.1 rc
        (fun cell => { cell with isBasin := true, allocation := some 0 }) rest hnotin
      dsimp only
      omega
    · intro r
      dsimp only
      rw [rowAlloc_setCell]
      have hnone := hinv.nbNone rc hcond.2
      split
      · rw [hnone]
        have := hinv.rowsum r
        simp only [Option.getD_some, Option.getD_none]
        omega
      · exact hinv.rowsum r
    · intro c
      dsimp only
      rw [colAlloc_setCell]
      have hnone := hinv.nbNone rc hcond.2
      split
      · rw [hnone]
        have := hinv.colsum c
        simp only [Option.getD_some, Option.getD_none]
        omega
      · exact hinv.colsum c
    · intro rc' hrc'
      dsimp only at hrc' ⊢
      by_cases hne : rc' = (rc.1, rc.2)
      · subst hne
        rw [setCell_same] at hrc'
        simp at hrc'
      · have hne' : ¬(rc'.1 = rc.1 ∧ rc'.2 = rc.2) := by
          intro h
          exact hne (Prod.ext h.1 h.2)
        rw [setCell_ne _ _ _ _ hne'] at hrc' ⊢
        exact hinv.nbNone rc' hrc'
    · intro rc' hrc'
      dsimp only at hrc' ⊢
      by_cases hne : rc' = (rc.1, rc.2)
      · subst hne
        rw [setCell_same]
        simp
      · have hne' : ¬(rc'.1 = rc.1 ∧ rc'.2 = rc.2) := by
          intro h
          exact hne (Prod.ext h.1 h.2)
        rw [setCell_ne _ _ _ _ hne'] at hrc' ⊢
        exact hinv.bSome rc' hrc'
  · rw [if_neg hcond]
    refine ⟨hinv.total, ?_, hinv.rowsum, hinv.colsum, hinv.nbNone, hinv.bSome⟩
    rcases not_and_or.mp hcond with h | h
    · omega
    · have hbasic : (st.1 rc.1 rc.2).isBasin = true := by
        by_contra hcontra
        exact h hcontra
      have hcons : nbCount st.1 (rc :: rest) = nbCount st.1 rest := by
        unfold nbCount
        rw [List.filter_cons_of_neg]
        simpa using hbasic
      have := hinv.enough
      omega

/-- The repair fold drains the invariant down to the empty remainder. -/
theorem lcRepairFold_inv (p : ProblemState rows cols) :
    ∀ (l : List (Node rows cols)) (st : Grid rows cols × ℕ),
    l.Nodup → RInv p l st → RInv p [] (l.foldl lcRepair st) := by
  intro l
  induction l with
  | nil => intro st _ h; exact h
  | cons x xs ih =>
    intro st hnodup hinv
    exact ih (lcRepair st x) (List.Nodup.of_cons hnodup)
      (lcRepair_inv x hinv (List.nodup_cons.mp hnodup).1)

/-- The sorted cell list is a permutation of all coordinates. -/
theorem sortedCells_perm (costs : Fin rows → Fin cols → ℤ) :
    (sortedCells costs).Perm (indexList rows cols) :=
  List.perm_insertionSort _ _

theorem sortedCells_nodup (costs : Fin rows → Fin cols → ℤ) :
    (sortedCells costs).Nodup :=
  ((sortedCells_perm costs).nodup_iff).mpr indexList_nodup

theorem mem_sortedCells (costs : Fin rows → Fin cols → ℤ) (rc : Node rows cols) :
    rc ∈ sortedCells costs :=
  ((sortedCells_perm costs).mem_iff).mpr (mem_indexList rc)

/-- Counting non-basic cells over the full cell list counts them over the
whole grid. -/
theorem nbCount_sortedCells (g : Grid rows cols) (costs : Fin rows → Fin cols → ℤ) :
    nbCount g (sortedCells costs) + countBasic g = rows * cols := by
  have hperm : nbCount g (sortedCells costs) = nbCount g (indexList rows cols) := by
    unfold nbCount
    exact ((sortedCells_perm costs).filter _).length_eq
  rw [hperm]
  have hnb : nbCount g (indexList rows cols) =
      (Finset.univ.filter fun rc : Node rows cols => ¬(g rc.1 rc.2).isBasin = true).card := by
    unfold nbCount
    have hnd : ((indexList rows cols).filter fun rc => !(g rc.1 rc.2).isBasin).Nodup :=
      indexList_nodup.filter _
    rw [← List.toFinset_card_of_nodup hnd]
    congr 1
    ext rc
    simp [List.mem_filter, mem_indexList]
  rw [hnb]
  unfold countBasic
  have := Finset.filter_card_add_filter_neg_card_eq_card
    (s := (Finset.univ : Finset (Node rows cols)))
    (p := fun rc : Node rows cols => (g rc.1 rc.2).isBasin = true)
  simp only [Fintype.card_prod, Fintype.card_fin] at this ⊢
  have hcard : (Finset.univ : Finset (Node rows cols)).card = rows * cols := by
    simp [Node]
  omega

/-- Grid dimensions dominate the required basis size. -/
theorem required_le_cells (hrows : 1 ≤ rows) (hcols : 1 ≤ cols) :
    rows + cols - 1 ≤ rows * cols := by
  obtain ⟨a, rfl⟩ := Nat.exists_eq_add_of_le hrows
  obtain ⟨b, rfl⟩ := Nat.exists_eq_add_of_le hcols
  have hexp : (1 + a) * (1 + b) = 1 + a + b + a * b := by ring
  omega

/-- Master property of `solveLeastCost` on a balanced problem: exactly
`rows + cols - 1` basic cells, exact row and column sums, and allocations
tied to the basis. -/
theorem solveLeastCost_spec (p : ProblemState rows cols)
    (hrows : 1 ≤ rows) (hcols : 1 ≤ cols)
    (hs : ∀ r, 0 ≤ p.initialSupply r) (hd : ∀ c, 0 ≤ p.initialDemand c)
    (hbal : Finset.univ.sum p.initialSupply = Finset.univ.sum p.initialDemand) :
    countBasic (solveLeastCost p) = rows + cols - 1 ∧
    (∀ r, rowAlloc (solveLeastCost p) r = p.initialSupply r) ∧
    (∀ c, colAlloc (solveLeastCost p) c = p.initialDemand c) ∧
    (∀ rc : Node rows cols, ((solveLeastCost p) rc.1 rc.2).isBasin = true →
      ((solveLeastCost p) rc.1 rc.2).allocation ≠ none) ∧
    (∀ rc : Node rows cols, ¬((solveLeastCost p) rc.1 rc.2).isBasin = true →
      ((solveLeastCost p) rc.1 rc.2).allocation = none) := by
  have hinv : GInv p (sortedCells p.costs)
      ((sortedCells p.costs).foldl lcAlloc
        { grid := createEmptyGrid rows cols p.costs
          s := p.initialSupply
          d := p.initialDemand
          basicCellsCount := 0 }) := by
    have := lcFold_inv p (sortedCells p.costs) [] _
      (by simpa using sortedCells_nodup p.costs) (lcInit_inv p hs hd hbal)
    simpa using this
  set stG := (sortedCells p.costs).foldl lcAlloc
    { grid := createEmptyGrid rows cols p.costs
      s := p.initialSupply
      d := p.initialDemand
      basicCellsCount := 0 } with hstG
  have hszero : ∀ r, stG.s r = 0 := by
    intro r
    by_contra hcontra
    have hpos : 0 < stG.s r := lt_of_le_of_ne (hinv.sNonneg r) (Ne.symm hcontra)
    have hdz : ∀ c, stG.d c = 0 := by
      intro c
      rcases hinv.processedZero (r, c) (mem_sortedCells p.costs (r, c)) with h | h
      · exact absurd (show stG.s r = 0 from h) (by omega)
      · exact h
    have hsum_d : Finset.univ.sum stG.d = 0 :=
      Finset.sum_eq_zero fun c _ => hdz c
    have hsum_s : Finset.univ.sum stG.s = 0 := hinv.balance.trans hsum_d
    have hle : stG.s r ≤ Finset.univ.sum stG.s :=
      Finset.single_le_sum (fun i _ => hinv.sNonneg i) (Finset.mem_univ r)
    omega
  have hdzero : ∀ c, stG.d c = 0 := by
    intro c
    by_contra hcontra
    have hpos : 0 < stG.d c := lt_of_le_of_ne (hinv.dNonneg c) (Ne.symm hcontra)
    have hmem : c ∈ Finset.univ.filter fun c => 0 < stG.d c := by simp [hpos]
    have h1 : 1 ≤ (Finset.univ.filter fun c => 0 < stG.d c).card :=
      Finset.card_pos.mpr ⟨c, hmem⟩
    have hsum_s : Finset.univ.sum stG.s = 0 := Finset.sum_eq_zero fun r _ => hszero r
    have hsum_d : Finset.univ.sum stG.d = 0 := hinv.balance.symm.trans hsum_s
    have hle : stG.d c ≤ Finset.univ.sum stG.d :=
      Finset.single_le_sum (fun i _ => hinv.dNonneg i) (Finset.mem_univ c)
    omega
  have hPzero : (Finset.univ.filter fun r => 0 < stG.s r).card = 0 := by
    rw [Finset.card_eq_zero, Finset.filter_eq_empty_iff]
    intro r _
    rw [hszero r]
    omega
  have hQzero : (Finset.univ.filter fun c => 0 < stG.d c).card = 0 := by
    rw [Finset.card_eq_zero, Finset.filter_eq_empty_iff]
    intro c _
    rw [hdzero c]
    omega
  have hcount_le : stG.basicCellsCount ≤ rows + cols - 1 := hinv.countTight hPzero hQzero
  have hrowG : ∀ r, rowAlloc stG.grid r = p.initialSupply r := by
    intro r
    have := hinv.rowSum r
    rw [hszero r] at this
    omega
  have hcolG : ∀ c, colAlloc stG.grid c = p.initialDemand c := by
    intro c
    have := hinv.colSum c
    rw [hdzero c] at this
    omega
  have hsolve : solveLeastCost p =
      (if stG.basicCellsCount < rows + cols - 1 then
        ((sortedCells p.costs).foldl lcRepair
          (stG.grid, rows + cols - 1 - stG.basicCellsCount)).1
      else stG.grid) := rfl
  by_cases hrep : stG.basicCellsCount < rows + cols - 1
  · rw [hsolve, if_pos hrep]
    have hinit : RInv p (sortedCells p.costs)
        (stG.grid, rows + cols - 1 - stG.basicCellsCount) := by
      refine ⟨?_, ?_, hrowG, hcolG, hinv.nbNone, hinv.bSome⟩
      · dsimp only
        have := hinv.countEq
        omega
      · dsimp only
        have hn := nbCount_sortedCells stG.grid p.costs
        have hr := required_le_cells hrows hcols
        have := hinv.countEq
        omega
    have hfinal := lcRepairFold_inv p (sortedCells p.costs) _
      (sortedCells_nodup p.costs) hinit
    have hzero : ((sortedCells p.costs).foldl lcRepair
        (stG.grid, rows + cols - 1 - stG.basicCellsCount)).2 = 0 := by
      have := hfinal.enough
      unfold nbCount at this
      simpa using this
    have htot := hfinal.total
    exact ⟨by omega, hfinal.rowsum, hfinal.colsum, hfinal.bSome, hfinal.nbNone⟩
  · rw [hsolve, if_neg hrep]
    have hceq := hinv.countEq
    exact ⟨by omega, hrowG, hcolG, hinv.bSome, hinv.nbNone⟩

end LeastCost

/-! ## Alternating cycles -/

section Cycles

variable {rows cols : ℕ}

/-- One move of a loop: a horizontal move (`d = true`) stays in the row and
changes the column (the source's `c !== current.c` guard); a vertical move is
the column analogue. -/
def share (d : Bool) (a b : Node rows cols) : Prop :=
  if d then a.1 = b.1 ∧ a.2 ≠ b.2 else a.2 = b.2 ∧ a.1 ≠ b.1

instance (d : Bool) (a b : Node rows cols) : Decidable (share d a b) := by
  unfold share
  infer_instance

/-- An alternating chain of moves: `Chain d a l` says that starting from
cell `a` the cells of `l` are reached by moves of alternating kinds, the
first of kind `d`. -/
inductive Chain : Bool → Node rows cols → List (Node rows cols) → Prop
  | nil (d : Bool) (a : Node rows cols) : Chain d a []
  | cons {d : Bool} {a b : Node rows cols} {l : List (Node rows cols)} :
      share d a b → Chain (!d) b l → Chain d a (b :: l)

/-- Executable check for `Chain`. -/
def chainB (d : Bool) (a : Node rows cols) : List (Node rows cols) → Bool
  | [] => true
  | b :: l => decide (share d a b) && chainB (!d) b l

theorem chainB_iff_chain (d : Bool) (a : Node rows cols) (l : List (Node rows cols)) :
    chainB d a l = true ↔ Chain d a l := by
  induction l generalizing d a with
  | nil => simp [chainB]; exact Chain.nil d a
  | cons b l ih =>
    simp only [chainB, Bool.and_eq_true, decide_eq_true_eq]
    constructor
    · intro h
      exact Chain.cons h.1 ((ih (!d) b).mp h.2)
    · intro h
      cases h with
      | cons hs hc => exact ⟨hs, (ih (!d) b).mpr hc⟩

instance (d : Bool) (a : Node rows cols) (l : List (Node rows cols)) :
    Decidable (Chain d a l) :=
  decidable_of_iff _ (chainB_iff_chain d a l)

/-- The potential at the node a move of kind `d` pivots on. -/
def potOf (uz : Fin rows → ℤ) (vz : Fin cols → ℤ) (d : Bool) (x : Node rows cols) : ℤ :=
  if d then uz x.1 else vz x.2

/-- Alternating sum of the costs of a cell list, the leading sign given by
`sgn`. -/
def altCostSum (g : Grid rows cols) : Bool → List (Node rows cols) → ℤ
  | _, [] => 0
  | sgn, x :: l =>
      (if sgn then (g x.1 x.2).cost else -(g x.1 x.2).cost) + altCostSum g (!sgn) l

theorem altCostSum_neg (g : Grid rows cols) :
    ∀ (l : List (Node rows cols)) (sgn : Bool),
    altCostSum g (!sgn) l = -altCostSum g sgn l := by
  intro l
  induction l with
  | nil => intro sgn; simp [altCostSum]
  | cons x l ih =>
    intro sgn
    cases sgn with
    | false =>
      rw [show altCostSum g (!false) (x :: l) =
          (g x.1 x.2).cost + altCostSum g false l from rfl,
        show altCostSum g false (x :: l) =
          -(g x.1 x.2).cost + altCostSum g (!false) l from rfl,
        ih false]
      ring
    | true =>
      rw [show altCostSum g (!true) (x :: l) =
          -(g x.1 x.2).cost + altCostSum g (!false) l from rfl,
        show altCostSum g true (x :: l) =
          (g x.1 x.2).cost + altCostSum g false l from rfl,
        ih false]
      ring

/-- The two anchors of a shared move agree. -/
theorem potOf_share (uz : Fin rows → ℤ) (vz : Fin cols → ℤ) {d : Bool}
    {a b : Node rows cols} (hs : share d a b) :
    potOf uz vz d a = potOf uz vz d b := by
  cases d with
  | true =>
    rw [show share true a b = (a.1 = b.1 ∧ a.2 ≠ b.2) from rfl] at hs
    show uz a.1 = uz b.1
    rw [hs.1]
  | false =>
    rw [show share false a b = (a.2 = b.2 ∧ a.1 ≠ b.1) from rfl] at hs
    show vz a.2 = vz b.2
    rw [hs.1]

/-- The two anchors of one cell add up to its dual value. -/
theorem potOf_split (uz : Fin rows → ℤ) (vz : Fin cols → ℤ) (d : Bool) (z : Node rows cols) :
    potOf uz vz d z + potOf uz vz (!d) z = uz z.1 + vz z.2 := by
  unfold potOf
  cases d <;> simp <;> ring

/-- Telescoping of an alternating cost sum along an alternating chain whose
cells satisfy the dual equations `u + v = cost`: only the two end anchors
survive. -/
theorem chain_telescope (g : Grid rows cols) (uz : Fin rows → ℤ) (vz : Fin cols → ℤ) :
    ∀ (zs : List (Node rows cols)) (d : Bool) (a e' : Node rows cols),
    Chain d a (zs ++ [e']) →
    (∀ x ∈ zs, uz x.1 + vz x.2 = (g x.1 x.2).cost) →
    altCostSum g false zs =
      -(potOf uz vz d a) + (-1 : ℤ) ^ zs.length *
        potOf uz vz (if zs.length % 2 = 0 then d else !d) e' := by
  intro zs
  induction zs with
  | nil =>
    intro d a e' hchain _
    cases hchain with
    | cons hs _ =>
      simp [altCostSum, potOf_share uz vz hs]
  | cons z zs' ih =>
    intro d a e' hchain hpots
    cases hchain with
    | cons hs hc =>
      have hz := hpots z (List.mem_cons_self z zs')
      have hrec := ih (!d) z e' hc fun x hx => hpots x (List.mem_cons_of_mem z hx)
      simp only [Bool.not_not] at hrec
      have hanchor := potOf_share uz vz hs
      have hsplit := potOf_split uz vz d z
      have hflip : altCostSum g true zs' = -altCostSum g false zs' := by
        have h := altCostSum_neg g zs' false
        rw [show (!false) = true from rfl] at h
        exact h
      have hparity : (if (z :: zs').length % 2 = 0 then d else !d) =
          (if zs'.length % 2 = 0 then !d else d) := by
        rw [List.length_cons]
        rcases Nat.even_or_odd zs'.length with h | h
        · have h0 : zs'.length % 2 = 0 := Nat.even_iff.mp h
          have h1 : (zs'.length + 1) % 2 = 1 := by omega
          rw [h0, h1]
          simp
        · have h0 : zs'.length % 2 = 1 := Nat.odd_iff.mp h
          have h1 : (zs'.length + 1) % 2 = 0 := by omega
          rw [h0, h1]
          simp
      have hpow : (-1 : ℤ) ^ (z :: zs').length = -(-1 : ℤ) ^ zs'.length := by
        rw [List.length_cons, pow_succ]
        ring
      rw [show altCostSum g false (z :: zs') =
        -(g z.1 z.2).cost + altCostSum g (!false) zs' from rfl,
        show (!false) = true from rfl, hflip, hrec, hparity, hpow]
      linarith [hz, hsplit, hanchor]

end Cycles

/-! ## The bipartite basis graph

The spec reads the basic cells as edges of a bipartite graph on the `rows`
source-nodes and `cols` destination-nodes; the basis invariant asks this
graph to be a spanning tree. -/

section BasisGraph

variable {rows cols : ℕ}

/-- The bipartite graph whose vertices are the row nodes (`Sum.inl`) and the
column nodes (`Sum.inr`) and whose edges are the basic cells. -/
def basisGraph (g : Grid rows cols) : SimpleGraph (Fin rows ⊕ Fin cols) where
  Adj x y :=
    match x, y with
    | Sum.inl r, Sum.inr c => (g r c).isBasin = true
    | Sum.inr c, Sum.inl r => (g r c).isBasin = true
    | _, _ => False
  symm := by
    intro x y h
    cases x <;> cases y <;> exact h
  loopless := by
    intro x h
    cases x <;> exact h

instance (g : Grid rows cols) : DecidableRel (basisGraph g).Adj := fun x y =>
  match x, y with
  | Sum.inl r, Sum.inr c => inferInstanceAs (Decidable ((g r c).isBasin = true))
  | Sum.inr c, Sum.inl r => inferInstanceAs (Decidable ((g r c).isBasin = true))
  | Sum.inl _, Sum.inl _ => inferInstanceAs (Decidable False)
  | Sum.inr _, Sum.inr _ => inferInstanceAs (Decidable False)

theorem basisGraph_adj_inl_inr (g : Grid rows cols) (r : Fin rows) (c : Fin cols) :
    (basisGraph g).Adj (Sum.inl r) (Sum.inr c) ↔ (g r c).isBasin = true :=
  Iff.rfl

theorem basisGraph_adj_inr_inl (g : Grid rows cols) (c : Fin cols) (r : Fin rows) :
    (basisGraph g).Adj (Sum.inr c) (Sum.inl r) ↔ (g r c).isBasin = true :=
  Iff.rfl

theorem basisGraph_not_adj_inl_inl (g : Grid rows cols) (r r' : Fin rows) :
    ¬(basisGraph g).Adj (Sum.inl r) (Sum.inl r') :=
  fun h => h

theorem basisGraph_not_adj_inr_inr (g : Grid rows cols) (c c' : Fin cols) :
    ¬(basisGraph g).Adj (Sum.inr c) (Sum.inr c') :=
  fun h => h

/-- The spec's basis invariant: `rows + cols − 1` basic cells forming a
spanning tree of the bipartite graph. -/
def basisInvariant (g : Grid rows cols) : Prop :=
  countBasic g = rows + cols - 1 ∧ (basisGraph g).IsTree

/-- The vertex a move of kind `d` pivots on (the graph-side mirror of
`potOf`). -/
def anchorV (d : Bool) (z : Node rows cols) : Fin rows ⊕ Fin cols :=
  if d then Sum.inl z.1 else Sum.inr z.2

theorem anchorV_share {d : Bool} {a b : Node rows cols} (hs : share d a b) :
    anchorV d a = anchorV d b := by
  cases d with
  | true =>
    rw [show share true a b = (a.1 = b.1 ∧ a.2 ≠ b.2) from rfl] at hs
    show Sum.inl a.1 = Sum.inl b.1
    rw [hs.1]
  | false =>
    rw [show share false a b = (a.2 = b.2 ∧ a.1 ≠ b.1) from rfl] at hs
    show Sum.inr a.2 = Sum.inr b.2
    rw [hs.1]

theorem anchorV_ne (d : Bool) (z : Node rows cols) : anchorV d z ≠ anchorV (!d) z := by
  cases d with
  | true => exact fun h => Sum.inl_ne_inr h
  | false => exact fun h => Sum.inr_ne_inl h

theorem adj_anchorV {H : SimpleGraph (Fin rows ⊕ Fin cols)} {z : Node rows cols}
    (h : H.Adj (Sum.inl z.1) (Sum.inr z.2)) (d : Bool) :
    H.Adj (anchorV d z) (anchorV (!d) z) := by
  cases d with
  | true => exact h
  | false => exact h.symm

/-- Mixed `Sym2` pairs of a sum type are equal exactly when their components
are. -/
theorem sym2_mixed_eq {α β : Type} (r a : α) (c b : β) :
    s(Sum.inl r, (Sum.inr c : α ⊕ β)) = s(Sum.inl a, Sum.inr b) ↔ r = a ∧ c = b := by
  rw [Sym2.eq_iff]
  constructor
  · rintro (⟨h1, h2⟩ | ⟨h1, _⟩)
    · exact ⟨Sum.inl.inj h1, Sum.inr.inj h2⟩
    · exact absurd h1 (Sum.inl_ne_inr)
  · rintro ⟨h1, h2⟩
    exact Or.inl ⟨by rw [h1], by rw [h2]⟩

/-- The edge of a cell, as an unordered pair of graph vertices. -/
def cellEdge (z : Node rows cols) : Sym2 (Fin rows ⊕ Fin cols) :=
  s(Sum.inl z.1, Sum.inr z.2)

theorem cellEdge_inj {z w : Node rows cols} (h : cellEdge z = cellEdge w) : z = w := by
  obtain ⟨h1, h2⟩ := (sym2_mixed_eq z.1 w.1 z.2 w.2).mp h
  exact Prod.ext h1 h2

theorem cellEdge_anchorV (d : Bool) (z : Node rows cols) :
    s(anchorV d z, anchorV (!d) z) = cellEdge z := by
  cases d with
  | true => rfl
  | false => exact Sym2.eq_swap

theorem mixed_eq_cellEdge (r : Fin rows) (c : Fin cols) (z : Node rows cols) :
    s(Sum.inl r, (Sum.inr c : Fin rows ⊕ Fin cols)) = cellEdge z ↔
      ((r, c) : Node rows cols) = z := by
  constructor
  · intro h
    exact cellEdge_inj h
  · intro h
    rw [← h]
    rfl

/-- A chain of alternating moves whose cells are all edges of `H` connects
its first anchor to its last. -/
theorem chain_reach (H : SimpleGraph (Fin rows ⊕ Fin cols)) :
    ∀ (zs : List (Node rows cols)) (d : Bool) (a e' : Node rows cols),
    Chain d a (zs ++ [e']) →
    (∀ x ∈ zs, H.Adj (Sum.inl x.1) (Sum.inr x.2)) →
    H.Reachable (anchorV d a) (anchorV (if zs.length % 2 = 0 then d else !d) e') := by
  intro zs
  induction zs with
  | nil =>
    intro d a e' hchain _
    cases hchain with
    | cons hs _ =>
      rw [show ([] : List (Node rows cols)).length % 2 = 0 from rfl, if_pos rfl,
        anchorV_share hs]
  | cons z zs' ih =>
    intro d a e' hchain hadj
    cases hchain with
    | cons hs hc =>
      have h1 : H.Reachable (anchorV d a) (anchorV (!d) z) := by
        rw [anchorV_share hs]
        exact (adj_anchorV (hadj z (List.mem_cons_self z zs')) d).reachable
      have h2 := ih (!d) z e' hc fun x hx => hadj x (List.mem_cons_of_mem z hx)
      simp only [Bool.not_not] at h2
      have hparity : (if (z :: zs').length % 2 = 0 then d else !d) =
          (if zs'.length % 2 = 0 then !d else d) := by
        rw [List.length_cons]
        rcases Nat.even_or_odd zs'.length with h | h
        · have h0 : zs'.length % 2 = 0 := Nat.even_iff.mp h
          have hh1 : (zs'.length + 1) % 2 = 1 := by omega
          rw [h0, hh1]
          simp
        · have h0 : zs'.length % 2 = 1 := Nat.odd_iff.mp h
          have hh1 : (zs'.length + 1) % 2 = 0 := by omega
          rw [h0, hh1]
          simp
      rw [hparity]
      exact h1.trans h2

/-- A chain restricted to a prefix of its cell list is still a chain. -/
theorem chain_prefix : ∀ (l1 : List (Node rows cols)) (d : Bool) (a : Node rows cols)
    (l2 : List (Node rows cols)), Chain d a (l1 ++ l2) → Chain d a l1 := by
  intro l1
  induction l1 with
  | nil => intro d a l2 _; exact Chain.nil d a
  | cons b l1' ih =>
    intro d a l2 hchain
    cases hchain with
    | cons hs hc => exact Chain.cons hs (ih (!d) b l2 hc)

/-- The tail of a chain after an explicit cell `b` is a chain anchored at
`b`, its kind given by the parity of the consumed prefix. -/
theorem chain_after : ∀ (l1 : List (Node rows cols)) (d : Bool) (a : Node rows cols)
    (b : Node rows cols) (l2 : List (Node rows cols)),
    Chain d a ((l1 ++ [b]) ++ l2) →
    Chain (if (l1.length + 1) % 2 = 0 then d else !d) b l2 := by
  intro l1
  induction l1 with
  | nil =>
    intro d a b l2 hchain
    cases hchain with
    | cons _ hc =>
      simp only [List.length_nil]
      rw [if_neg (by omega)]
      exact hc
  | cons c l1' ih =>
    intro d a b l2 hchain
    cases hchain with
    | cons _ hc =>
      have h := ih (!d) c b l2 hc
      simp only [Bool.not_not] at h
      have hparity : (if ((c :: l1').length + 1) % 2 = 0 then d else !d) =
          (if (l1'.length + 1) % 2 = 0 then !d else d) := by
        rw [List.length_cons]
        rcases Nat.mod_two_eq_zero_or_one (l1'.length + 1) with h0 | h0
        · have hh1 : (l1'.length + 1 + 1) % 2 = 1 := by omega
          rw [h0, hh1]
          simp
        · have hh1 : (l1'.length + 1 + 1) % 2 = 0 := by omega
          rw [h0, hh1]
          simp
      rw [hparity]
      exact h

/-- Rerouting: if every edge of `G` has its endpoints reachable in `H`, then
every `G`-reachability transfers to `H`. -/
theorem reachable_of_forall_adj {V : Type} {G H : SimpleGraph V}
    (h : ∀ a b : V, G.Adj a b → H.Reachable a b) {x y : V}
    (hxy : G.Reachable x y) : H.Reachable x y := by
  obtain ⟨w⟩ := hxy
  induction w with
  | nil => exact SimpleGraph.Reachable.refl _
  | cons ha _ ih => exact (h _ _ ha).trans ih

/-- Adjacency in a graph minus one edge. -/
theorem sdiff_fromEdgeSet_adj {V : Type} (G : SimpleGraph V) (e0 : Sym2 V) (p q : V) :
    (G \ SimpleGraph.fromEdgeSet {e0}).Adj p q ↔ G.Adj p q ∧ s(p, q) ≠ e0 := by
  rw [SimpleGraph.sdiff_adj, SimpleGraph.fromEdgeSet_adj]
  constructor
  · rintro ⟨h1, h2⟩
    exact ⟨h1, fun hc => h2 ⟨by simp [hc], G.ne_of_adj h1⟩⟩
  · rintro ⟨h1, h2⟩
    exact ⟨h1, fun hc => h2 (by simpa using hc.1)⟩

instance {V : Type} [DecidableEq V] (G : SimpleGraph V) [DecidableRel G.Adj] (e0 : Sym2 V) :
    DecidableRel (G \ SimpleGraph.fromEdgeSet {e0}).Adj := fun p q =>
  decidable_of_iff _ (sdiff_fromEdgeSet_adj G e0 p q).symm

instance decidableIsBridge {V : Type} [Fintype V] [DecidableEq V] (G : SimpleGraph V)
    [DecidableRel G.Adj] (v w : V) : Decidable (G.IsBridge s(v, w)) :=
  decidable_of_iff _ SimpleGraph.isBridge_iff.symm

/-- A kernel-reducible decision procedure for connectivity (the library
instance is defined by rewriting and does not evaluate). -/
instance decidableConnected {V : Type} [Fintype V] [DecidableEq V] (G : SimpleGraph V)
    [DecidableRel G.Adj] : Decidable G.Connected :=
  decidable_of_iff (G.Preconnected ∧ 0 < Fintype.card V)
    (by rw [G.connected_iff, Fintype.card_pos_iff])

instance decidableIsAcyclic {V : Type} [Fintype V] [DecidableEq V] (G : SimpleGraph V)
    [DecidableRel G.Adj] : Decidable G.IsAcyclic :=
  decidable_of_iff (∀ v w : V, G.Adj v w → G.IsBridge s(v, w))
    ⟨fun h => SimpleGraph.isAcyclic_iff_forall_adj_isBridge.mpr fun v w hvw => h v w hvw,
     fun h v w hvw => SimpleGraph.isAcyclic_iff_forall_adj_isBridge.mp h hvw⟩

instance decidableIsTree {V : Type} [Fintype V] [DecidableEq V] (G : SimpleGraph V)
    [DecidableRel G.Adj] : Decidable G.IsTree :=
  @decidable_of_iff G.IsTree (G.Connected ∧ G.IsAcyclic) (SimpleGraph.isTree_iff G).symm
    (@instDecidableAnd _ _ (decidableConnected G) (decidableIsAcyclic G))

theorem sym2_inl_inl_ne_mixed {α β : Type} (a b : α) (r : α) (c : β) :
    s(Sum.inl a, (Sum.inl b : α ⊕ β)) ≠ s(Sum.inl r, Sum.inr c) := by
  intro h
  rw [Sym2.eq_iff] at h
  rcases h with ⟨_, h⟩ | ⟨h, _⟩
  · exact Sum.inl_ne_inr h
  · exact Sum.inl_ne_inr h

theorem sym2_inr_inr_ne_mixed {α β : Type} (a b : β) (r : α) (c : β) :
    s(Sum.inr a, (Sum.inr b : α ⊕ β)) ≠ s(Sum.inl r, Sum.inr c) := by
  intro h
  rw [Sym2.eq_iff] at h
  rcases h with ⟨h, _⟩ | ⟨_, h⟩
  · exact Sum.inr_ne_inl h
  · exact Sum.inr_ne_inl h

/-- Swapping one tree edge `s(u, v)` for a fresh edge `s(x, y)` whose
endpoints are reachable from `u` and `v` without the removed edge yields a
tree again. -/
theorem isTree_swap {V : Type} (T G' : SimpleGraph V) (x y u v : V)
    (hT : T.IsTree) (hfT : T.Adj u v) (hxy : x ≠ y)
    (hchar : ∀ p q : V, G'.Adj p q ↔ ((T.Adj p q ∧ s(p, q) ≠ s(u, v)) ∨ s(p, q) = s(x, y)))
    (hux : (T \ SimpleGraph.fromEdgeSet {s(u, v)}).Reachable u x)
    (hvy : (T \ SimpleGraph.fromEdgeSet {s(u, v)}).Reachable v y) :
    G'.IsTree := by
  have hbridge : ¬(T \ SimpleGraph.fromEdgeSet {s(u, v)}).Reachable u v := by
    have hb := SimpleGraph.isAcyclic_iff_forall_adj_isBridge.mp
      (SimpleGraph.IsTree.IsAcyclic hT) hfT
    exact (SimpleGraph.isBridge_iff.mp hb).2
  have hDG' : (T \ SimpleGraph.fromEdgeSet {s(u, v)}) ≤ G' := by
    intro p q hpq
    rw [sdiff_fromEdgeSet_adj] at hpq
    exact (hchar p q).mpr (Or.inl hpq)
  have hG'xy : G'.Adj x y := (hchar x y).mpr (Or.inr rfl)
  have hG'uv : G'.Reachable u v :=
    ((hux.mono hDG').trans hG'xy.reachable).trans ((hvy.mono hDG').symm)
  have hconn : G'.Connected := by
    rw [SimpleGraph.connected_iff]
    refine ⟨?_, hT.isConnected.nonempty⟩
    intro s0 t0
    refine reachable_of_forall_adj ?_ (hT.isConnected.preconnected s0 t0)
    intro a b hab
    by_cases hf : s(a, b) = s(u, v)
    · rcases Sym2.eq_iff.mp hf with ⟨ha, hb2⟩ | ⟨ha, hb2⟩
      · rw [ha, hb2]
        exact hG'uv
      · rw [ha, hb2]
        exact hG'uv.symm
    · exact ((hchar a b).mpr (Or.inl ⟨hab, hf⟩)).reachable
  have hacyc : G'.IsAcyclic := by
    intro w0 c hc
    by_cases hε : s(x, y) ∈ c.edges
    · have hreach := (SimpleGraph.adj_and_reachable_delete_edges_iff_exists_cycle.mpr
        ⟨w0, c, hc, hε⟩).2
      have hle : G' \ SimpleGraph.fromEdgeSet {s(x, y)} ≤
          T \ SimpleGraph.fromEdgeSet {s(u, v)} := by
        intro p q hpq
        rw [sdiff_fromEdgeSet_adj] at hpq
        obtain ⟨hpq1, hpq2⟩ := hpq
        rcases (hchar p q).mp hpq1 with ⟨h1, h2⟩ | h1
        · rw [sdiff_fromEdgeSet_adj]
          exact ⟨h1, h2⟩
        · exact absurd h1 hpq2
      have hxyD := hreach.mono hle
      exact hbridge (hux.trans (hxyD.trans hvy.symm))
    · have key : ∀ p q : V, s(p, q) ∈ c.edges → T.Adj p q := by
        intro p q hmem
        have h1 := c.edges_subset_edgeSet hmem
        rw [SimpleGraph.mem_edgeSet] at h1
        rcases (hchar p q).mp h1 with ⟨h2, _⟩ | h2
        · exact h2
        · rw [h2] at hmem
          exact absurd hmem hε
      have hT_edges : ∀ e' ∈ c.edges, e' ∈ T.edgeSet :=
        Sym2.ind fun p q hmem => (T.mem_edgeSet).mpr (key p q hmem)
      exact SimpleGraph.IsTree.IsAcyclic hT _ (hc.transfer hT_edges)
  exact (SimpleGraph.isTree_iff G').mpr ⟨hconn, hacyc⟩

end BasisGraph

/-! ## The potential propagation (`calculatePotentials`) -/

section PotentialsAnalysis

variable {rows cols : ℕ}

/-- Exhaustive case analysis of one propagation step: either nothing happens
(and on a basic cell the two potentials are equi-known), or exactly one new
potential is derived. -/
theorem potStep_cases (g : Grid rows cols) (st : Potentials rows cols × Bool)
    (rc : Node rows cols) :
    (potStep g st rc = st ∧ ((g rc.1 rc.2).isBasin = true →
      (st.1.u rc.1).isSome = (st.1.v rc.2).isSome)) ∨
    ((g rc.1 rc.2).isBasin = true ∧ ∃ ur, st.1.u rc.1 = some ur ∧ st.1.v rc.2 = none ∧
      potStep g st rc = ({ st.1 with
        v := Function.update st.1.v rc.2 (some ((g rc.1 rc.2).cost - ur)) }, true)) ∨
    ((g rc.1 rc.2).isBasin = true ∧ ∃ vc, st.1.u rc.1 = none ∧ st.1.v rc.2 = some vc ∧
      potStep g st rc = ({ st.1 with
        u := Function.update st.1.u rc.1 (some ((g rc.1 rc.2).cost - vc)) }, true)) := by
  unfold potStep
  by_cases hb : (g rc.1 rc.2).isBasin = true
  · rw [if_pos hb]
    rcases hu : st.1.u rc.1 with _ | ur <;> rcases hv : st.1.v rc.2 with _ | vc
    · exact Or.inl ⟨rfl, fun _ => rfl⟩
    · exact Or.inr (Or.inr ⟨hb, vc, rfl, rfl, rfl⟩)
    · exact Or.inr (Or.inl ⟨hb, ur, rfl, rfl, rfl⟩)
    · exact Or.inl ⟨rfl, fun _ => rfl⟩
  · rw [if_neg hb]
    exact Or.inl ⟨rfl, fun hc => absurd hc hb⟩

/-- The `changed` flag never resets within a pass. -/
theorem potStep_flag (g : Grid rows cols) (st : Potentials rows cols × Bool)
    (rc : Node rows cols) (h : st.2 = true) : (potStep g st rc).2 = true := by
  rcases potStep_cases g st rc with ⟨he, _⟩ | ⟨_, _, _, _, he⟩ | ⟨_, _, _, _, he⟩
  · rw [he]; exact h
  · rw [he]
  · rw [he]

theorem potFold_flag (g : Grid rows cols) :
    ∀ (cells : List (Node rows cols)) (st : Potentials rows cols × Bool),
    st.2 = true → (cells.foldl (potStep g) st).2 = true := by
  intro cells
  induction cells with
  | nil => intro st h; exact h
  | cons c0 cs ih =>
    intro st h
    rw [List.foldl_cons]
    exact ih _ (potStep_flag g st c0 h)

/-- If a whole pass reports no change, then no cell of the pass changed
anything. -/
theorem potFold_false_steps (g : Grid rows cols) :
    ∀ (cells : List (Node rows cols)) (p : Potentials rows cols),
    (cells.foldl (potStep g) (p, false)).2 = false →
    ∀ rc ∈ cells, potStep g (p, false) rc = (p, false) := by
  intro cells
  induction cells with
  | nil => intro p _ rc hrc; exact absurd hrc (List.not_mem_nil rc)
  | cons c0 cs ih =>
    intro p h rc hrc
    rw [List.foldl_cons] at h
    have hc0 : potStep g (p, false) c0 = (p, false) := by
      rcases potStep_cases g (p, false) c0 with ⟨he, _⟩ | ⟨_, _, _, _, he⟩ | ⟨_, _, _, _, he⟩
      · exact he
      · rw [he] at h
        rw [potFold_flag g cs _ rfl] at h
        exact absurd h (by simp)
      · rw [he] at h
        rw [potFold_flag g cs _ rfl] at h
        exact absurd h (by simp)
    rcases List.mem_cons.mp hrc with hrc0 | hrcs
    · rw [hrc0]; exact hc0
    · rw [hc0] at h
      exact ih p h rc hrcs

/-- A cell whose step does nothing has equi-known potentials if basic. -/
theorem potStep_eq_basic (g : Grid rows cols) (p : Potentials rows cols)
    (rc : Node rows cols) (he : potStep g (p, false) rc = (p, false))
    (hb : (g rc.1 rc.2).isBasin = true) :
    (p.u rc.1).isSome = (p.v rc.2).isSome := by
  rcases potStep_cases g (p, false) rc with ⟨_, h2⟩ | ⟨_, _, _, _, he'⟩ | ⟨_, _, _, _, he'⟩
  · exact h2 hb
  · rw [he'] at he
    exact absurd (congrArg Prod.snd he) (by simp)
  · rw [he'] at he
    exact absurd (congrArg Prod.snd he) (by simp)

/-- Number of known potential entries. -/
def kappa (p : Potentials rows cols) : ℕ :=
  (Finset.univ.filter fun r : Fin rows => (p.u r).isSome = true).card +
  (Finset.univ.filter fun c : Fin cols => (p.v c).isSome = true).card

theorem kappa_le (p : Potentials rows cols) : kappa p ≤ rows + cols := by
  unfold kappa
  have h1 : (Finset.univ.filter fun r : Fin rows => (p.u r).isSome = true).card ≤ rows := by
    refine le_trans (Finset.card_filter_le _ _) ?_
    simp
  have h2 : (Finset.univ.filter fun c : Fin cols => (p.v c).isSome = true).card ≤ cols := by
    refine le_trans (Finset.card_filter_le _ _) ?_
    simp
  omega

/-- Pointwise knowledge growth. -/
def somele (p q : Potentials rows cols) : Prop :=
  (∀ r, (p.u r).isSome = true → (q.u r).isSome = true) ∧
  (∀ c, (p.v c).isSome = true → (q.v c).isSome = true)

theorem kappa_mono {p q : Potentials rows cols} (h : somele p q) : kappa p ≤ kappa q := by
  unfold kappa
  have h1 : (Finset.univ.filter fun r : Fin rows => (p.u r).isSome = true) ⊆
      (Finset.univ.filter fun r : Fin rows => (q.u r).isSome = true) := by
    intro r hr
    rw [Finset.mem_filter] at hr ⊢
    exact ⟨hr.1, h.1 r hr.2⟩
  have h2 : (Finset.univ.filter fun c : Fin cols => (p.v c).isSome = true) ⊆
      (Finset.univ.filter fun c : Fin cols => (q.v c).isSome = true) := by
    intro c hc
    rw [Finset.mem_filter] at hc ⊢
    exact ⟨hc.1, h.2 c hc.2⟩
  have := Finset.card_le_card h1
  have := Finset.card_le_card h2
  omega

theorem kappa_fill_v (p : Potentials rows cols) (c : Fin cols) (hv : p.v c = none) (x : ℤ) :
    kappa ({ p with v := Function.update p.v c (some x) } : Potentials rows cols) =
      kappa p + 1 := by
  unfold kappa
  have hvfil : (Finset.univ.filter fun c' : Fin cols =>
      ((Function.update p.v c (some x)) c').isSome = true) =
      insert c (Finset.univ.filter fun c' : Fin cols => (p.v c').isSome = true) := by
    ext c'
    simp only [Finset.mem_filter, Finset.mem_univ, true_and, Finset.mem_insert]
    by_cases hc : c' = c
    · subst hc
      simp [Function.update_same]
    · rw [Function.update_noteq hc]
      simp [hc]
  rw [show (Finset.univ.filter fun r : Fin rows =>
      (({ p with v := Function.update p.v c (some x) } : Potentials rows cols).u r).isSome =
        true) = (Finset.univ.filter fun r : Fin rows => (p.u r).isSome = true) from rfl,
    hvfil, Finset.card_insert_of_not_mem]
  · ring
  · intro hc
    rw [Finset.mem_filter] at hc
    rw [hv] at hc
    exact absurd hc.2 (by simp)

theorem kappa_fill_u (p : Potentials rows cols) (r : Fin rows) (hu : p.u r = none) (x : ℤ) :
    kappa ({ p with u := Function.update p.u r (some x) } : Potentials rows cols) =
      kappa p + 1 := by
  unfold kappa
  have hufil : (Finset.univ.filter fun r' : Fin rows =>
      ((Function.update p.u r (some x)) r').isSome = true) =
      insert r (Finset.univ.filter fun r' : Fin rows => (p.u r').isSome = true) := by
    ext r'
    simp only [Finset.mem_filter, Finset.mem_univ, true_and, Finset.mem_insert]
    by_cases hc : r' = r
    · subst hc
      simp [Function.update_same]
    · rw [Function.update_noteq hc]
      simp [hc]
  rw [show (Finset.univ.filter fun c : Fin cols =>
      (({ p with u := Function.update p.u r (some x) } : Potentials rows cols).v c).isSome =
        true) = (Finset.univ.filter fun c : Fin cols => (p.v c).isSome = true) from rfl,
    hufil, Finset.card_insert_of_not_mem]
  · ring
  · intro hc
    rw [Finset.mem_filter] at hc
    rw [hu] at hc
    exact absurd hc.2 (by simp)

/-- Invariant of one pass: knowledge only grows, and once the flag is set at
least one entry more is known than at the start of the pass. -/
def PassInv (p0 : Potentials rows cols) (st : Potentials rows cols × Bool) : Prop :=
  somele p0 st.1 ∧ (st.2 = true → kappa p0 + 1 ≤ kappa st.1)

theorem potStep_passinv (g : Grid rows cols) (p0 : Potentials rows cols)
    (st : Potentials rows cols × Bool) (rc : Node rows cols)
    (h : PassInv p0 st) : PassInv p0 (potStep g st rc) := by
  obtain ⟨hmono, hflag⟩ := h
  rcases potStep_cases g st rc with ⟨he, _⟩ | ⟨hb, ur, hu, hv, he⟩ | ⟨hb, vc, hu, hv, he⟩
  · rw [he]; exact ⟨hmono, hflag⟩
  · rw [he]
    constructor
    · refine ⟨hmono.1, fun c hc => ?_⟩
      show (Function.update st.1.v rc.2 (some ((g rc.1 rc.2).cost - ur)) c).isSome = true
      by_cases hceq : c = rc.2
      · subst hceq
        simp [Function.update_same]
      · rw [Function.update_noteq hceq]
        exact hmono.2 c hc
    · intro _
      show kappa p0 + 1 ≤ kappa
        ({ st.1 with v := Function.update st.1.v rc.2 (some ((g rc.1 rc.2).cost - ur)) } :
          Potentials rows cols)
      rw [kappa_fill_v st.1 rc.2 hv]
      have := kappa_mono hmono
      omega
  · rw [he]
    constructor
    · refine ⟨fun r hr => ?_, hmono.2⟩
      show (Function.update st.1.u rc.1 (some ((g rc.1 rc.2).cost - vc)) r).isSome = true
      by_cases hreq : r = rc.1
      · subst hreq
        simp [Function.update_same]
      · rw [Function.update_noteq hreq]
        exact hmono.1 r hr
    · intro _
      show kappa p0 + 1 ≤ kappa
        ({ st.1 with u := Function.update st.1.u rc.1 (some ((g rc.1 rc.2).cost - vc)) } :
          Potentials rows cols)
      rw [kappa_fill_u st.1 rc.1 hu]
      have := kappa_mono hmono
      omega

theorem potFold_passinv (g : Grid rows cols) (p0 : Potentials rows cols) :
    ∀ (cells : List (Node rows cols)) (st : Potentials rows cols × Bool),
    PassInv p0 st → PassInv p0 (cells.foldl (potStep g) st) := by
  intro cells
  induction cells with
  | nil => intro st h; exact h
  | cons c0 cs ih =>
    intro st h
    rw [List.foldl_cons]
    exact ih _ (potStep_passinv g p0 st c0 h)

/-- A changing pass learns at least one new entry. -/
theorem potPass_kappa (g : Grid rows cols) (p : Potentials rows cols)
    (h : (potPass g p).2 = true) : kappa p + 1 ≤ kappa (potPass g p).1 := by
  have hinv : PassInv p (potPass g p) := by
    refine potFold_passinv g p (indexList rows cols) (p, false)
      ⟨⟨fun r hr => hr, fun c hc => hc⟩, fun hc => absurd hc (by simp)⟩
  exact hinv.2 h

/-- With fuel `rows + cols + 1` the propagation loop reaches the fixpoint of
the source's unbounded `while (changed)` loop. -/
theorem potLoop_fix (g : Grid rows cols) :
    ∀ (fuel : ℕ) (p : Potentials rows cols),
    rows + cols + 1 ≤ fuel + kappa p →
    (potPass g (potLoop g fuel p)).2 = false := by
  intro fuel
  induction fuel with
  | zero =>
    intro p hp
    have := kappa_le p
    omega
  | succ fuel ih =>
    intro p hp
    show (potPass g (if (potPass g p).2 = true then potLoop g fuel (potPass g p).1 else p)).2 =
      false
    by_cases hc : (potPass g p).2 = true
    · rw [if_pos hc]
      refine ih (potPass g p).1 ?_
      have := potPass_kappa g p hc
      omega
    · rw [if_neg hc]
      exact Bool.not_eq_true _ |>.mp hc

/-- The subgraph induced on a vertex predicate. -/
def restrictG {V : Type} (G : SimpleGraph V) (S : V → Prop) : SimpleGraph V where
  Adj a b := G.Adj a b ∧ S a ∧ S b
  symm := by
    intro a b h
    exact ⟨h.1.symm, h.2.2, h.2.1⟩
  loopless := by
    intro a h
    exact G.loopless a h.1

theorem restrictG_mono {V : Type} (G : SimpleGraph V) {S T : V → Prop}
    (h : ∀ w, S w → T w) : restrictG G S ≤ restrictG G T :=
  fun _ _ hab => ⟨hab.1, h _ hab.2.1, h _ hab.2.2⟩

theorem restrictG_support {V : Type} (G : SimpleGraph V) (S : V → Prop) :
    ∀ {a b : V} (p : (restrictG G S).Walk a b), S a → ∀ w ∈ p.support, S w := by
  intro a b p
  induction p with
  | nil =>
    intro ha w hw
    rw [SimpleGraph.Walk.support_nil] at hw
    rw [List.mem_singleton.mp hw]
    exact ha
  | cons h p ih =>
    intro ha w hw
    rw [SimpleGraph.Walk.support_cons] at hw
    rcases List.mem_cons.mp hw with hw | hw
    · rw [hw]; exact ha
    · exact ih h.2.2 w hw

theorem restrictG_edges {V : Type} (G : SimpleGraph V) (S : V → Prop)
    {a b : V} (p : (restrictG G S).Walk a b) :
    ∀ e ∈ p.edges, e ∈ G.edgeSet :=
  Sym2.ind fun _ _ hmem => (G.mem_edgeSet).mpr (p.adj_of_mem_edges hmem).1

/-- A property invariant along edges is invariant along reachability. -/
theorem reachable_iff_of_adj {V : Type} {G : SimpleGraph V} (f : V → Prop)
    (h : ∀ a b : V, G.Adj a b → (f a ↔ f b)) :
    ∀ {x y : V}, G.Reachable x y → (f x ↔ f y) := by
  intro x y hxy
  obtain ⟨w⟩ := hxy
  induction w with
  | nil => exact Iff.rfl
  | cons ha _ ih => exact (h _ _ ha).trans ih

/-- Which graph vertices carry a known potential. -/
def known (p : Potentials rows cols) : Fin rows ⊕ Fin cols → Prop
  | Sum.inl r => (p.u r).isSome = true
  | Sum.inr c => (p.v c).isSome = true

/-- Invariant of the whole propagation: the reference potential stays pinned,
all doubly-known basic cells satisfy the dual equation, and the known
vertices form a connected region of the basis graph around the root. -/
def PotInv (g : Grid rows cols) (hr : 0 < rows) (p : Potentials rows cols) : Prop :=
  p.u ⟨0, hr⟩ = some 0 ∧
  (∀ rc : Node rows cols, (g rc.1 rc.2).isBasin = true →
    ∀ ur vc, p.u rc.1 = some ur → p.v rc.2 = some vc → ur + vc = (g rc.1 rc.2).cost) ∧
  (∀ w : Fin rows ⊕ Fin cols, known p w →
    (restrictG (basisGraph g) (known p)).Reachable (Sum.inl ⟨0, hr⟩) w)

theorem potStep_potinv (g : Grid rows cols) (hr : 0 < rows)
    (hacyc : (basisGraph g).IsAcyclic)
    (st : Potentials rows cols × Bool) (rc : Node rows cols)
    (h : PotInv g hr st.1) : PotInv g hr (potStep g st rc).1 := by
  obtain ⟨h0, heq, hreach⟩ := h
  rcases potStep_cases g st rc with ⟨he, _⟩ | ⟨hb, ur, hu, hv, he⟩ | ⟨hb, vc, hu, hv, he⟩
  · rw [he]; exact ⟨h0, heq, hreach⟩
  · -- a new column potential is derived at `rc`
    rw [he]
    have hknown' : ∀ w, known ({ st.1 with
        v := Function.update st.1.v rc.2 (some ((g rc.1 rc.2).cost - ur)) } :
        Potentials rows cols) w ↔ (w = Sum.inr rc.2 ∨ known st.1 w) := by
      intro w
      cases w with
      | inl r =>
        constructor
        · intro hw; exact Or.inr hw
        · rintro (hc | hw)
          · exact absurd hc (by simp)
          · exact hw
      | inr c =>
        show (Function.update st.1.v rc.2 (some ((g rc.1 rc.2).cost - ur)) c).isSome = true ↔ _
        by_cases hc : c = rc.2
        · subst hc
          simp [Function.update_same]
        · rw [Function.update_noteq hc]
          constructor
          · intro hw; exact Or.inr hw
          · rintro (hceq | hw)
            · exact absurd (Sum.inr.inj hceq) hc
            · exact hw
    have hknown_r : known st.1 (Sum.inl rc.1) := by
      show (st.1.u rc.1).isSome = true
      rw [hu]
      rfl
    have hcnotk : ¬known st.1 (Sum.inr rc.2) := by
      show ¬(st.1.v rc.2).isSome = true
      rw [hv]
      simp
    refine ⟨h0, ?_, ?_⟩
    · intro z hz uz vz huz hvz
      have huz' : st.1.u z.1 = some uz := huz
      by_cases hcz : z.2 = rc.2
      · have hvz' : vz = (g rc.1 rc.2).cost - ur := by
          have : Function.update st.1.v rc.2 (some ((g rc.1 rc.2).cost - ur)) z.2 =
              some vz := hvz
          rw [hcz, Function.update_same] at this
          exact (Option.some.inj this).symm
        by_cases hrz : z.1 = rc.1
        · have hcell : z = rc := Prod.ext hrz hcz
          rw [hcell]
          have huu : uz = ur := by
            rw [hcell, hu] at huz'
            exact (Option.some.inj huz').symm
          rw [huu, hvz']
          ring
        · exfalso
          have hkz : known st.1 (Sum.inl z.1) := by
            show (st.1.u z.1).isSome = true
            rw [huz']
            rfl
          obtain ⟨wk⟩ := (hreach _ hkz).symm.trans (hreach _ hknown_r)
          have hadjz : (basisGraph g).Adj (Sum.inl z.1) (Sum.inr rc.2) := by
            rw [basisGraph_adj_inl_inr, ← hcz]
            exact hz
          have hbridge := (SimpleGraph.isBridge_iff_adj_and_forall_walk_mem_edges.mp
            (SimpleGraph.isAcyclic_iff_forall_adj_isBridge.mp hacyc hadjz)).2
          have hadjr : (basisGraph g).Adj (Sum.inl rc.1) (Sum.inr rc.2) := by
            rw [basisGraph_adj_inl_inr]
            exact hb
          have hfull := hbridge ((wk.transfer (basisGraph g)
            (restrictG_edges _ _ wk)).append
            (SimpleGraph.Walk.cons hadjr SimpleGraph.Walk.nil))
          rw [SimpleGraph.Walk.edges_append, List.mem_append] at hfull
          rcases hfull with hfull | hfull
          · have hsup := SimpleGraph.Walk.snd_mem_support_of_mem_edges _ hfull
            rw [SimpleGraph.Walk.support_transfer] at hsup
            exact hcnotk (restrictG_support _ _ wk hkz _ hsup)
          · rw [SimpleGraph.Walk.edges_cons, SimpleGraph.Walk.edges_nil] at hfull
            obtain ⟨h1, _⟩ := (sym2_mixed_eq z.1 rc.1 rc.2 rc.2).mp (List.mem_singleton.mp hfull)
            exact hrz h1
      · have hvz' : st.1.v z.2 = some vz := by
          have : Function.update st.1.v rc.2 (some ((g rc.1 rc.2).cost - ur)) z.2 =
              some vz := hvz
          rw [Function.update_noteq hcz] at this
          exact this
        exact heq z hz uz vz huz' hvz'
    · intro w hw
      have hle : restrictG (basisGraph g) (known st.1) ≤
          restrictG (basisGraph g) (known ({ st.1 with
            v := Function.update st.1.v rc.2 (some ((g rc.1 rc.2).cost - ur)) } :
            Potentials rows cols)) :=
        restrictG_mono _ fun w' hw' => (hknown' w').mpr (Or.inr hw')
      have hrrc2 : (restrictG (basisGraph g) (known ({ st.1 with
          v := Function.update st.1.v rc.2 (some ((g rc.1 rc.2).cost - ur)) } :
          Potentials rows cols))).Reachable (Sum.inl ⟨0, hr⟩) (Sum.inr rc.2) := by
        refine ((hreach _ hknown_r).mono hle).trans (SimpleGraph.Adj.reachable ?_)
        refine ⟨?_, ?_, ?_⟩
        · rw [basisGraph_adj_inl_inr]
          exact hb
        · exact (hknown' _).mpr (Or.inr hknown_r)
        · exact (hknown' _).mpr (Or.inl rfl)
      rcases (hknown' w).mp hw with hwc | hw'
      · rw [hwc]
        exact hrrc2
      · exact (hreach w hw').mono hle
  · -- a new row potential is derived at `rc`
    rw [he]
    have hknown' : ∀ w, known ({ st.1 with
        u := Function.update st.1.u rc.1 (some ((g rc.1 rc.2).cost - vc)) } :
        Potentials rows cols) w ↔ (w = Sum.inl rc.1 ∨ known st.1 w) := by
      intro w
      cases w with
      | inr c =>
        constructor
        · intro hw; exact Or.inr hw
        · rintro (hc | hw)
          · exact absurd hc (by simp)
          · exact hw
      | inl r =>
        show (Function.update st.1.u rc.1 (some ((g rc.1 rc.2).cost - vc)) r).isSome = true ↔ _
        by_cases hc : r = rc.1
        · subst hc
          simp [Function.update_same]
        · rw [Function.update_noteq hc]
          constructor
          · intro hw; exact Or.inr hw
          · rintro (hceq | hw)
            · exact absurd (Sum.inl.inj hceq) hc
            · exact hw
    have hknown_c : known st.1 (Sum.inr rc.2) := by
      show (st.1.v rc.2).isSome = true
      rw [hv]
      rfl
    have hrnotk : ¬known st.1 (Sum.inl rc.1) := by
      show ¬(st.1.u rc.1).isSome = true
      rw [hu]
      simp
    have h0' : (Function.update st.1.u rc.1 (some ((g rc.1 rc.2).cost - vc)))
        ⟨0, hr⟩ = some 0 := by
      by_cases hc : (⟨0, hr⟩ : Fin rows) = rc.1
      · exfalso
        refine hrnotk ?_
        show (st.1.u rc.1).isSome = true
        rw [← hc, h0]
        rfl
      · rw [Function.update_noteq hc]
        exact h0
    refine ⟨h0', ?_, ?_⟩
    · intro z hz uz vz huz hvz
      have hvz' : st.1.v z.2 = some vz := hvz
      by_cases hrz : z.1 = rc.1
      · have huz' : uz = (g rc.1 rc.2).cost - vc := by
          have : Function.update st.1.u rc.1 (some ((g rc.1 rc.2).cost - vc)) z.1 =
              some uz := huz
          rw [hrz, Function.update_same] at this
          exact (Option.some.inj this).symm
        by_cases hcz : z.2 = rc.2
        · have hcell : z = rc := Prod.ext hrz hcz
          rw [hcell]
          have hvv : vz = vc := by
            rw [hcell, hv] at hvz'
            exact (Option.some.inj hvz').symm
          rw [huz', hvv]
          ring
        · exfalso
          have hkz : known st.1 (Sum.inr z.2) := by
            show (st.1.v z.2).isSome = true
            rw [hvz']
            rfl
          obtain ⟨wk⟩ := (hreach _ hknown_c).symm.trans (hreach _ hkz)
          have hadjz : (basisGraph g).Adj (Sum.inl rc.1) (Sum.inr z.2) := by
            rw [basisGraph_adj_inl_inr, ← hrz]
            exact hz
          have hbridge := (SimpleGraph.isBridge_iff_adj_and_forall_walk_mem_edges.mp
            (SimpleGraph.isAcyclic_iff_forall_adj_isBridge.mp hacyc hadjz)).2
          have hadjr : (basisGraph g).Adj (Sum.inl rc.1) (Sum.inr rc.2) := by
            rw [basisGraph_adj_inl_inr]
            exact hb
          have hfull := hbridge (SimpleGraph.Walk.cons hadjr
            (wk.transfer (basisGraph g) (restrictG_edges _ _ wk)))
          rw [SimpleGraph.Walk.edges_cons, List.mem_cons] at hfull
          rcases hfull with hfull | hfull
          · obtain ⟨_, h2⟩ := (sym2_mixed_eq rc.1 rc.1 rc.2 z.2).mp hfull.symm
            exact hcz h2.symm
          · have hsup := SimpleGraph.Walk.fst_mem_support_of_mem_edges _ hfull
            rw [SimpleGraph.Walk.support_transfer] at hsup
            exact hrnotk (restrictG_support _ _ wk hknown_c _ hsup)
      · have huz' : st.1.u z.1 = some uz := by
          have : Function.update st.1.u rc.1 (some ((g rc.1 rc.2).cost - vc)) z.1 =
              some uz := huz
          rw [Function.update_noteq hrz] at this
          exact this
        exact heq z hz uz vz huz' hvz'
    · intro w hw
      have hle : restrictG (basisGraph g) (known st.1) ≤
          restrictG (basisGraph g) (known ({ st.1 with
            u := Function.update st.1.u rc.1 (some ((g rc.1 rc.2).cost - vc)) } :
            Potentials rows cols)) :=
        restrictG_mono _ fun w' hw' => (hknown' w').mpr (Or.inr hw')
      have hrrc1 : (restrictG (basisGraph g) (known ({ st.1 with
          u := Function.update st.1.u rc.1 (some ((g rc.1 rc.2).cost - vc)) } :
          Potentials rows cols))).Reachable (Sum.inl ⟨0, hr⟩) (Sum.inl rc.1) := by
        refine ((hreach _ hknown_c).mono hle).trans (SimpleGraph.Adj.reachable ?_)
        refine ⟨?_, ?_, ?_⟩
        · exact ((basisGraph g).symm ((basisGraph_adj_inl_inr g rc.1 rc.2).mpr hb))
        · exact (hknown' _).mpr (Or.inr hknown_c)
        · exact (hknown' _).mpr (Or.inl rfl)
      rcases (hknown' w).mp hw with hwc | hw'
      · rw [hwc]
        exact hrrc1
      · exact (hreach w hw').mono hle

theorem potFold_potinv (g : Grid rows cols) (hr : 0 < rows)
    (hacyc : (basisGraph g).IsAcyclic) :
    ∀ (cells : List (Node rows cols)) (st : Potentials rows cols × Bool),
    PotInv g hr st.1 → PotInv g hr (cells.foldl (potStep g) st).1 := by
  intro cells
  induction cells with
  | nil => intro st h; exact h
  | cons c0 cs ih =>
    intro st h
    rw [List.foldl_cons]
    exact ih _ (potStep_potinv g hr hacyc st c0 h)

theorem potLoop_potinv (g : Grid rows cols) (hr : 0 < rows)
    (hacyc : (basisGraph g).IsAcyclic) :
    ∀ (fuel : ℕ) (p : Potentials rows cols),
    PotInv g hr p → PotInv g hr (potLoop g fuel p) := by
  intro fuel
  induction fuel with
  | zero => intro p h; exact h
  | succ fuel ih =>
    intro p h
    show PotInv g hr (if (potPass g p).2 = true then potLoop g fuel (potPass g p).1 else p)
    by_cases hc : (potPass g p).2 = true
    · rw [if_pos hc]
      exact ih _ (potFold_potinv g hr hacyc (indexList rows cols) (p, false) h)
    · rw [if_neg hc]
      exact h

theorem potInv_init (g : Grid rows cols) (hr : 0 < rows) :
    PotInv g hr
      { u := fun r => if (r : ℕ) = 0 then some 0 else none, v := fun _ => none } := by
  refine ⟨by simp, ?_, ?_⟩
  · intro rc _ ur vc _ hvc
    exact absurd hvc (by simp)
  · intro w hw
    cases w with
    | inl r =>
      have hr0 : (r : ℕ) = 0 := by
        by_contra hc
        have : ((if (r : ℕ) = 0 then (some 0 : Option ℤ) else none)).isSome = true := hw
        rw [if_neg hc] at this
        exact absurd this (by simp)
      have : r = ⟨0, hr⟩ := Fin.ext hr0
      rw [this]
    | inr c =>
      exact absurd hw (by simp [known])

/-- Claim C3.  On every grid satisfying the spanning-tree basis invariant
(and with at least one row, so that the reference `u[0]` exists),
`calculatePotentials` returns fully-known potentials, keeps `u[0] = 0`, and
satisfies `u[r] + v[c] = cost(r, c)` on every basic cell. -/
theorem C3_potentials_complete {rows cols : ℕ} (g : Grid rows cols) (hr : 0 < rows)
    (hinv : basisInvariant g) :
    (∀ r, ((calculatePotentials g).u r).isSome = true) ∧
    (∀ c, ((calculatePotentials g).v c).isSome = true) ∧
    (calculatePotentials g).u ⟨0, hr⟩ = some 0 ∧
    (∀ rc : Node rows cols, (g rc.1 rc.2).isBasin = true →
      ∃ ur vc, (calculatePotentials g).u rc.1 = some ur ∧
        (calculatePotentials g).v rc.2 = some vc ∧ ur + vc = (g rc.1 rc.2).cost) := by
  obtain ⟨hcount, htree⟩ := hinv
  have hfix : (potPass g (calculatePotentials g)).2 = false := by
    show (potPass g (potLoop g (rows + cols + 1)
      { u := fun r => if (r : ℕ) = 0 then some 0 else none, v := fun _ => none })).2 = false
    exact potLoop_fix g (rows + cols + 1) _ (by omega)
  have hE : ∀ rc : Node rows cols, (g rc.1 rc.2).isBasin = true →
      ((calculatePotentials g).u rc.1).isSome = ((calculatePotentials g).v rc.2).isSome := by
    intro rc hb
    refine potStep_eq_basic g (calculatePotentials g) rc ?_ hb
    exact potFold_false_steps g (indexList rows cols) (calculatePotentials g) hfix rc
      (mem_indexList rc)
  have hPI : PotInv g hr (calculatePotentials g) := by
    show PotInv g hr (potLoop g (rows + cols + 1)
      { u := fun r => if (r : ℕ) = 0 then some 0 else none, v := fun _ => none })
    exact potLoop_potinv g hr (SimpleGraph.IsTree.IsAcyclic htree) (rows + cols + 1) _
      (potInv_init g hr)
  obtain ⟨h0, heqs, hreach⟩ := hPI
  have hcolor : ∀ a b, (basisGraph g).Adj a b →
      (known (calculatePotentials g) a ↔ known (calculatePotentials g) b) := by
    intro a b hab
    cases a with
    | inl r =>
      cases b with
      | inl r' => exact absurd hab (basisGraph_not_adj_inl_inl g r r')
      | inr c =>
        have hb := (basisGraph_adj_inl_inr g r c).mp hab
        have h := hE (r, c) hb
        dsimp only at h
        show (((calculatePotentials g).u r).isSome = true) ↔
          (((calculatePotentials g).v c).isSome = true)
        rw [h]
    | inr c =>
      cases b with
      | inr c' => exact absurd hab (basisGraph_not_adj_inr_inr g c c')
      | inl r =>
        have hb := (basisGraph_adj_inr_inl g c r).mp hab
        have h := hE (r, c) hb
        dsimp only at h
        show (((calculatePotentials g).v c).isSome = true) ↔
          (((calculatePotentials g).u r).isSome = true)
        rw [h]
  have hallknown : ∀ w, known (calculatePotentials g) w := by
    intro w
    have hρ : known (calculatePotentials g) (Sum.inl ⟨0, hr⟩) := by
      show ((calculatePotentials g).u ⟨0, hr⟩).isSome = true
      rw [h0]
      rfl
    exact (reachable_iff_of_adj (known (calculatePotentials g)) hcolor
      (htree.isConnected.preconnected (Sum.inl ⟨0, hr⟩) w)).mp hρ
  refine ⟨fun r => hallknown (Sum.inl r), fun c => hallknown (Sum.inr c), h0, ?_⟩
  intro rc hb
  obtain ⟨ur, hur⟩ := Option.isSome_iff_exists.mp (hallknown (Sum.inl rc.1))
  obtain ⟨vc, hvc⟩ := Option.isSome_iff_exists.mp (hallknown (Sum.inr rc.2))
  exact ⟨ur, vc, hur, hvc, heqs rc hb ur vc hur hvc⟩

end PotentialsAnalysis

/-! ## The loop search (`findLoop`) -/

section LoopSearch

variable {rows cols : ℕ}

/-- Every horizontal candidate is a row-move to the start cell or to a basic
cell. -/
theorem nextNodesH_spec (g : Grid rows cols) (start cur w : Node rows cols)
    (hw : w ∈ nextNodesH g start cur) :
    share true cur w ∧ (w = start ∨ (g w.1 w.2).isBasin = true) := by
  unfold nextNodesH at hw
  rw [List.mem_filterMap] at hw
  obtain ⟨c, _, hc⟩ := hw
  by_cases h1 : c ≠ cur.2
  · rw [if_pos h1] at hc
    by_cases h2 : c = start.2 ∧ cur.1 = start.1
    · rw [if_pos h2] at hc
      obtain rfl : (cur.1, c) = w := Option.some.inj hc
      exact ⟨⟨rfl, fun hcc => h1 hcc.symm⟩, Or.inl (Prod.ext h2.2 h2.1)⟩
    · rw [if_neg h2] at hc
      by_cases h3 : (g cur.1 c).isBasin = true
      · rw [if_pos h3] at hc
        obtain rfl : (cur.1, c) = w := Option.some.inj hc
        exact ⟨⟨rfl, fun hcc => h1 hcc.symm⟩, Or.inr h3⟩
      · rw [if_neg h3] at hc
        exact absurd hc (by simp)
  · rw [if_neg h1] at hc
    exact absurd hc (by simp)

/-- Every vertical candidate is a column-move to the start cell or to a basic
cell. -/
theorem nextNodesV_spec (g : Grid rows cols) (start cur w : Node rows cols)
    (hw : w ∈ nextNodesV g start cur) :
    share false cur w ∧ (w = start ∨ (g w.1 w.2).isBasin = true) := by
  unfold nextNodesV at hw
  rw [List.mem_filterMap] at hw
  obtain ⟨r, _, hr⟩ := hw
  by_cases h1 : r ≠ cur.1
  · rw [if_pos h1] at hr
    by_cases h2 : r = start.1 ∧ cur.2 = start.2
    · rw [if_pos h2] at hr
      obtain rfl : (r, cur.2) = w := Option.some.inj hr
      exact ⟨⟨rfl, fun hcc => h1 hcc.symm⟩, Or.inl (Prod.ext h2.1 h2.2)⟩
    · rw [if_neg h2] at hr
      by_cases h3 : (g r cur.2).isBasin = true
      · rw [if_pos h3] at hr
        obtain rfl : (r, cur.2) = w := Option.some.inj hr
        exact ⟨⟨rfl, fun hcc => h1 hcc.symm⟩, Or.inr h3⟩
      · rw [if_neg h3] at hr
        exact absurd hr (by simp)
  · rw [if_neg h1] at hr
    exact absurd hr (by simp)

/-- A row-move to the start cell or to a basic cell is a candidate. -/
theorem mem_nextNodesH (g : Grid rows cols) (start cur w : Node rows cols)
    (hs : share true cur w) (hw : w = start ∨ (g w.1 w.2).isBasin = true) :
    w ∈ nextNodesH g start cur := by
  obtain ⟨hs1, hs2⟩ := (show cur.1 = w.1 ∧ cur.2 ≠ w.2 from hs)
  unfold nextNodesH
  rw [List.mem_filterMap]
  refine ⟨w.2, List.mem_finRange w.2, ?_⟩
  rw [if_pos (show w.2 ≠ cur.2 from fun h => hs2 h.symm)]
  have hcw : (cur.1, w.2) = w := Prod.ext hs1 rfl
  by_cases h2 : w.2 = start.2 ∧ cur.1 = start.1
  · rw [if_pos h2, hcw]
  · rw [if_neg h2]
    rcases hw with hw | hw
    · exact absurd ⟨by rw [hw], by rw [hs1, hw]⟩ h2
    · rw [if_pos (by rw [hs1]; exact hw), hcw]

/-- A column-move to the start cell or to a basic cell is a candidate. -/
theorem mem_nextNodesV (g : Grid rows cols) (start cur w : Node rows cols)
    (hs : share false cur w) (hw : w = start ∨ (g w.1 w.2).isBasin = true) :
    w ∈ nextNodesV g start cur := by
  obtain ⟨hs1, hs2⟩ := (show cur.2 = w.2 ∧ cur.1 ≠ w.1 from hs)
  unfold nextNodesV
  rw [List.mem_filterMap]
  refine ⟨w.1, List.mem_finRange w.1, ?_⟩
  rw [if_pos (show w.1 ≠ cur.1 from fun h => hs2 h.symm)]
  have hcw : (w.1, cur.2) = w := Prod.ext rfl hs1
  by_cases h2 : w.1 = start.1 ∧ cur.2 = start.2
  · rw [if_pos h2, hcw]
  · rw [if_neg h2]
    rcases hw with hw | hw
    · exact absurd ⟨by rw [hw], by rw [hs1, hw]⟩ h2
    · rw [if_pos (by rw [hs1]; exact hw), hcw]

/-- Soundness of the backtracking search: any returned list extends the
current stack by an alternating chain of basic cells (the final duplicated
start apart), ends at the start, has length at least 4, and repeats no node
before its final element. -/
theorem searchLoop_sound (g : Grid rows cols) (start : Node rows cols) :
    ∀ (fuel : ℕ) (cur : Node rows cols) (d : Bool) (path : List (Node rows cols))
      (visited : Finset (Node rows cols)) (L : List (Node rows cols)),
    visited = path.toFinset →
    path.Nodup →
    ((path ++ [cur]).Nodup ∨ (cur = start ∧ path ≠ [])) →
    searchLoop g start fuel cur d path visited = some L →
    ∃ tail,
      L = path ++ cur :: tail ∧
      4 ≤ L.length ∧
      L.getLast? = some start ∧
      Chain d cur tail ∧
      (∀ z ∈ tail.dropLast, (g z.1 z.2).isBasin = true) ∧
      L.dropLast.Nodup ∧
      (path ≠ [] → cur = start → tail = []) := by
  intro fuel
  induction fuel with
  | zero =>
    intro cur d path visited L _ _ _ h
    exact absurd h (by simp [searchLoop])
  | succ fuel ih =>
    intro cur d path visited L hvis hnd1 hnd2 h
    rw [searchLoop] at h
    by_cases hacc : 4 ≤ (path ++ [cur]).length ∧ cur = start
    · rw [if_pos hacc] at h
      obtain rfl : path ++ [cur] = L := Option.some.inj h
      refine ⟨[], rfl, hacc.1, ?_, Chain.nil d cur, by simp, ?_, fun _ _ => rfl⟩
      · rw [List.getLast?_concat, hacc.2]
      · rw [List.dropLast_concat]
        exact hnd1
    · rw [if_neg hacc] at h
      by_cases hearly : 1 < (path ++ [cur]).length ∧ cur = start
      · rw [if_pos hearly] at h
        exact absurd h (by simp)
      · rw [if_neg hearly] at h
        obtain ⟨next, hnextmem, hfnext⟩ := List.exists_of_findSome?_eq_some h
        by_cases hprev : path.getLast? = some next
        · rw [if_pos hprev] at hfnext
          exact absurd hfnext (by simp)
        · rw [if_neg hprev] at hfnext
          by_cases hvg : next ∉ insert cur visited ∨ next = start
          · rw [if_pos hvg] at hfnext
            have hvis' : insert cur visited = (path ++ [cur]).toFinset := by
              rw [hvis]
              ext x
              simp [or_comm]
            have hnd1' : (path ++ [cur]).Nodup := by
              rcases hnd2 with h2 | ⟨hcs, hpne⟩
              · exact h2
              · exfalso
                refine hearly ⟨?_, hcs⟩
                have := List.length_pos.mpr hpne
                rw [List.length_append, List.length_singleton]
                omega
            have hnd2' : ((path ++ [cur]) ++ [next]).Nodup ∨
                (next = start ∧ path ++ [cur] ≠ []) := by
              rcases hvg with hnv | hns
              · left
                rw [List.nodup_append]
                refine ⟨hnd1', List.nodup_singleton next, ?_⟩
                intro x hx hx'
                rw [List.mem_singleton.mp hx'] at hx
                rw [hvis'] at hnv
                exact hnv (List.mem_toFinset.mpr hx)
              · exact Or.inr ⟨hns, by simp⟩
            obtain ⟨tail', hL, hlen4, hlast, hchain', hbasic', hnodupL, hstart'⟩ :=
              ih next (!d) (path ++ [cur]) (insert cur visited) L hvis' hnd1' hnd2' hfnext
            have hshare : share d cur next ∧
                (next = start ∨ (g next.1 next.2).isBasin = true) := by
              cases d with
              | true =>
                rw [if_pos rfl] at hnextmem
                exact nextNodesH_spec g start cur next hnextmem
              | false =>
                rw [if_neg (by simp)] at hnextmem
                exact nextNodesV_spec g start cur next hnextmem
            refine ⟨next :: tail', by rw [hL]; simp, hlen4, hlast,
              Chain.cons hshare.1 hchain', ?_, hnodupL, ?_⟩
            · intro z hz
              rcases tail' with _ | ⟨t0, ts⟩
              · simp at hz
              · rw [List.dropLast_cons₂] at hz
                rcases List.mem_cons.mp hz with hz0 | hzr
                · rcases hshare.2 with hns | hnb
                  · exfalso
                    have := hstart' (by simp) hns
                    simp at this
                  · rw [hz0]
                    exact hnb
                · exact hbasic' z hzr
            · intro hpne hcs
              exfalso
              refine hearly ⟨?_, hcs⟩
              have := List.length_pos.mpr hpne
              rw [List.length_append, List.length_singleton]
              omega
          · rw [if_neg hvg] at hfnext
            exact absurd hfnext (by simp)

/-- A chain with edge-cells in `H` yields a walk whose edges are exactly the
cell edges. -/
theorem chain_walk (H : SimpleGraph (Fin rows ⊕ Fin cols)) :
    ∀ (zs : List (Node rows cols)) (d : Bool) (a e' : Node rows cols),
    Chain d a (zs ++ [e']) →
    (∀ x ∈ zs, H.Adj (Sum.inl x.1) (Sum.inr x.2)) →
    ∃ w : H.Walk (anchorV d a) (anchorV (if zs.length % 2 = 0 then d else !d) e'),
      w.edges = zs.map cellEdge := by
  intro zs
  induction zs with
  | nil =>
    intro d a e' hchain _
    cases hchain with
    | cons hs _ =>
      refine ⟨(SimpleGraph.Walk.nil).copy (anchorV_share hs).symm ?_, ?_⟩
      · show anchorV d e' = anchorV (if (0 : ℕ) % 2 = 0 then d else !d) e'
        rfl
      · rw [SimpleGraph.Walk.edges_copy]
        rfl
  | cons z zs' ihz =>
    intro d a e' hchain hadj
    cases hchain with
    | cons hs hc =>
      obtain ⟨w', hw'⟩ := ihz (!d) z e' hc fun x hx => hadj x (List.mem_cons_of_mem z hx)
      have hparity : anchorV (if zs'.length % 2 = 0 then !d else !(!d)) e' =
          anchorV (if (z :: zs').length % 2 = 0 then d else !d) e' := by
        simp only [Bool.not_not]
        rw [List.length_cons]
        rcases Nat.mod_two_eq_zero_or_one zs'.length with h0 | h0
        · have hh1 : (zs'.length + 1) % 2 = 1 := by omega
          rw [h0, hh1]
          simp
        · have hh1 : (zs'.length + 1) % 2 = 0 := by omega
          rw [h0, hh1]
          simp
      refine ⟨(SimpleGraph.Walk.cons (adj_anchorV (hadj z (List.mem_cons_self z zs')) d) w').copy
        (anchorV_share hs).symm hparity, ?_⟩
      rw [SimpleGraph.Walk.edges_copy, SimpleGraph.Walk.edges_cons, hw',
        cellEdge_anchorV d z]
      rfl

/-- The first edge of a walk whose edge list is known. -/
theorem walk_first_edge {V : Type} {G : SimpleGraph V} {a b : V} (w : G.Walk a b)
    {e0 : Sym2 V} {es : List (Sym2 V)} (hw : w.edges = e0 :: es) :
    ∃ (c : V) (hadj : G.Adj a c) (q : G.Walk c b), e0 = s(a, c) ∧ q.edges = es := by
  cases w with
  | nil => simp at hw
  | cons hadj q =>
    rw [SimpleGraph.Walk.edges_cons] at hw
    have h1 := (List.cons.injEq _ _ _ _).mp hw
    exact ⟨_, hadj, q, h1.1.symm, h1.2⟩

/-- In an acyclic basis graph, an alternating cycle of distinct basic cells
closing at a non-repeated entering cell has odd interior length: an even
interior would give a closed trail, which an acyclic graph does not have. -/
theorem chain_odd (g : Grid rows cols) (hacyc : (basisGraph g).IsAcyclic)
    (e : Node rows cols) (zs : List (Node rows cols)) (d0 : Bool)
    (hchain : Chain d0 e (zs ++ [e]))
    (hbasic : ∀ z ∈ zs, (g z.1 z.2).isBasin = true)
    (hnd : (e :: zs).Nodup) (hlen2 : 2 ≤ zs.length) :
    zs.length % 2 = 1 := by
  rcases Nat.mod_two_eq_zero_or_one zs.length with heven | hodd
  · exfalso
    obtain ⟨w, hw⟩ := chain_walk (basisGraph g) zs d0 e e hchain
      (fun x hx => (basisGraph_adj_inl_inr g x.1 x.2).mpr (hbasic x hx))
    rcases zs with _ | ⟨z1, rest⟩
    · simp at hlen2
    · rw [List.map_cons] at hw
      obtain ⟨c, hadj, q, he0, hq⟩ := walk_first_edge w hw
      have hb : anchorV (if (z1 :: rest).length % 2 = 0 then d0 else !d0) e =
          anchorV d0 e := by
        rw [if_pos heven]
      have hbridge := (SimpleGraph.isBridge_iff_adj_and_forall_walk_mem_edges.mp
        (SimpleGraph.isAcyclic_iff_forall_adj_isBridge.mp hacyc hadj)).2
      have hmem := hbridge (q.copy rfl hb).reverse
      rw [SimpleGraph.Walk.edges_reverse, List.mem_reverse,
        SimpleGraph.Walk.edges_copy, hq, ← he0] at hmem
      obtain ⟨z', hz'mem, hz'eq⟩ := List.mem_map.mp hmem
      have hz1 : z' = z1 := cellEdge_inj hz'eq
      rw [hz1] at hz'mem
      have hnd2 : (z1 :: rest).Nodup := (List.nodup_cons.mp hnd).2
      exact (List.nodup_cons.mp hnd2).1 hz'mem
  · exact hodd

/-- Adjacency from a row node goes to a column node of a basic cell. -/
theorem basisGraph_adj_inl {g : Grid rows cols} {r : Fin rows}
    {m : Fin rows ⊕ Fin cols} (h : (basisGraph g).Adj (Sum.inl r) m) :
    ∃ c, m = Sum.inr c ∧ (g r c).isBasin = true := by
  cases m with
  | inl r' => exact absurd h (basisGraph_not_adj_inl_inl g r r')
  | inr c => exact ⟨c, rfl, (basisGraph_adj_inl_inr g r c).mp h⟩

/-- Adjacency from a column node goes to a row node of a basic cell. -/
theorem basisGraph_adj_inr {g : Grid rows cols} {c : Fin cols}
    {m : Fin rows ⊕ Fin cols} (h : (basisGraph g).Adj (Sum.inr c) m) :
    ∃ r, m = Sum.inl r ∧ (g r c).isBasin = true := by
  cases m with
  | inr c' => exact absurd h (basisGraph_not_adj_inr_inr g c c')
  | inl r => exact ⟨r, rfl, (basisGraph_adj_inr_inl g c r).mp h⟩

/-- A path between the two anchors of a non-basic cell in the basis graph
yields an alternating chain of distinct basic cells closing the cycle. -/
theorem walk_chain (g : Grid rows cols) (e : Node rows cols)
    (henb : ¬(g e.1 e.2).isBasin = true) :
    ∀ {x y : Fin rows ⊕ Fin cols} (w : (basisGraph g).Walk x y),
    y = Sum.inr e.2 →
    w.IsPath →
    ∀ (d : Bool) (cur : Node rows cols),
    x = anchorV d cur →
    (cur = e → d = true) →
    (cur = e ∨ anchorV (!d) cur ∉ w.support) →
    ∃ zs, Chain d cur (zs ++ [e]) ∧ (∀ z ∈ zs, (g z.1 z.2).isBasin = true) ∧
      List.map cellEdge zs = w.edges := by
  intro x y w
  induction w with
  | nil =>
    intro hy hpath d cur hx hcure hav
    rw [hy] at hx
    have hd : d = false := by
      cases d with
      | false => rfl
      | true => exact absurd hx (by simp [anchorV])
    subst hd
    have hcur2 : e.2 = cur.2 := Sum.inr.inj (show Sum.inr e.2 = Sum.inr cur.2 from hx)
    have hne : cur ≠ e := by
      intro hce
      exact absurd (hcure hce) (by simp)
    refine ⟨[], ?_, by simp, by simp⟩
    refine Chain.cons ?_ (Chain.nil _ _)
    show cur.2 = e.2 ∧ cur.1 ≠ e.1
    exact ⟨hcur2.symm, fun h1 => hne (Prod.ext h1 hcur2.symm)⟩
  | cons hadj w' ihw =>
    intro hy hpath d cur hx hcure hav
    subst hx
    have hxnotin : ∀ z, z ∈ w'.support → z ≠ anchorV d cur := by
      intro z hz hcontra
      have hnd := hpath.2
      rw [SimpleGraph.Walk.support_cons] at hnd
      exact (List.nodup_cons.mp hnd).1 (hcontra ▸ hz)
    have hpath' : w'.IsPath := hpath.of_cons
    cases d with
    | true =>
      obtain ⟨c', rfl, hzb⟩ :=
        basisGraph_adj_inl (show (basisGraph g).Adj (Sum.inl cur.1) _ from hadj)
      have hzne : (cur.1, c') ≠ cur := by
        intro hzc
        have hc' : c' = cur.2 := congrArg Prod.snd hzc
        rcases hav with hce | hnav
        · rw [hce] at hzb hc'
          rw [hc'] at hzb
          exact henb hzb
        · refine hnav ?_
          rw [SimpleGraph.Walk.support_cons]
          refine List.mem_cons_of_mem _ ?_
          rw [show anchorV (!true) cur = Sum.inr cur.2 from rfl, ← hc']
          exact w'.start_mem_support
      have hznee : (cur.1, c') ≠ e := by
        intro hze
        have h1 : cur.1 = e.1 := by rw [← hze]
        have h2 : c' = e.2 := by rw [← hze]
        rw [h1, h2] at hzb
        exact henb hzb
      obtain ⟨zs', hchain', hbasic', hedges'⟩ := ihw hy hpath' (!true) (cur.1, c') rfl
        (fun hce => absurd hce hznee)
        (Or.inr (show anchorV (!(!true)) (cur.1, c') ∉ w'.support from
          fun hz => hxnotin _ hz rfl))
      refine ⟨(cur.1, c') :: zs', ?_, ?_, ?_⟩
      · refine Chain.cons ?_ hchain'
        show cur.1 = cur.1 ∧ cur.2 ≠ c'
        exact ⟨rfl, fun hcc => hzne (Prod.ext rfl hcc.symm)⟩
      · intro z hz
        rcases List.mem_cons.mp hz with hz0 | hzr
        · rw [hz0]
          exact hzb
        · exact hbasic' z hzr
      · rw [List.map_cons, hedges', SimpleGraph.Walk.edges_cons]
        rfl
    | false =>
      obtain ⟨r', rfl, hzb⟩ :=
        basisGraph_adj_inr (show (basisGraph g).Adj (Sum.inr cur.2) _ from hadj)
      have hzne : (r', cur.2) ≠ cur := by
        intro hzc
        have hr' : r' = cur.1 := congrArg Prod.fst hzc
        rcases hav with hce | hnav
        · have hd := hcure hce
          exact absurd hd (by simp)
        · refine hnav ?_
          rw [SimpleGraph.Walk.support_cons]
          refine List.mem_cons_of_mem _ ?_
          rw [show anchorV (!false) cur = Sum.inl cur.1 from rfl, ← hr']
          exact w'.start_mem_support
      have hznee : (r', cur.2) ≠ e := by
        intro hze
        have h1 : r' = e.1 := by rw [← hze]
        have h2 : cur.2 = e.2 := by rw [← hze]
        rw [h1, h2] at hzb
        exact henb hzb
      obtain ⟨zs', hchain', hbasic', hedges'⟩ := ihw hy hpath' (!false) (r', cur.2) rfl
        (fun hce => absurd hce hznee)
        (Or.inr (show anchorV (!(!false)) (r', cur.2) ∉ w'.support from
          fun hz => hxnotin _ hz rfl))
      refine ⟨(r', cur.2) :: zs', ?_, ?_, ?_⟩
      · refine Chain.cons ?_ hchain'
        show cur.2 = cur.2 ∧ cur.1 ≠ r'
        exact ⟨rfl, fun hcc => hzne (Prod.ext hcc.symm rfl)⟩
      · intro z hz
        rcases List.mem_cons.mp hz with hz0 | hzr
        · rw [hz0]
          exact hzb
        · exact hbasic' z hzr
      · rw [List.map_cons, hedges', SimpleGraph.Walk.edges_cons]
        exact congrArg (fun s0 => s0 :: w'.edges) Sym2.eq_swap

/-- Under the basis invariant every non-basic cell admits a closed alternating
chain of at least two distinct basic cells. -/
theorem cycle_exists (g : Grid rows cols) (hinv : basisInvariant g)
    (e : Node rows cols) (henb : ¬(g e.1 e.2).isBasin = true) :
    ∃ zs : List (Node rows cols), Chain true e (zs ++ [e]) ∧
      (∀ z ∈ zs, (g z.1 z.2).isBasin = true) ∧ (e :: zs).Nodup ∧
      2 ≤ zs.length := by
  obtain ⟨w0⟩ := hinv.2.isConnected.preconnected (Sum.inl e.1) (Sum.inr e.2)
  obtain ⟨zs, hchain, hbasic, hedges⟩ :=
    walk_chain g e henb w0.toPath.1 rfl w0.toPath.2 true e rfl
      (fun _ => rfl) (Or.inl rfl)
  have hednd : (List.map cellEdge zs).Nodup := by
    rw [hedges]
    exact w0.toPath.2.isTrail.edges_nodup
  have hzsnd : zs.Nodup := List.Nodup.of_map cellEdge hednd
  have henot : e ∉ zs := fun hz => henb (hbasic e hz)
  refine ⟨zs, hchain, hbasic, List.nodup_cons.mpr ⟨henot, hzsnd⟩, ?_⟩
  rcases zs with _ | ⟨z, _ | ⟨z2, rest⟩⟩
  · exfalso
    cases hchain with
    | cons hsh _ =>
      exact (show e.1 = e.1 ∧ e.2 ≠ e.2 from hsh).2 rfl
  · exfalso
    cases hchain with
    | cons hsh1 htl =>
      cases htl with
      | cons hsh2 _ =>
        exact (show e.1 = z.1 ∧ e.2 ≠ z.2 from hsh1).2
          (show z.2 = e.2 ∧ z.1 ≠ e.1 from hsh2).1.symm
  · simp only [List.length_cons]
    omega

/-- If a closed alternating chain of fresh basic cells remains ahead of the
search, `searchLoop` does not fail, given enough fuel. -/
theorem searchLoop_complete (g : Grid rows cols) (e : Node rows cols) :
    ∀ (l2 : List (Node rows cols)) (fuel : ℕ) (cur : Node rows cols) (d : Bool)
      (l1 : List (Node rows cols)),
    l2.length + 2 ≤ fuel →
    1 ≤ l1.length + l2.length →
    (e :: (l1 ++ cur :: l2)).Nodup →
    (∀ z ∈ l1 ++ cur :: l2, (g z.1 z.2).isBasin = true) →
    Chain d cur (l2 ++ [e]) →
    searchLoop g e fuel cur d (e :: l1) (insert e l1.toFinset) ≠ none := by
  intro l2
  induction l2 with
  | nil =>
    intro fuel cur d l1 hfuel hlen hnd hbasic hchain hnone
    obtain ⟨f1, rfl⟩ : ∃ f1, fuel = f1 + 1 := ⟨fuel - 1, by omega⟩
    have hcurne : cur ≠ e := by
      intro hce
      subst hce
      exact (List.nodup_cons.mp hnd).1 (by simp)
    rw [searchLoop] at hnone
    have hg1 : ¬(4 ≤ ((e :: l1) ++ [cur]).length ∧ cur = e) := fun h => hcurne h.2
    have hg2 : ¬(1 < ((e :: l1) ++ [cur]).length ∧ cur = e) := fun h => hcurne h.2
    rw [if_neg hg1, if_neg hg2, List.findSome?_eq_none] at hnone
    cases hchain with
    | cons hsh htl =>
      have hwmem : e ∈ (if d = true then nextNodesH g e cur else nextNodesV g e cur) := by
        cases d with
        | true =>
          rw [if_pos rfl]
          exact mem_nextNodesH g e cur e hsh (Or.inl rfl)
        | false =>
          rw [if_neg (by simp)]
          exact mem_nextNodesV g e cur e hsh (Or.inl rfl)
      have hfw := hnone e hwmem
      rcases l1 with _ | ⟨x, l1'⟩
      · simp at hlen
      have hguard : ¬((e :: x :: l1').getLast? = some e) := by
        intro hg
        rw [List.getLast?_cons_cons,
          List.getLast?_eq_getLast (x :: l1') (List.cons_ne_nil x l1')] at hg
        have hmem := List.getLast_mem (List.cons_ne_nil x l1')
        rw [Option.some.inj hg] at hmem
        exact (List.nodup_cons.mp hnd).1 (List.mem_append_left _ hmem)
      rw [if_neg hguard, if_pos (Or.inr rfl)] at hfw
      obtain ⟨f2, rfl⟩ : ∃ f2, f1 = f2 + 1 := ⟨f1 - 1, by omega⟩
      rw [searchLoop] at hfw
      have hacc : 4 ≤ ((((e :: x :: l1') ++ [cur]) ++ [e])).length ∧ e = e := by
        refine ⟨?_, rfl⟩
        simp only [List.length_append, List.length_cons, List.length_nil]
        omega
      rw [if_pos hacc] at hfw
      exact Option.some_ne_none _ hfw
  | cons z l2' ih =>
    intro fuel cur d l1 hfuel hlen hnd hbasic hchain hnone
    obtain ⟨f1, rfl⟩ : ∃ f1, fuel = f1 + 1 := ⟨fuel - 1, by omega⟩
    have hcurne : cur ≠ e := by
      intro hce
      subst hce
      exact (List.nodup_cons.mp hnd).1 (by simp)
    rw [searchLoop] at hnone
    have hg1 : ¬(4 ≤ ((e :: l1) ++ [cur]).length ∧ cur = e) := fun h => hcurne h.2
    have hg2 : ¬(1 < ((e :: l1) ++ [cur]).length ∧ cur = e) := fun h => hcurne h.2
    rw [if_neg hg1, if_neg hg2, List.findSome?_eq_none] at hnone
    cases hchain with
    | cons hsh htl =>
      have hbz : (g z.1 z.2).isBasin = true := hbasic z (by simp)
      have hwmem : z ∈ (if d = true then nextNodesH g e cur else nextNodesV g e cur) := by
        cases d with
        | true =>
          rw [if_pos rfl]
          exact mem_nextNodesH g e cur z hsh (Or.inr hbz)
        | false =>
          rw [if_neg (by simp)]
          exact mem_nextNodesV g e cur z hsh (Or.inr hbz)
      have hfw := hnone z hwmem
      have hndc := List.nodup_cons.mp hnd
      have hndt := hndc.2
      rw [List.nodup_append] at hndt
      have hzne : z ∉ (e :: l1) := by
        intro hz
        rcases List.mem_cons.mp hz with hze | hzl
        · apply hndc.1
          rw [← hze]
          simp
        · exact hndt.2.2 hzl (by simp)
      have hguard : ¬((e :: l1).getLast? = some z) := by
        intro hg
        rw [List.getLast?_eq_getLast (e :: l1) (List.cons_ne_nil e l1)] at hg
        have hmem := List.getLast_mem (List.cons_ne_nil e l1)
        rw [Option.some.inj hg] at hmem
        exact hzne hmem
      have hmemc : z ∉ insert cur (insert e l1.toFinset) ∨ z = e := by
        left
        simp only [Finset.mem_insert, List.mem_toFinset]
        push_neg
        refine ⟨?_, ?_, ?_⟩
        · intro hzc
          apply (List.nodup_cons.mp hndt.2.1).1
          rw [← hzc]
          exact List.mem_cons_self z l2'
        · intro hze2
          apply hzne
          rw [hze2]
          exact List.mem_cons_self e l1
        · intro hzl
          exact hzne (List.mem_cons_of_mem e hzl)
      rw [if_neg hguard, if_pos hmemc] at hfw
      have hvisEq : insert cur (insert e l1.toFinset) = insert e (l1 ++ [cur]).toFinset := by
        ext w
        simp
        tauto
      rw [hvisEq] at hfw
      have hre : (l1 ++ [cur]) ++ z :: l2' = l1 ++ cur :: z :: l2' := by simp
      refine ih f1 z (!d) (l1 ++ [cur]) ?_ ?_ ?_ ?_ htl hfw
      · simp only [List.length_cons] at hfuel
        omega
      · simp only [List.length_append, List.length_cons, List.length_nil]
        omega
      · rw [hre]
        exact hnd
      · rw [hre]
        exact hbasic

end LoopSearch

/-! ## Concrete instances used by witnesses and counterexamples -/

/-- A balanced 2×2 problem whose least-cost initial solution is not optimal
(the cell (1,0) has reduced cost −6), so one pivot is performed. -/
def Pex2 : ProblemState 2 2 where
  costs := ![![1, 2], ![3, 10]]
  initialSupply := ![10, 5]
  initialDemand := ![5, 10]

/-- The initial grid of `Pex2`. -/
def Gex2 : Grid 2 2 := solveLeastCost Pex2

/-- A balanced 3×3 problem on which the degeneracy repair of
`solveLeastCost` closes a cycle: the greedy phase allocates at (0,1), (1,0),
(0,0) and (2,2), and the repair then marks (1,1) basic, so the basis contains
the four cells (0,0), (0,1), (1,0), (1,1) — a cycle — and the node for row 2
is disconnected from the node for row 0. -/
def Pex3 : ProblemState 3 3 where
  costs := ![![3, 1, 9], ![2, 4, 9], ![9, 9, 5]]
  initialSupply := ![5, 2, 3]
  initialDemand := ![4, 3, 3]

/-- The initial grid of `Pex3`, whose basis is not a spanning tree. -/
def Gex3 : Grid 3 3 := solveLeastCost Pex3

/-- The cycle `findLoop` finds for the entering cell (1,0) of `Gex2`. -/
def loopEx2 : List (Node 2 2) :=
  [(1, 0), (1, 1), (0, 1), (0, 0), (1, 0)]

/-- A 2×3 grid whose four left cells form a basic cycle with allocation 5 and
whose off-cycle cell (0,2) is non-basic but still carries an allocation —
every basic cell has a non-empty allocation, yet `applyPivot` erases the
(0,2) allocation during its final cleanup. -/
def G10 : Grid 2 3 :=
  fun r c =>
    { cost := 1
      allocation := ![![some 5, some 5, some 7], ![some 5, some 5, none]] r c
      isBasin := ![![true, true, false], ![true, true, false]] r c
      opportunityCost := none
      highlight := Highlight.hNone }

/-- The same grid with the stray off-cycle allocation removed (non-basic
cells empty), satisfying the amended frame hypothesis of C10. -/
def G10b : Grid 2 3 :=
  fun r c =>
    { cost := 1
      allocation := ![![some 5, some 5, none], ![some 5, some 5, none]] r c
      isBasin := ![![true, true, false], ![true, true, false]] r c
      opportunityCost := none
      highlight := Highlight.hNone }

/-- A valid 4-cell alternating cycle through the left 2×2 block of `G10`. -/
def loop10 : List (Node 2 3) :=
  [(0, 0), (0, 1), (1, 1), (1, 0), (0, 0)]

/-- Row potentials of `Gex2` (basis (0,0), (0,1), (1,1) with costs 1, 2, 10
and `u[0] = 0`). -/
def uzEx2 : Fin 2 → ℤ := ![0, 8]

/-- Column potentials of `Gex2`. -/
def vzEx2 : Fin 2 → ℤ := ![1, 2]

/-! ## Lemmas about `applyPivot` -/

section Pivot

variable {rows cols : ℕ}

/-- The step function of the θ computation, on an index/node pair. -/
def thetaStep (g : Grid rows cols) (st : WithTop ℤ × Option (Node rows cols))
    (inode : ℕ × Node rows cols) : WithTop ℤ × Option (Node rows cols) :=
  if inode.1 % 2 = 1 then
    match (g inode.2.1 inode.2.2).allocation with
    | some a => if (a : WithTop ℤ) < st.1 then ((a : WithTop ℤ), some inode.2) else st
    | none => st
  else st

theorem thetaFold_eq (g : Grid rows cols) (loop : List (Node rows cols)) :
    thetaFold g loop = loop.enum.foldl (thetaStep g) (⊤, none) := by
  unfold thetaFold thetaStep
  rfl

/-- Invariant of the θ fold after processing the pairs in `done`: either no
odd-position pair with a non-`null` allocation was seen and θ is still `⊤`
with no leaving node, or θ is the allocation of the first minimiser among
the processed odd positions. -/
def ThetaInv (g : Grid rows cols) (done : List (ℕ × Node rows cols))
    (st : WithTop ℤ × Option (Node rows cols)) : Prop :=
  (st = (⊤, none) ∧ ∀ p ∈ done, p.1 % 2 = 1 → (g p.2.1 p.2.2).allocation = none)
  ∨ (∃ ps1 q ps2 t, done = ps1 ++ q :: ps2 ∧ q.1 % 2 = 1 ∧
      (g q.2.1 q.2.2).allocation = some t ∧ st = ((t : WithTop ℤ), some q.2) ∧
      (∀ p ∈ done, p.1 % 2 = 1 → ∀ a, (g p.2.1 p.2.2).allocation = some a → t ≤ a) ∧
      (∀ p ∈ ps1, p.1 % 2 = 1 → ∀ a, (g p.2.1 p.2.2).allocation = some a → t < a))

theorem thetaFold_spec (g : Grid rows cols) :
    ∀ (ps done : List (ℕ × Node rows cols)) (st : WithTop ℤ × Option (Node rows cols)),
    ThetaInv g done st → ThetaInv g (done ++ ps) (ps.foldl (thetaStep g) st) := by
  intro ps
  induction ps with
  | nil => intro done st h; simpa using h
  | cons q qs ih =>
    intro done st h
    have hnext : ThetaInv g (done ++ [q]) (thetaStep g st q) := by
      unfold thetaStep
      by_cases hodd : q.1 % 2 = 1
      · rw [if_pos hodd]
        rcases hq : (g q.2.1 q.2.2).allocation with _ | a
        · rcases h with ⟨hst, hnone⟩ | ⟨ps1, q', ps2, t, hsplit, hq', ha, hst, hle, hlt⟩
          · refine Or.inl ⟨hst, ?_⟩
            intro p hp hpo
            rcases List.mem_append.mp hp with hp | hp
            · exact hnone p hp hpo
            · rw [List.mem_singleton.mp hp]; exact hq
          · refine Or.inr ⟨ps1, q', ps2 ++ [q], t, by rw [hsplit]; simp, hq', ha, hst, ?_, hlt⟩
            intro p hp hpo a hpa
            rcases List.mem_append.mp hp with hp | hp
            · exact hle p hp hpo a hpa
            · rw [List.mem_singleton.mp hp] at hpa
              rw [hq] at hpa
              exact absurd hpa (by simp)
        · rcases h with ⟨hst, hnone⟩ | ⟨ps1, q', ps2, t, hsplit, hq', ha, hst, hle, hlt⟩
          · rw [hst]
            dsimp only
            rw [if_pos (WithTop.coe_lt_top a)]
            refine Or.inr ⟨done, q, [], a, by simp, hodd, hq, rfl, ?_, ?_⟩
            · intro p hp hpo b hpb
              rcases List.mem_append.mp hp with hp | hp
              · rw [hnone p hp hpo] at hpb
                exact absurd hpb (by simp)
              · rw [List.mem_singleton.mp hp] at hpb
                rw [hq] at hpb
                exact le_of_eq (Option.some.inj hpb)
            · intro p hp hpo b hpb
              rw [hnone p hp hpo] at hpb
              exact absurd hpb (by simp)
          · rw [hst]
            dsimp only
            by_cases hcmp : (a : WithTop ℤ) < (t : WithTop ℤ)
            · rw [if_pos hcmp]
              have hcmpz : a < t := by exact_mod_cast hcmp
              refine Or.inr ⟨done, q, [], a, by simp, hodd, hq, rfl, ?_, ?_⟩
              · intro p hp hpo b hpb
                rcases List.mem_append.mp hp with hp | hp
                · exact le_of_lt (lt_of_lt_of_le hcmpz (hle p hp hpo b hpb))
                · rw [List.mem_singleton.mp hp] at hpb
                  rw [hq] at hpb
                  exact le_of_eq (Option.some.inj hpb)
              · intro p hp hpo b hpb
                exact lt_of_lt_of_le hcmpz (hle p hp hpo b hpb)
            · rw [if_neg hcmp]
              have hcmpz : t ≤ a := by
                have := not_lt.mp hcmp
                exact_mod_cast this
              refine Or.inr ⟨ps1, q', ps2 ++ [q], t, by rw [hsplit]; simp, hq', ha, rfl, ?_, hlt⟩
              intro p hp hpo b hpb
              rcases List.mem_append.mp hp with hp | hp
              · exact hle p hp hpo b hpb
              · rw [List.mem_singleton.mp hp] at hpb
                rw [hq] at hpb
                exact le_trans hcmpz (le_of_eq (Option.some.inj hpb))
      · rw [if_neg hodd]
        rcases h with ⟨hst, hnone⟩ | ⟨ps1, q', ps2, t, hsplit, hq', ha, hst, hle, hlt⟩
        · refine Or.inl ⟨hst, ?_⟩
          intro p hp hpo
          rcases List.mem_append.mp hp with hp | hp
          · exact hnone p hp hpo
          · rw [List.mem_singleton.mp hp] at hpo ⊢
            exact absurd hpo hodd
        · refine Or.inr ⟨ps1, q', ps2 ++ [q], t, by rw [hsplit]; simp, hq', ha, hst, ?_, hlt⟩
          intro p hp hpo a hpa
          rcases List.mem_append.mp hp with hp | hp
          · exact hle p hp hpo a hpa
          · rw [List.mem_singleton.mp hp] at hpo
            exact absurd hpo hodd
    have := ih (done ++ [q]) (thetaStep g st q) hnext
    simpa using this

/-- The θ fold satisfies its invariant over the whole enumerated loop. -/
theorem thetaFold_cases (g : Grid rows cols) (loop : List (Node rows cols)) :
    ThetaInv g loop.enum (thetaFold g loop) := by
  rw [thetaFold_eq]
  have := thetaFold_spec g loop.enum [] (⊤, none) (Or.inl ⟨rfl, by simp⟩)
  simpa using this

/-- A pivot step touches only the cell it addresses. -/
theorem pivotStep_off (theta : WithTop ℤ) (gr : Grid rows cols)
    (p : ℕ × Node rows cols) {rc : Node rows cols} (h : p.2 ≠ rc) :
    pivotStep theta gr p rc.1 rc.2 = gr rc.1 rc.2 := by
  have hne : ¬(rc.1 = p.2.1 ∧ rc.2 = p.2.2) := by
    intro hcontra
    exact h (Prod.ext hcontra.1.symm hcontra.2.symm)
  unfold pivotStep
  split <;> exact setCell_ne _ _ _ _ hne

/-- A pivot step preserves the cost, opportunity cost and highlight of every
cell. -/
theorem pivotStep_fields (theta : WithTop ℤ) (gr : Grid rows cols)
    (p : ℕ × Node rows cols) (rc : Node rows cols) :
    (pivotStep theta gr p rc.1 rc.2).cost = (gr rc.1 rc.2).cost ∧
    (pivotStep theta gr p rc.1 rc.2).opportunityCost = (gr rc.1 rc.2).opportunityCost ∧
    (pivotStep theta gr p rc.1 rc.2).highlight = (gr rc.1 rc.2).highlight := by
  unfold pivotStep
  split <;> simp only [setCell_apply] <;> split <;> simp

/-- The θ-application fold leaves cells outside the processed node list
untouched. -/
theorem pivotFold_off (theta : WithTop ℤ) :
    ∀ (ps : List (ℕ × Node rows cols)) (gr : Grid rows cols) (rc : Node rows cols),
    (∀ p ∈ ps, p.2 ≠ rc) →
    (ps.foldl (pivotStep theta) gr) rc.1 rc.2 = gr rc.1 rc.2 := by
  intro ps
  induction ps with
  | nil => intro gr rc _; rfl
  | cons p ps ih =>
    intro gr rc h
    rw [List.foldl_cons, ih _ _ (fun q hq => h q (List.mem_cons_of_mem p hq)),
      pivotStep_off theta gr p (h p (List.mem_cons_self p ps))]

/-- The θ-application fold preserves cost, opportunity cost and highlight. -/
theorem pivotFold_fields (theta : WithTop ℤ) :
    ∀ (ps : List (ℕ × Node rows cols)) (gr : Grid rows cols) (rc : Node rows cols),
    ((ps.foldl (pivotStep theta) gr) rc.1 rc.2).cost = (gr rc.1 rc.2).cost ∧
    ((ps.foldl (pivotStep theta) gr) rc.1 rc.2).opportunityCost = (gr rc.1 rc.2).opportunityCost ∧
    ((ps.foldl (pivotStep theta) gr) rc.1 rc.2).highlight = (gr rc.1 rc.2).highlight := by
  intro ps
  induction ps with
  | nil => intro gr rc; exact ⟨rfl, rfl, rfl⟩
  | cons p ps ih =>
    intro gr rc
    obtain ⟨h1, h2, h3⟩ := pivotStep_fields theta gr p rc
    obtain ⟨g1, g2, g3⟩ := ih (pivotStep theta gr p) rc
    exact ⟨g1.trans h1, g2.trans h2, g3.trans h3⟩

/-- A leaving node reported by the θ computation is a loop node. -/
theorem thetaFold_leaving_mem (g : Grid rows cols) (loop : List (Node rows cols))
    {lv : Node rows cols} (h : (thetaFold g loop).2 = some lv) : lv ∈ loop := by
  rcases thetaFold_cases g loop with ⟨hst, _⟩ | ⟨ps1, q, ps2, t, hsplit, _, _, hst, _, _⟩
  · rw [hst] at h
    exact absurd h (by simp)
  · rw [hst] at h
    have hq : q.2 = lv := Option.some.inj h
    have : q ∈ loop.enum := by
      rw [hsplit]
      simp
    rw [← hq]
    have := List.mem_enum_iff_get?.mp this
    exact List.get?_mem this

/-- Every cell of the pivoted grid keeps its cost (and its opportunity cost
and highlight are those the downstream cleanup expects). -/
theorem applyPivot_cost (g : Grid rows cols) (loop : List (Node rows cols))
    (rc : Node rows cols) :
    ((applyPivot g loop).1 rc.1 rc.2).cost = (g rc.1 rc.2).cost := by
  have hbase : (pivotBase g rc.1 rc.2).cost = (g rc.1 rc.2).cost := rfl
  have happ : (pivotApplied g loop rc.1 rc.2).cost = (g rc.1 rc.2).cost :=
    (pivotFold_fields _ _ _ rc).1.trans hbase
  have hleave : (pivotAfterLeaving g loop rc.1 rc.2).cost = (g rc.1 rc.2).cost := by
    unfold pivotAfterLeaving
    rcases hh : (thetaFold g loop).2 with _ | lv
    · exact happ
    · dsimp only
      rw [setCell_apply]
      split
      · exact happ
      · exact happ
  have hstart : (pivotAfterStart g loop rc.1 rc.2).cost = (g rc.1 rc.2).cost := by
    unfold pivotAfterStart
    rcases hh : loop.head? with _ | st0
    · exact hleave
    · dsimp only
      rw [setCell_apply]
      split
      · exact hleave
      · exact hleave
  show (if (pivotAfterStart g loop rc.1 rc.2).isBasin = true then pivotAfterStart g loop rc.1 rc.2
    else { pivotAfterStart g loop rc.1 rc.2 with allocation := none }).cost = (g rc.1 rc.2).cost
  split
  · exact hstart
  · exact hstart

/-- In the pivoted grid, every non-basic cell has an empty allocation (the
final cleanup pass of `applyPivot`). -/
theorem applyPivot_nonbasic_none (g : Grid rows cols) (loop : List (Node rows cols))
    (rc : Node rows cols) (h : ¬((applyPivot g loop).1 rc.1 rc.2).isBasin = true) :
    ((applyPivot g loop).1 rc.1 rc.2).allocation = none := by
  by_cases hb : (pivotAfterStart g loop rc.1 rc.2).isBasin = true
  · exact absurd (by simpa [applyPivot, hb] using hb) h
  · simp [applyPivot, hb]

/-- The entering node (`loop[0]`) is basic in the pivoted grid. -/
theorem applyPivot_entering_basic (g : Grid rows cols) (loop : List (Node rows cols))
    {st0 : Node rows cols} (h : loop.head? = some st0) :
    ((applyPivot g loop).1 st0.1 st0.2).isBasin = true := by
  have hstart : (pivotAfterStart g loop st0.1 st0.2).isBasin = true := by
    unfold pivotAfterStart
    rw [h]
    simp
  simp [applyPivot, hstart]

/-- The second component of an enumerated-list member is a list member. -/
theorem snd_mem_of_mem_enum {α : Type} {l : List α} {p : ℕ × α} (h : p ∈ l.enum) :
    p.2 ∈ l :=
  List.get?_mem (List.mem_enum_iff_get?.mp h)

/-- Cells outside the loop keep their allocation and basis membership across
`applyPivot`, provided the grid ties allocations to the basis (basic cells
are allocated, non-basic cells are empty). -/
theorem applyPivot_offloop (g : Grid rows cols) (loop : List (Node rows cols))
    (rc : Node rows cols) (hmem : rc ∉ loop)
    (hb : (g rc.1 rc.2).isBasin = true → (g rc.1 rc.2).allocation ≠ none)
    (hnb : ¬(g rc.1 rc.2).isBasin = true → (g rc.1 rc.2).allocation = none) :
    ((applyPivot g loop).1 rc.1 rc.2).allocation = (g rc.1 rc.2).allocation ∧
    ((applyPivot g loop).1 rc.1 rc.2).isBasin = (g rc.1 rc.2).isBasin := by
  have happlied : pivotApplied g loop rc.1 rc.2 = pivotBase g rc.1 rc.2 := by
    refine pivotFold_off _ _ _ rc ?_
    intro p hp hcontra
    exact hmem (hcontra ▸ List.mem_of_mem_take (snd_mem_of_mem_enum hp))
  have hleave : pivotAfterLeaving g loop rc.1 rc.2 = pivotBase g rc.1 rc.2 := by
    unfold pivotAfterLeaving
    rcases hh : (thetaFold g loop).2 with _ | lv
    · exact happlied
    · dsimp only
      rw [setCell_ne, happlied]
      intro hcontra
      exact hmem ((Prod.ext hcontra.1 hcontra.2 : rc = lv) ▸ thetaFold_leaving_mem g loop hh)
  have hstart : pivotAfterStart g loop rc.1 rc.2 = pivotBase g rc.1 rc.2 := by
    unfold pivotAfterStart
    rcases hh : loop.head? with _ | st0
    · exact hleave
    · dsimp only
      rw [setCell_ne, hleave]
      intro hcontra
      exact hmem ((Prod.ext hcontra.1 hcontra.2 : rc = st0) ▸ List.mem_of_mem_head? hh)
  have hbase : pivotBase g rc.1 rc.2 =
      { g rc.1 rc.2 with allocation := some (((g rc.1 rc.2).allocation).getD 0) } := rfl
  by_cases hbasic : (g rc.1 rc.2).isBasin = true
  · obtain ⟨a, ha⟩ := Option.ne_none_iff_exists'.mp (hb hbasic)
    have hcell : pivotAfterStart g loop rc.1 rc.2 = { g rc.1 rc.2 with allocation := some a } := by
      rw [hstart, hbase, ha]
      rfl
    have hsb : (pivotAfterStart g loop rc.1 rc.2).isBasin = true := by
      rw [hcell]
      exact hbasic
    constructor
    · show (if (pivotAfterStart g loop rc.1 rc.2).isBasin = true
          then pivotAfterStart g loop rc.1 rc.2
          else { pivotAfterStart g loop rc.1 rc.2 with allocation := none }).allocation =
        (g rc.1 rc.2).allocation
      rw [if_pos hsb, hcell, ha]
    · show (if (pivotAfterStart g loop rc.1 rc.2).isBasin = true
          then pivotAfterStart g loop rc.1 rc.2
          else { pivotAfterStart g loop rc.1 rc.2 with allocation := none }).isBasin =
        (g rc.1 rc.2).isBasin
      rw [if_pos hsb, hcell]
  · have hsb : ¬(pivotAfterStart g loop rc.1 rc.2).isBasin = true := by
      rw [hstart, hbase]
      exact hbasic
    constructor
    · show (if (pivotAfterStart g loop rc.1 rc.2).isBasin = true
          then pivotAfterStart g loop rc.1 rc.2
          else { pivotAfterStart g loop rc.1 rc.2 with allocation := none }).allocation =
        (g rc.1 rc.2).allocation
      rw [if_neg hsb, hnb hbasic]
    · show (if (pivotAfterStart g loop rc.1 rc.2).isBasin = true
          then pivotAfterStart g loop rc.1 rc.2
          else { pivotAfterStart g loop rc.1 rc.2 with allocation := none }).isBasin =
        (g rc.1 rc.2).isBasin
      rw [if_neg hsb]
      show (pivotAfterStart g loop rc.1 rc.2).isBasin = (g rc.1 rc.2).isBasin
      rw [hstart, hbase]

end Pivot

/-! ## Cost change of a pivot (towards claim C6) -/

section PivotCost

variable {rows cols : ℕ}

/-- `cellCost` is the allocation (defaulting to `0`) times the cost: the
`if allocation = 0` guard of the source is redundant for the value. -/
theorem cellCost_eq (c : Cell) : cellCost c = c.allocation.getD 0 * c.cost := by
  rcases h : c.allocation with _ | a
  · simp [cellCost, h]
  · by_cases ha : a = 0
    · simp [cellCost, h, ha]
    · simp [cellCost, h, ha]

/-- The double sum of `calculateTotalCost` as a single sum over coordinate
pairs. -/
theorem calculateTotalCost_eq_sum (g : Grid rows cols) :
    calculateTotalCost g = ∑ rc : Fin rows × Fin cols, cellCost (g rc.1 rc.2) := by
  rw [calculateTotalCost, ← Finset.univ_product_univ, Finset.sum_product]

/-- Value of the θ-application fold at a node that occurs only once in the
processed enumerated list. -/
theorem pivotFold_value (theta : WithTop ℤ) :
    ∀ (ps : List (ℕ × Node rows cols)) (gr : Grid rows cols),
    (ps.map Prod.snd).Nodup → ∀ p ∈ ps,
    (ps.foldl (pivotStep theta) gr) p.2.1 p.2.2 =
      (if p.1 % 2 = 0 then
        { gr p.2.1 p.2.2 with
            allocation := addTheta (gr p.2.1 p.2.2).allocation theta, isBasin := true }
      else
        { gr p.2.1 p.2.2 with
            allocation := subTheta (gr p.2.1 p.2.2).allocation theta }) := by
  intro ps
  induction ps with
  | nil => intro gr _ p hp; exact absurd hp (List.not_mem_nil p)
  | cons q qs ih =>
    intro gr hnd p hp
    rw [List.map_cons, List.nodup_cons] at hnd
    rcases List.mem_cons.mp hp with hpq | hp'
    · subst hpq
      have hoff : ∀ r ∈ qs, r.2 ≠ p.2 := by
        intro r hr hcontra
        exact hnd.1 (hcontra ▸ List.mem_map_of_mem Prod.snd hr)
      rw [List.foldl_cons, pivotFold_off theta qs (pivotStep theta gr p) p.2 hoff]
      unfold pivotStep
      by_cases hpar : p.1 % 2 = 0
      · rw [if_pos hpar, if_pos hpar, setCell_same]
      · rw [if_neg hpar, if_neg hpar, setCell_same]
    · have hne : q.2 ≠ p.2 := by
        intro hcontra
        exact hnd.1 (hcontra ▸ List.mem_map_of_mem Prod.snd hp')
      rw [List.foldl_cons, ih (pivotStep theta gr q) hnd.2 p hp',
        pivotStep_off theta gr q hne]

/-- Explicit form of the leaving-variable step when a leaving node exists. -/
theorem pivotAfterLeaving_eq (g : Grid rows cols) (loop : List (Node rows cols))
    {lv : Node rows cols} (h : (thetaFold g loop).2 = some lv) :
    pivotAfterLeaving g loop =
      setCell (pivotApplied g loop) lv.1 lv.2
        (fun cell => { cell with isBasin := false, allocation := none }) := by
  unfold pivotAfterLeaving
  rw [h]

/-- Explicit form of the entering-node step when the loop is non-empty. -/
theorem pivotAfterStart_eq (g : Grid rows cols) (loop : List (Node rows cols))
    {st0 : Node rows cols} (h : loop.head? = some st0) :
    pivotAfterStart g loop =
      setCell (pivotAfterLeaving g loop) st0.1 st0.2
        (fun cell => { cell with isBasin := true }) := by
  unfold pivotAfterStart
  rw [h]

/-- The final cleanup of `applyPivot`, cell by cell. -/
theorem applyPivot_fst (g : Grid rows cols) (loop : List (Node rows cols))
    (r : Fin rows) (c : Fin cols) :
    (applyPivot g loop).1 r c =
      if (pivotAfterStart g loop r c).isBasin = true then pivotAfterStart g loop r c
      else { pivotAfterStart g loop r c with allocation := none } := rfl

/-- Summing `±t · cost` over an enumerated list, the sign given by the parity
of the index, is `t` times the alternating cost sum. -/
theorem enumFrom_sign_sum (g : Grid rows cols) (t : ℤ) :
    ∀ (l : List (Node rows cols)) (k : ℕ) (sgn : Bool),
    (sgn = true ↔ k % 2 = 0) →
    ((List.enumFrom k l).map
      (fun p => (if p.1 % 2 = 0 then t else -t) * (g p.2.1 p.2.2).cost)).sum =
      t * altCostSum g sgn l := by
  intro l
  induction l with
  | nil => intro k sgn _; simp [altCostSum]
  | cons x l ih =>
    intro k sgn hks
    rw [List.enumFrom_cons, List.map_cons, List.sum_cons]
    rcases Nat.mod_two_eq_zero_or_one k with hk | hk
    · have hsgn : sgn = true := hks.mpr hk
      subst hsgn
      have hnext : ((!true) = true ↔ (k + 1) % 2 = 0) := by
        simp only [Bool.not_true, Bool.false_eq_true, false_iff]
        omega
      rw [if_pos hk,
        show altCostSum g true (x :: l) =
          (g x.1 x.2).cost + altCostSum g (!true) l from rfl,
        ih (k + 1) (!true) hnext]
      ring
    · have hsgn : sgn = false := by
        cases sgn with
        | true => exact absurd (hks.mp rfl) (by omega)
        | false => rfl
      subst hsgn
      have hnext : ((!false) = true ↔ (k + 1) % 2 = 0) := by
        simp only [Bool.not_false, true_iff]
        omega
      rw [if_neg (by omega),
        show altCostSum g false (x :: l) =
          -(g x.1 x.2).cost + altCostSum g (!false) l from rfl,
        ih (k + 1) (!false) hnext]
      ring

/-- The final cleanup never changes basis membership. -/
theorem applyPivot_isBasin (g : Grid rows cols) (loop : List (Node rows cols))
    (rc : Node rows cols) :
    ((applyPivot g loop).1 rc.1 rc.2).isBasin = (pivotAfterStart g loop rc.1 rc.2).isBasin := by
  rw [applyPivot_fst]
  split
  · rfl
  · rfl

/-- Exchanging one basic cell for one non-basic cell keeps the count. -/
theorem countBasic_swap (g g' : Grid rows cols) (e lv : Node rows cols)
    (hbasin : ∀ rc : Node rows cols, ((g' rc.1 rc.2).isBasin = true ↔
      (rc = e ∨ ((g rc.1 rc.2).isBasin = true ∧ rc ≠ lv))))
    (he : ¬(g e.1 e.2).isBasin = true) (hlv : (g lv.1 lv.2).isBasin = true) :
    countBasic g' = countBasic g := by
  unfold countBasic
  have hset : (Finset.univ.filter fun rc : Node rows cols => (g' rc.1 rc.2).isBasin = true) =
      insert e ((Finset.univ.filter
        fun rc : Node rows cols => (g rc.1 rc.2).isBasin = true).erase lv) := by
    ext rc
    simp only [Finset.mem_filter, Finset.mem_univ, true_and, Finset.mem_insert,
      Finset.mem_erase, hbasin rc]
    constructor
    · rintro (h | ⟨hb, hne⟩)
      · exact Or.inl h
      · exact Or.inr ⟨hne, hb⟩
    · rintro (h | ⟨hne, hb⟩)
      · exact Or.inl h
      · exact Or.inr ⟨hb, hne⟩
  rw [hset, Finset.card_insert_of_not_mem, Finset.card_erase_of_mem]
  · have hpos : 1 ≤ (Finset.univ.filter
        fun rc : Node rows cols => (g rc.1 rc.2).isBasin = true).card :=
      Finset.one_le_card.mpr ⟨lv, Finset.mem_filter.mpr ⟨Finset.mem_univ lv, hlv⟩⟩
    omega
  · exact Finset.mem_filter.mpr ⟨Finset.mem_univ lv, hlv⟩
  · intro hcontra
    exact he (Finset.mem_filter.mp (Finset.mem_of_mem_erase hcontra)).2

/-- The basis of the pivoted grid: the entering cell joins, the leaving cell
(a cycle cell) drops out, every other cell keeps its membership. -/
theorem applyPivot_basin (g : Grid rows cols) (e : Node rows cols)
    (zs : List (Node rows cols))
    (hnd : (e :: zs).Nodup) (hlen : zs.length % 2 = 1)
    (hbasic : ∀ z ∈ zs, (g z.1 z.2).isBasin = true)
    (halloc : ∀ z ∈ zs, (g z.1 z.2).allocation ≠ none) :
    ∃ lv : Node rows cols, lv ∈ zs ∧
      ∀ rc : Node rows cols,
        (((applyPivot g (e :: (zs ++ [e]))).1 rc.1 rc.2).isBasin = true ↔
          (rc = e ∨ ((g rc.1 rc.2).isBasin = true ∧ rc ≠ lv))) := by
  set L : List (Node rows cols) := e :: (zs ++ [e]) with hL
  have hmemE : e ∉ zs := (List.nodup_cons.mp hnd).1
  have hzslen : 0 < zs.length := by omega
  obtain ⟨z0, hz0⟩ : ∃ z0, zs.get? 0 = some z0 := by
    rcases zs with _ | ⟨z0, zs'⟩
    · simp at hzslen
    · exact ⟨z0, rfl⟩
  have hz0mem : z0 ∈ zs := by
    obtain ⟨h, hget⟩ := List.get?_eq_some.mp hz0
    exact hget ▸ List.get_mem zs 0 h
  have h1mem : ((1 : ℕ), z0) ∈ L.enum := by
    rw [List.mem_enum_iff_get?]
    show L.get? 1 = some z0
    rw [hL]
    show (zs ++ [e]).get? 0 = some z0
    rw [List.get?_append (by omega), hz0]
  rcases thetaFold_cases g L with ⟨hst, hnone⟩ |
    ⟨ps1, q, ps2, t, hsplitq, hqodd, hqalloc, hst, hle, hlt⟩
  · exact absurd (hnone (1, z0) h1mem rfl) (halloc z0 hz0mem)
  have hθ2 : (thetaFold g L).2 = some q.2 := by rw [hst]
  have hqmem : q ∈ L.enum := by rw [hsplitq]; simp
  have hqget : L.get? q.1 = some q.2 := List.mem_enum_iff_get?.mp hqmem
  have hqlt : q.1 < L.length := (List.get?_eq_some.mp hqget).1
  have hLlen : L.length = zs.length + 2 := by rw [hL]; simp
  have hq1 : 1 ≤ q.1 := by omega
  have hqle : q.1 ≤ zs.length := by omega
  obtain ⟨iq, hiq⟩ : ∃ i, q.1 = i + 1 := ⟨q.1 - 1, by omega⟩
  have hlvget : zs.get? iq = some q.2 := by
    rw [hiq, hL] at hqget
    rw [List.get?_cons_succ, List.get?_append (by omega)] at hqget
    exact hqget
  have hlvmem : q.2 ∈ zs := by
    obtain ⟨h, hget⟩ := List.get?_eq_some.mp hlvget
    exact hget ▸ List.get_mem zs iq h
  have htake : L.take (L.length - 1) = e :: zs := by
    rw [hL]
    show (e :: (zs ++ [e])).take ((e :: (zs ++ [e])).length - 1) = e :: zs
    rw [show (e :: (zs ++ [e])).length - 1 = zs.length + 1 by simp]
    rw [List.take_succ_cons, List.take_left]
  have hθ1 : (thetaFold g L).1 = ((t : ℤ) : WithTop ℤ) := by rw [hst]
  have happ : pivotApplied g L =
      ((e :: zs).enum).foldl (pivotStep ((t : ℤ) : WithTop ℤ)) (pivotBase g) := by
    unfold pivotApplied
    rw [htake, hθ1]
  have hndsnd : (((e :: zs).enum).map Prod.snd).Nodup := by
    rw [List.enum_map_snd]
    exact hnd
  have hhead : L.head? = some e := by rw [hL]; rfl
  refine ⟨q.2, hlvmem, ?_⟩
  intro rc
  by_cases hrc : rc ∈ (e :: zs)
  · rcases List.mem_cons.mp hrc with hrce | hrczs
    · subst hrce
      rw [applyPivot_entering_basic g L hhead]
      simp
    · obtain ⟨i, hi⟩ := List.mem_iff_get?.mp hrczs
      have hpmem : ((i + 1 : ℕ), rc) ∈ (e :: zs).enum := by
        rw [List.mem_enum_iff_get?]
        show (e :: zs).get? (i + 1) = some rc
        rw [List.get?_cons_succ]
        exact hi
      have hfold := pivotFold_value ((t : ℤ) : WithTop ℤ) ((e :: zs).enum) (pivotBase g)
        hndsnd ((i + 1 : ℕ), rc) hpmem
      rw [← happ] at hfold
      dsimp only at hfold
      have happb : (pivotApplied g L rc.1 rc.2).isBasin = true := by
        by_cases hpar : (i + 1) % 2 = 0
        · rw [if_pos hpar] at hfold
          rw [hfold]
        · rw [if_neg hpar] at hfold
          rw [hfold]
          exact hbasic rc hrczs
      have hrcne : rc ≠ e := fun hc => hmemE (hc ▸ hrczs)
      have hne_e : ¬(rc.1 = e.1 ∧ rc.2 = e.2) := fun hc => hrcne (Prod.ext hc.1 hc.2)
      by_cases hlv : rc = q.2
      · have hleave : (pivotAfterLeaving g L rc.1 rc.2).isBasin = false := by
          rw [pivotAfterLeaving_eq g L hθ2, hlv, setCell_same]
        have hstart : (pivotAfterStart g L rc.1 rc.2).isBasin = false := by
          rw [pivotAfterStart_eq g L hhead, setCell_ne _ _ _ _ hne_e]
          exact hleave
        rw [applyPivot_isBasin, hstart]
        constructor
        · intro h
          exact absurd h (by simp)
        · rintro (hc | ⟨_, hc⟩)
          · exact absurd hc hrcne
          · exact absurd hlv hc
      · have hne_lv : ¬(rc.1 = q.2.1 ∧ rc.2 = q.2.2) := fun hc => hlv (Prod.ext hc.1 hc.2)
        have hleave : (pivotAfterLeaving g L rc.1 rc.2).isBasin = true := by
          rw [pivotAfterLeaving_eq g L hθ2, setCell_ne _ _ _ _ hne_lv]
          exact happb
        have hstart : (pivotAfterStart g L rc.1 rc.2).isBasin = true := by
          rw [pivotAfterStart_eq g L hhead, setCell_ne _ _ _ _ hne_e]
          exact hleave
        rw [applyPivot_isBasin, hstart]
        constructor
        · intro _
          exact Or.inr ⟨hbasic rc hrczs, hlv⟩
        · intro _
          rfl
  · have hne_e : ¬(rc.1 = e.1 ∧ rc.2 = e.2) := fun hc =>
      hrc (by rw [show rc = e from Prod.ext hc.1 hc.2]; exact List.mem_cons_self e zs)
    have hne_lv : ¬(rc.1 = q.2.1 ∧ rc.2 = q.2.2) := fun hc =>
      hrc (by rw [show rc = q.2 from Prod.ext hc.1 hc.2]
              exact List.mem_cons_of_mem e hlvmem)
    have happlied : pivotApplied g L rc.1 rc.2 = pivotBase g rc.1 rc.2 := by
      rw [happ]
      refine pivotFold_off _ _ _ rc ?_
      intro p hp hcontra
      exact hrc (hcontra ▸ snd_mem_of_mem_enum hp)
    have hstart : (pivotAfterStart g L rc.1 rc.2).isBasin = (g rc.1 rc.2).isBasin := by
      rw [pivotAfterStart_eq g L hhead, setCell_ne _ _ _ _ hne_e,
        pivotAfterLeaving_eq g L hθ2, setCell_ne _ _ _ _ hne_lv, happlied]
      rfl
    rw [applyPivot_isBasin, hstart]
    constructor
    · intro h
      refine Or.inr ⟨h, fun hc => hrc ?_⟩
      rw [hc]
      exact List.mem_cons_of_mem e hlvmem
    · rintro (hc | ⟨hb, _⟩)
      · exfalso
        rw [hc] at hrc
        exact hrc (List.mem_cons_self e zs)
      · exact hb

/-- A pivot along a valid alternating cycle preserves the basis invariant:
the basic cells of the pivoted grid are again `rows + cols − 1` many and
form a spanning tree (the leaving edge is swapped for the entering edge). -/
theorem applyPivot_basisInvariant (g : Grid rows cols)
    (e : Node rows cols) (zs : List (Node rows cols)) (d0 : Bool)
    (hchain : Chain d0 e (zs ++ [e]))
    (hnd : (e :: zs).Nodup)
    (hlen : zs.length % 2 = 1)
    (hbasic : ∀ z ∈ zs, (g z.1 z.2).isBasin = true)
    (halloc : ∀ z ∈ zs, (g z.1 z.2).allocation ≠ none)
    (henb : ¬(g e.1 e.2).isBasin = true)
    (hinv : basisInvariant g) :
    basisInvariant (applyPivot g (e :: (zs ++ [e]))).1 := by
  obtain ⟨lv, hlvmem, hbasin⟩ := applyPivot_basin g e zs hnd hlen hbasic halloc
  obtain ⟨hcount, htree⟩ := hinv
  have hmemE : e ∉ zs := (List.nodup_cons.mp hnd).1
  have hndzs : zs.Nodup := (List.nodup_cons.mp hnd).2
  have hlvbasic : (g lv.1 lv.2).isBasin = true := hbasic lv hlvmem
  constructor
  · rw [countBasic_swap g (applyPivot g (e :: (zs ++ [e]))).1 e lv hbasin henb hlvbasic]
    exact hcount
  · obtain ⟨zs1, zs2, hzsplit⟩ := List.append_of_mem hlvmem
    have hnd2 : (zs1 ++ lv :: zs2).Nodup := hzsplit ▸ hndzs
    have hlv_not1 : ∀ x ∈ zs1, x ≠ lv := by
      intro x hx hc
      refine (List.nodup_append.mp hnd2).2.2 hx ?_
      rw [hc]
      exact List.mem_cons_self lv zs2
    have hlv_not2 : ∀ x ∈ zs2, x ≠ lv := by
      intro x hx hc
      have hlvnot := (List.nodup_cons.mp (List.nodup_append.mp hnd2).2.1).1
      rw [hc] at hx
      exact hlvnot hx
    have hsheq : (zs1 ++ [lv]) ++ (zs2 ++ [e]) = zs ++ [e] := by
      rw [hzsplit]
      simp
    have hchain1 : Chain d0 e (zs1 ++ [lv]) := by
      apply chain_prefix (zs1 ++ [lv]) d0 e (zs2 ++ [e])
      rw [hsheq]
      exact hchain
    have hchain2 : Chain (if (zs1.length + 1) % 2 = 0 then d0 else !d0) lv (zs2 ++ [e]) := by
      apply chain_after zs1 d0 e lv (zs2 ++ [e])
      rw [hsheq]
      exact hchain
    set dA : Bool := if zs1.length % 2 = 0 then d0 else !d0 with hdA
    have hd2A : (if (zs1.length + 1) % 2 = 0 then d0 else !d0) = !dA := by
      rw [hdA]
      rcases Nat.mod_two_eq_zero_or_one zs1.length with h0 | h0
      · have hh1 : (zs1.length + 1) % 2 = 1 := by omega
        rw [h0, hh1]
        simp
      · have hh1 : (zs1.length + 1) % 2 = 0 := by omega
        rw [h0, hh1]
        simp
    rw [hd2A] at hchain2
    have hadjD : ∀ x : Node rows cols, x ∈ zs → x ≠ lv →
        (basisGraph g \ SimpleGraph.fromEdgeSet {cellEdge lv}).Adj
          (Sum.inl x.1) (Sum.inr x.2) := by
      intro x hx hne
      rw [sdiff_fromEdgeSet_adj]
      refine ⟨(basisGraph_adj_inl_inr g x.1 x.2).mpr (hbasic x hx), ?_⟩
      intro hc
      exact hne (cellEdge_inj hc)
    have h1 : (basisGraph g \ SimpleGraph.fromEdgeSet {cellEdge lv}).Reachable
        (anchorV d0 e) (anchorV dA lv) :=
      chain_reach _ zs1 d0 e lv hchain1 fun x hx =>
        hadjD x (by rw [hzsplit]; exact List.mem_append_left _ hx) (hlv_not1 x hx)
    have h2 : (basisGraph g \ SimpleGraph.fromEdgeSet {cellEdge lv}).Reachable
        (anchorV (!dA) lv) (anchorV (if zs2.length % 2 = 0 then !dA else !(!dA)) e) :=
      chain_reach _ zs2 (!dA) lv e hchain2 fun x hx =>
        hadjD x (by rw [hzsplit]; exact List.mem_append_right _ (List.mem_cons_of_mem lv hx))
          (hlv_not2 x hx)
    have hlen2 : zs.length = zs1.length + zs2.length + 1 := by
      rw [hzsplit]
      simp only [List.length_append, List.length_cons]
      omega
    have hend : (if zs2.length % 2 = 0 then !dA else !(!dA)) = !d0 := by
      simp only [Bool.not_not]
      rw [hdA]
      rcases Nat.mod_two_eq_zero_or_one zs1.length with h0 | h0 <;>
        rcases Nat.mod_two_eq_zero_or_one zs2.length with hh1 | hh1
      · rw [h0, hh1]
        simp
      · exfalso
        omega
      · exfalso
        omega
      · rw [h0, hh1]
        simp
    rw [hend] at h2
    have hchar : ∀ p q : Fin rows ⊕ Fin cols,
        (basisGraph (applyPivot g (e :: (zs ++ [e]))).1).Adj p q ↔
          (((basisGraph g).Adj p q ∧ s(p, q) ≠ s(anchorV dA lv, anchorV (!dA) lv)) ∨
            s(p, q) = s(anchorV d0 e, anchorV (!d0) e)) := by
      intro p q
      rw [cellEdge_anchorV dA lv, cellEdge_anchorV d0 e]
      cases p with
      | inl r =>
        cases q with
        | inl r' =>
          constructor
          · intro h
            exact absurd h (basisGraph_not_adj_inl_inl _ r r')
          · rintro (⟨h, _⟩ | h)
            · exact absurd h (basisGraph_not_adj_inl_inl g r r')
            · exact absurd h (sym2_inl_inl_ne_mixed r r' e.1 e.2)
        | inr c =>
          have hb' := hbasin (r, c)
          dsimp only at hb'
          rw [basisGraph_adj_inl_inr, basisGraph_adj_inl_inr, hb',
            mixed_eq_cellEdge r c e]
          constructor
          · rintro (h | ⟨hb, hne⟩)
            · exact Or.inr h
            · exact Or.inl ⟨hb, fun hc => hne ((mixed_eq_cellEdge r c lv).mp hc)⟩
          · rintro (⟨hb, hne⟩ | h)
            · exact Or.inr ⟨hb, fun hc => hne ((mixed_eq_cellEdge r c lv).mpr hc)⟩
            · exact Or.inl h
      | inr c =>
        cases q with
        | inl r =>
          have hb' := hbasin (r, c)
          dsimp only at hb'
          rw [basisGraph_adj_inr_inl, basisGraph_adj_inr_inl,
            show s(Sum.inr c, (Sum.inl r : Fin rows ⊕ Fin cols)) = s(Sum.inl r, Sum.inr c)
              from Sym2.eq_swap,
            hb', mixed_eq_cellEdge r c e]
          constructor
          · rintro (h | ⟨hb, hne⟩)
            · exact Or.inr h
            · exact Or.inl ⟨hb, fun hc => hne ((mixed_eq_cellEdge r c lv).mp hc)⟩
          · rintro (⟨hb, hne⟩ | h)
            · exact Or.inr ⟨hb, fun hc => hne ((mixed_eq_cellEdge r c lv).mpr hc)⟩
            · exact Or.inl h
        | inr c' =>
          constructor
          · intro h
            exact absurd h (basisGraph_not_adj_inr_inr _ c c')
          · rintro (⟨h, _⟩ | h)
            · exact absurd h (basisGraph_not_adj_inr_inr g c c')
            · exact absurd h (sym2_inr_inr_ne_mixed c c' e.1 e.2)
    refine isTree_swap (basisGraph g) _ (anchorV d0 e) (anchorV (!d0) e)
      (anchorV dA lv) (anchorV (!dA) lv) htree
      (adj_anchorV ((basisGraph_adj_inl_inr g lv.1 lv.2).mpr hlvbasic) dA)
      (anchorV_ne d0 e) hchar ?_ ?_
    · rw [cellEdge_anchorV dA lv]
      exact h1.symm
    · rw [cellEdge_anchorV dA lv]
      exact h2

end PivotCost

/-! ## Claim theorems -/

/-- Claim C9.  For every grid and potentials `u`, `v`,
`calculateOpportunityCosts` assigns `opportunityCost = cost(r,c) − (u[r] +
v[c])` exactly to the non-basic cells whose row and column potentials are
both known, leaves it undefined on every other cell, and returns the minimum
such value together with the first cell attaining it in row-major scan order
(the entering cell is eligible, its delta is the returned minimum, the
minimum is ≤ every eligible delta, and every eligible cell strictly earlier
in row-major order has a strictly larger delta; no entering cell is returned
exactly when no cell is eligible).  Determinism for fixed scan order is
immediate: the embedding is a pure function of `(g, u, v)`, so re-running on
identical input yields the identical entering cell. -/
theorem C9_opportunity_costs {rows cols : ℕ} (g : Grid rows cols)
    (u : Fin rows → Option ℤ) (v : Fin cols → Option ℤ) :
    (∀ rc : Node rows cols, oppEligible g u v rc →
      ((calculateOpportunityCosts g u v).grid rc.1 rc.2).opportunityCost =
        some (oppDelta g u v rc)) ∧
    (∀ rc : Node rows cols, ¬oppEligible g u v rc →
      ((calculateOpportunityCosts g u v).grid rc.1 rc.2).opportunityCost = none) ∧
    ((calculateOpportunityCosts g u v).enteringCell = none →
      ∀ rc : Node rows cols, ¬oppEligible g u v rc) ∧
    (∀ e, (calculateOpportunityCosts g u v).enteringCell = some e →
      oppEligible g u v e ∧
      (calculateOpportunityCosts g u v).minDelta = (oppDelta g u v e : WithTop ℤ) ∧
      (∀ rc : Node rows cols, oppEligible g u v rc →
        oppDelta g u v e ≤ oppDelta g u v rc) ∧
      ∃ l1 l2, indexList rows cols = l1 ++ e :: l2 ∧
        ∀ rc ∈ l1, oppEligible g u v rc → oppDelta g u v e < oppDelta g u v rc) := by
  have h := oppFold_spec g u v (indexList rows cols) []
    { grid := g, minDelta := ⊤, enteringCell := none }
    (fun _ => ⟨rfl, rfl⟩) (by simp) (Or.inl ⟨rfl, rfl, by simp⟩)
  obtain ⟨hfields, hopp, hmin⟩ := h
  have hopp' : ∀ rc : Node rows cols,
      ((calculateOpportunityCosts g u v).grid rc.1 rc.2).opportunityCost =
        (if oppEligible g u v rc then some (oppDelta g u v rc) else none) := by
    intro rc
    exact hopp rc (by simpa using mem_indexList rc)
  refine ⟨?_, ?_, ?_, ?_⟩
  · intro rc hrc
    rw [hopp' rc, if_pos hrc]
  · intro rc hrc
    rw [hopp' rc, if_neg hrc]
  · intro hnone rc
    rcases hmin with ⟨_, _, hno⟩ | ⟨e, _, _, _, _, hce, _, _, _⟩
    · exact hno rc (by simpa using mem_indexList rc)
    · rw [show (calculateOpportunityCosts g u v).enteringCell =
        ((indexList rows cols).foldl (oppStep u v)
          { grid := g, minDelta := ⊤, enteringCell := none }).enteringCell from rfl,
        hce] at hnone
      exact absurd hnone (by simp)
  · intro e he
    rcases hmin with ⟨_, hnone, _⟩ | ⟨e', l1, l2, hsplit, helig, hce, hmd, hle, hlt⟩
    · rw [show (calculateOpportunityCosts g u v).enteringCell =
        ((indexList rows cols).foldl (oppStep u v)
          { grid := g, minDelta := ⊤, enteringCell := none }).enteringCell from rfl,
        hnone] at he
      exact absurd he (by simp)
    · have hee : e' = e := by
        have : some e' = some e := by
          rw [← hce]
          exact he
        exact Option.some.inj this
      subst hee
      refine ⟨helig, hmd, ?_, l1, l2, by simpa using hsplit, hlt⟩
      intro rc hrc
      exact hle rc (by simpa [← hsplit] using mem_indexList rc) hrc

/-- Discriminator: did `performFullIteration` report optimality? -/
def FullIterResult.isOptimal {rows cols : ℕ} : FullIterResult rows cols → Bool
  | FullIterResult.optimal _ _ => true
  | _ => false

/-- Discriminator: did `performFullIteration` report an error? -/
def FullIterResult.isError {rows cols : ℕ} : FullIterResult rows cols → Bool
  | FullIterResult.error _ => true
  | _ => false

/-- The cost reported by a non-error `performFullIteration` result. -/
def FullIterResult.cost? {rows cols : ℕ} : FullIterResult rows cols → Option ℤ
  | FullIterResult.optimal _ c => some c
  | FullIterResult.pivoted _ c _ => some c
  | FullIterResult.error _ => none

/-- Claim C7, counterexample.  On the grid `Gex3` (whose basis is not a
spanning tree: the degeneracy repair closed a cycle and left row 2
disconnected) the potentials remain partially unknown, yet
`performFullIteration` silently declares optimality instead of returning an
error: every cell with an unknown potential is simply skipped during
reduced-cost evaluation. -/
theorem C7_counterexample :
    (calculatePotentials Gex3).u 2 = none ∧
    (calculatePotentials Gex3).v 2 = none ∧
    (performFullIteration Gex3).isOptimal = true ∧
    (performFullIteration Gex3).isError = false := by
  decide

/-- Claim C7, amended: `performFullIteration` surfaces an explicit error
result exactly in its two guarded cases — a negative minimum reduced cost
with no entering cell, or a failed loop search — and in no other case: when
the minimum reduced cost over the evaluated cells is non-negative it reports
optimality (even, as the counterexample shows, when an invariant violation
has left some potential unknown), and when the loop search succeeds it
pivots.  Incomplete potentials and a non-spanning-tree basis are never
detected. -/
theorem C7_full_iteration_behaviour {rows cols : ℕ} (g : Grid rows cols) :
    ((0 : WithTop ℤ) ≤ (calculateOpportunityCosts g (calculatePotentials g).u
        (calculatePotentials g).v).minDelta →
      performFullIteration g = FullIterResult.optimal
        (calculateOpportunityCosts g (calculatePotentials g).u (calculatePotentials g).v).grid
        (calculateTotalCost (calculateOpportunityCosts g (calculatePotentials g).u
          (calculatePotentials g).v).grid)) ∧
    (¬(0 : WithTop ℤ) ≤ (calculateOpportunityCosts g (calculatePotentials g).u
        (calculatePotentials g).v).minDelta →
      (calculateOpportunityCosts g (calculatePotentials g).u
        (calculatePotentials g).v).enteringCell = none →
      performFullIteration g = FullIterResult.error "无法找到调入变量") ∧
    (∀ e, ¬(0 : WithTop ℤ) ≤ (calculateOpportunityCosts g (calculatePotentials g).u
        (calculatePotentials g).v).minDelta →
      (calculateOpportunityCosts g (calculatePotentials g).u
        (calculatePotentials g).v).enteringCell = some e →
      findLoop e (calculateOpportunityCosts g (calculatePotentials g).u
        (calculatePotentials g).v).grid = none →
      performFullIteration g = FullIterResult.error "无法找到闭回路 (退化或逻辑错误)") ∧
    (∀ e loop, ¬(0 : WithTop ℤ) ≤ (calculateOpportunityCosts g (calculatePotentials g).u
        (calculatePotentials g).v).minDelta →
      (calculateOpportunityCosts g (calculatePotentials g).u
        (calculatePotentials g).v).enteringCell = some e →
      findLoop e (calculateOpportunityCosts g (calculatePotentials g).u
        (calculatePotentials g).v).grid = some loop →
      performFullIteration g = FullIterResult.pivoted
        (cleanGrid (applyPivot (calculateOpportunityCosts g (calculatePotentials g).u
          (calculatePotentials g).v).grid loop).1)
        (calculateTotalCost (cleanGrid (applyPivot (calculateOpportunityCosts g
          (calculatePotentials g).u (calculatePotentials g).v).grid loop).1))
        ((applyPivot (calculateOpportunityCosts g (calculatePotentials g).u
          (calculatePotentials g).v).grid loop).2)) := by
  refine ⟨?_, ?_, ?_, ?_⟩
  · intro hopt
    unfold performFullIteration
    rw [if_pos hopt]
  · intro hneg hnone
    unfold performFullIteration
    rw [if_neg hneg, hnone]
  · intro e hneg hsome hloop
    unfold performFullIteration
    rw [if_neg hneg, hsome]
    dsimp only
    rw [hloop]
  · intro e loop hneg hsome hloop
    unfold performFullIteration
    rw [if_neg hneg, hsome]
    dsimp only
    rw [hloop]

/-- Witness for the amended C7: the optimality branch fires on `Gex3`
(despite its unknown potentials) and the pivot branch fires on `Gex2`. -/
theorem C7_full_iteration_behaviour_witness :
    performFullIteration Gex3 = FullIterResult.optimal
      (calculateOpportunityCosts Gex3 (calculatePotentials Gex3).u
        (calculatePotentials Gex3).v).grid
      (calculateTotalCost (calculateOpportunityCosts Gex3 (calculatePotentials Gex3).u
        (calculatePotentials Gex3).v).grid) ∧
    (performFullIteration Gex2).cost? = some 35 := by
  constructor
  · exact (C7_full_iteration_behaviour Gex3).1 (by decide)
  · have h := (C7_full_iteration_behaviour Gex2).2.2.2 (1, 0) loopEx2 (by decide) (by decide)
      (by decide)
    rw [h]
    decide

/-- The ready state from which claim C8's step-by-step/full-iteration
comparison is run: the initial least-cost solution of `Pex2` with its
correct cached total cost. -/
def stEx2 : SolverState 2 2 :=
  { grid := Gex2
    u := fun _ => none
    v := fun _ => none
    totalCost := 65
    status := Status.ready
    iteration := 1 }

/-- Claim C8 is violated by the code: from the consistent ready state
`stEx2`, `performFullIteration` completes the iteration and reports the
pivoted cost 35, but the fourth of four successive single-step calls faults.
Steps 1–3 succeed (ready → potentials → deltas → loop), but step 3's loop
highlighting also overwrites the `entering` highlight (the duplicated cycle
start is the last, even-indexed element of the loop list), so step 4 finds no
entering cell and dereferences the `{r: -1, c: -1}` sentinel — a `TypeError`
in the source, `none` in the embedding. -/
theorem C8_counterexample_bug :
    stEx2.status = Status.ready ∧
    stEx2.totalCost = calculateTotalCost stEx2.grid ∧
    (∃ s1, handleNextStep stEx2 = some s1 ∧ s1.status = Status.potentials ∧
      ∃ s2, handleNextStep s1 = some s2 ∧ s2.status = Status.deltas ∧
        ∃ s3, handleNextStep s2 = some s3 ∧ s3.status = Status.loop ∧
          handleNextStep s3 = none) ∧
    (performFullIteration stEx2.grid).cost? = some 35 ∧
    (performFullIteration stEx2.grid).isError = false := by
  refine ⟨rfl, by decide, ?_, by decide, by decide⟩
  refine ⟨(handleNextStep stEx2).get (by decide), by decide, by decide, ?_⟩
  refine ⟨((handleNextStep stEx2).bind handleNextStep).get (by decide), by decide, by decide, ?_⟩
  refine ⟨(((handleNextStep stEx2).bind handleNextStep).bind handleNextStep).get (by decide),
    by decide, by decide, by decide⟩

/-- Claim C2.  For every balanced ProblemModel (non-negative supplies and
demands with equal totals, at least one row and one column), `solveLeastCost`
yields exactly `rows + cols − 1` basic cells, every row's total allocated
quantity equals that row's supply, and every column's total allocated
quantity equals that column's demand. -/
theorem C2_initial_solution {rows cols : ℕ} (p : ProblemState rows cols)
    (hrows : 1 ≤ rows) (hcols : 1 ≤ cols)
    (hs : ∀ r, 0 ≤ p.initialSupply r) (hd : ∀ c, 0 ≤ p.initialDemand c)
    (hbal : Finset.univ.sum p.initialSupply = Finset.univ.sum p.initialDemand) :
    countBasic (solveLeastCost p) = rows + cols - 1 ∧
    (∀ r, rowAlloc (solveLeastCost p) r = p.initialSupply r) ∧
    (∀ c, colAlloc (solveLeastCost p) c = p.initialDemand c) := by
  obtain ⟨h1, h2, h3, _, _⟩ := solveLeastCost_spec p hrows hcols hs hd hbal
  exact ⟨h1, h2, h3⟩

/-- Witness for C2 at the concrete balanced problem `Pex2`: 3 basic cells,
row sums 10 and 5, column sums 5 and 10. -/
theorem C2_initial_solution_witness :
    countBasic Gex2 = 3 ∧ rowAlloc Gex2 0 = 10 ∧ rowAlloc Gex2 1 = 5 ∧
    colAlloc Gex2 0 = 5 ∧ colAlloc Gex2 1 = 10 := by
  have h := C2_initial_solution Pex2 (by decide) (by decide) (by decide) (by decide) (by decide)
  have hg : Gex2 = solveLeastCost Pex2 := rfl
  refine ⟨h.1, ?_, ?_, ?_, ?_⟩
  · rw [hg, h.2.1 0]
    decide
  · rw [hg, h.2.1 1]
    decide
  · rw [hg, h.2.2 0]
    decide
  · rw [hg, h.2.2 1]
    decide

/-- Counterexample to C10 as stated.  In `G10` every basic cell carries a
non-empty allocation, the cell (0,2) does not occur in the (valid, alternating,
even-length) cycle `loop10`, and yet `applyPivot` changes its allocation: the
deep copy turns the stray non-basic allocation `some 7` into `some 7`, and the
final cleanup then resets it to `none` because the cell is not basic.  The
claim omits the requirement that non-basic cells be empty. -/
theorem C10_counterexample :
    (∀ rc : Node 2 3, (G10 rc.1 rc.2).isBasin = true → (G10 rc.1 rc.2).allocation ≠ none) ∧
    loop10.length = 5 ∧ loop10.head? = loop10.getLast? ∧ loop10.dropLast.Nodup ∧
    ((0, 2) : Node 2 3) ∉ loop10 ∧
    ¬((applyPivot G10 loop10).1 0 2).allocation = (G10 0 2).allocation := by
  decide

/-- Claim C10, amended: the frame property holds once the grid also keeps
non-basic cells empty (the data-model invariant the original claim left
implicit and which the counterexample shows is necessary): `applyPivot`
leaves every cell outside the cycle with its allocation and basis membership
unchanged, and leaves every cell's cost unchanged. -/
theorem C10_pivot_frame {rows cols : ℕ} (g : Grid rows cols)
    (loop : List (Node rows cols))
    (hb : ∀ rc : Node rows cols, (g rc.1 rc.2).isBasin = true →
      (g rc.1 rc.2).allocation ≠ none)
    (hnb : ∀ rc : Node rows cols, ¬(g rc.1 rc.2).isBasin = true →
      (g rc.1 rc.2).allocation = none) :
    (∀ rc : Node rows cols, rc ∉ loop →
      ((applyPivot g loop).1 rc.1 rc.2).allocation = (g rc.1 rc.2).allocation ∧
      ((applyPivot g loop).1 rc.1 rc.2).isBasin = (g rc.1 rc.2).isBasin) ∧
    (∀ rc : Node rows cols, ((applyPivot g loop).1 rc.1 rc.2).cost = (g rc.1 rc.2).cost) := by
  exact ⟨fun rc hmem => applyPivot_offloop g loop rc hmem (hb rc) (hnb rc),
    fun rc => applyPivot_cost g loop rc⟩

/-- Witness for the amended C10 at the concrete grid `G10b` and cycle
`loop10`: the off-cycle cell (0,2) is untouched and costs are preserved
everywhere. -/
theorem C10_pivot_frame_witness :
    ((applyPivot G10b loop10).1 0 2).allocation = (G10b 0 2).allocation ∧
    ((applyPivot G10b loop10).1 0 2).isBasin = (G10b 0 2).isBasin ∧
    ((applyPivot G10b loop10).1 1 1).cost = (G10b 1 1).cost := by
  have h := C10_pivot_frame G10b loop10 (by decide) (by decide)
  have h1 := h.1 (0, 2) (by decide)
  exact ⟨h1.1, h1.2, h.2 (1, 1)⟩

/-- Claim C5.  For a grid and a well-formed cycle (a list that starts and
ends at the same node, has odd list length ≥ 5 — i.e. an even number ≥ 4 of
distinct cycle cells — and no internal repeats) whose odd-position ("minus")
cells are basic with non-empty allocations: θ is the minimum allocation over
the minus cells; the first minus cell in cycle order attaining that minimum
is afterwards non-basic with an empty allocation; the entering cell (cycle
position 0) is marked basic (the proof places no constraint on θ, so this
holds in particular when θ = 0); and after the pivot every non-basic cell
has an empty allocation. -/
theorem C5_pivot_execution {rows cols : ℕ} (g : Grid rows cols)
    (loop : List (Node rows cols))
    (hlen : 5 ≤ loop.length) (hoddlen : loop.length % 2 = 1)
    (hends : loop.getLast? = loop.head?) (hnodup : loop.dropLast.Nodup)
    (hminus : ∀ p ∈ loop.enum, p.1 % 2 = 1 →
      (g p.2.1 p.2.2).isBasin = true ∧ (g p.2.1 p.2.2).allocation ≠ none) :
    (∃ t : ℤ, (applyPivot g loop).2 = ((t : ℤ) : WithTop ℤ) ∧
      (∀ p ∈ loop.enum, p.1 % 2 = 1 → ∀ a, (g p.2.1 p.2.2).allocation = some a → t ≤ a) ∧
      ∃ ps1 q ps2, loop.enum = ps1 ++ q :: ps2 ∧ q.1 % 2 = 1 ∧
        (g q.2.1 q.2.2).allocation = some t ∧
        (∀ p ∈ ps1, p.1 % 2 = 1 → ∀ a, (g p.2.1 p.2.2).allocation = some a → t < a) ∧
        ((applyPivot g loop).1 q.2.1 q.2.2).isBasin = false ∧
        ((applyPivot g loop).1 q.2.1 q.2.2).allocation = none) ∧
    (∀ st0, loop.head? = some st0 → ((applyPivot g loop).1 st0.1 st0.2).isBasin = true) ∧
    (∀ rc : Node rows cols, ¬((applyPivot g loop).1 rc.1 rc.2).isBasin = true →
      ((applyPivot g loop).1 rc.1 rc.2).allocation = none) := by
  rcases thetaFold_cases g loop with ⟨hst, hnone⟩ | ⟨ps1, q, ps2, t, hsplit, hqodd, hqalloc, hst, hle, hlt⟩
  · exfalso
    have h1lt : 1 < loop.length := by omega
    have hmem : ((1 : ℕ), loop.get ⟨1, h1lt⟩) ∈ loop.enum := by
      refine List.mem_enum_iff_get?.mpr ?_
      exact List.get?_eq_get h1lt
    exact (hminus _ hmem rfl).2 (hnone _ hmem rfl)
  · have hsnd : (thetaFold g loop).2 = some q.2 := by rw [hst]
    have hfst : (thetaFold g loop).1 = ((t : ℤ) : WithTop ℤ) := by rw [hst]
    have hqmem : q ∈ loop.enum := by rw [hsplit]; simp
    have hq2 : loop.get? q.1 = some q.2 := List.mem_enum_iff_get?.mp hqmem
    have hjlt : q.1 < loop.length := by
      by_contra hcontra
      rw [List.get?_eq_none.mpr (le_of_not_lt hcontra)] at hq2
      exact absurd hq2 (by simp)
    have h0lt : 0 < loop.length := by omega
    have hhead : loop.head? = some (loop.get ⟨0, h0lt⟩) := by
      rw [← List.get?_zero]
      exact List.get?_eq_get h0lt
    have hgetq : loop.get ⟨q.1, hjlt⟩ = q.2 := by
      have := List.get?_eq_get hjlt (l := loop)
      rw [this] at hq2
      exact Option.some.inj hq2
    have hq1pos : q.1 ≠ 0 := by
      intro h
      rw [h] at hqodd
      exact absurd hqodd (by norm_num)
    have hj1 : q.1 < loop.length - 1 := by omega
    have hq2ne : q.2 ≠ loop.get ⟨0, h0lt⟩ := by
      intro hcontra
      have hq1d : q.1 < loop.dropLast.length := by
        rw [List.length_dropLast]
        omega
      have h0d : 0 < loop.dropLast.length := by
        rw [List.length_dropLast]
        omega
      have e1 : loop.dropLast.get ⟨q.1, hq1d⟩ = loop.get ⟨q.1, hjlt⟩ := by
        simp [List.get_eq_getElem, List.getElem_dropLast]
      have e0 : loop.dropLast.get ⟨0, h0d⟩ = loop.get ⟨0, h0lt⟩ := by
        simp [List.get_eq_getElem, List.getElem_dropLast]
      have hinj := List.nodup_iff_injective_get.mp hnodup
      have : (⟨q.1, hq1d⟩ : Fin loop.dropLast.length) = ⟨0, h0d⟩ := by
        apply hinj
        rw [e1, e0, hgetq, hcontra]
      exact hq1pos (Fin.mk.injEq _ _ _ _ ▸ this)
    have hAL : pivotAfterLeaving g loop q.2.1 q.2.2 =
        { pivotApplied g loop q.2.1 q.2.2 with isBasin := false, allocation := none } := by
      unfold pivotAfterLeaving
      rw [hsnd]
      dsimp only
      rw [setCell_same]
    have hAS : pivotAfterStart g loop q.2.1 q.2.2 = pivotAfterLeaving g loop q.2.1 q.2.2 := by
      unfold pivotAfterStart
      rw [hhead]
      dsimp only
      refine setCell_ne _ _ _ _ ?_
      intro hcontra
      exact hq2ne (Prod.ext hcontra.1 hcontra.2)
    have hfb : ¬(pivotAfterStart g loop q.2.1 q.2.2).isBasin = true := by
      rw [hAS, hAL]
      simp
    have hfinal : (applyPivot g loop).1 q.2.1 q.2.2 =
        { pivotAfterStart g loop q.2.1 q.2.2 with allocation := none } := by
      show (if (pivotAfterStart g loop q.2.1 q.2.2).isBasin = true
          then pivotAfterStart g loop q.2.1 q.2.2
          else { pivotAfterStart g loop q.2.1 q.2.2 with allocation := none }) =
        { pivotAfterStart g loop q.2.1 q.2.2 with allocation := none }
      rw [if_neg hfb]
    refine ⟨⟨t, hfst, hle, ps1, q, ps2, hsplit, hqodd, hqalloc, hlt, ?_, ?_⟩, ?_, ?_⟩
    · rw [hfinal, hAS, hAL]
    · rw [hfinal]
    · intro st0 hst0
      exact applyPivot_entering_basic g loop hst0
    · intro rc hrc
      exact applyPivot_nonbasic_none g loop rc hrc

/-- Witness for C5 at the concrete pivot of `Gex2` along `loopEx2`:
θ is 5, the leaving cell (1,1) ends non-basic and empty, and the entering
cell (1,0) ends basic. -/
theorem C5_pivot_execution_witness :
    ((applyPivot Gex2 loopEx2).1 1 0).isBasin = true ∧
    (applyPivot Gex2 loopEx2).2 = ((5 : ℤ) : WithTop ℤ) ∧
    ((applyPivot Gex2 loopEx2).1 1 1).isBasin = false ∧
    ((applyPivot Gex2 loopEx2).1 1 1).allocation = none := by
  have h := C5_pivot_execution Gex2 loopEx2 (by decide) (by decide) (by decide) (by decide)
    (by decide)
  refine ⟨h.2.1 (1, 0) rfl, by decide, by decide, by decide⟩

/-- Witness for C9 at the concrete instance `Gex2`: the entering cell is
(1,0) with reduced cost −6. -/
theorem C9_opportunity_costs_witness :
    oppEligible Gex2 (calculatePotentials Gex2).u (calculatePotentials Gex2).v (1, 0) ∧
    (calculateOpportunityCosts Gex2 (calculatePotentials Gex2).u
      (calculatePotentials Gex2).v).minDelta = ((-6 : ℤ) : WithTop ℤ) := by
  have h := (C9_opportunity_costs Gex2 (calculatePotentials Gex2).u
    (calculatePotentials Gex2).v).2.2.2 (1, 0) (by decide)
  refine ⟨h.1, ?_⟩
  rw [h.2.1]
  decide

/-- Claim C6.  For every pivot along a valid alternating cycle — the loop is
`e :: (zs ++ [e])` with the entering cell `e` closing it, its moves alternate
between row- and column-moves (`Chain`), `e :: zs` has no repeats, `zs` has
odd length, the intermediate cells of `zs` are basic with non-empty
allocations, non-basic cells of the grid carry no allocation, and potentials
`uz`, `vz` satisfy the dual equations `u + v = cost` on `zs` — if the
entering cell's reduced cost (opportunity cost) `cost(e) − (u[e.1] + v[e.2])`
is negative, then `applyPivot` returns a finite `θ = t` and a grid whose
total cost equals the old total cost plus `t` times that reduced cost: it is
strictly smaller whenever `θ > 0` and exactly unchanged when `θ = 0`. -/
theorem C6_pivot_cost_change {rows cols : ℕ} (g : Grid rows cols)
    (loop : List (Node rows cols)) (e : Node rows cols) (zs : List (Node rows cols))
    (d0 : Bool) (uz : Fin rows → ℤ) (vz : Fin cols → ℤ)
    (hloop : loop = e :: (zs ++ [e]))
    (hchain : Chain d0 e (zs ++ [e]))
    (hnd : (e :: zs).Nodup)
    (hlen : zs.length % 2 = 1)
    (hbasic : ∀ z ∈ zs, (g z.1 z.2).isBasin = true)
    (halloc : ∀ z ∈ zs, (g z.1 z.2).allocation ≠ none)
    (hclean : ∀ rc : Node rows cols, ¬(g rc.1 rc.2).isBasin = true →
      (g rc.1 rc.2).allocation = none)
    (hdual : ∀ z ∈ zs, uz z.1 + vz z.2 = (g z.1 z.2).cost)
    (hneg : (g e.1 e.2).cost - (uz e.1 + vz e.2) < 0) :
    ∃ t : ℤ, (applyPivot g loop).2 = ((t : ℤ) : WithTop ℤ) ∧
      calculateTotalCost (applyPivot g loop).1 =
        calculateTotalCost g + t * ((g e.1 e.2).cost - (uz e.1 + vz e.2)) ∧
      (0 < t → calculateTotalCost (applyPivot g loop).1 < calculateTotalCost g) ∧
      (t = 0 → calculateTotalCost (applyPivot g loop).1 = calculateTotalCost g) := by
  subst hloop
  set L : List (Node rows cols) := e :: (zs ++ [e]) with hL
  have hmemE : e ∉ zs := (List.nodup_cons.mp hnd).1
  have hndzs : zs.Nodup := (List.nodup_cons.mp hnd).2
  have hzslen : 0 < zs.length := by omega
  obtain ⟨z0, hz0⟩ : ∃ z0, zs.get? 0 = some z0 := by
    rcases zs with _ | ⟨z0, zs'⟩
    · simp at hzslen
    · exact ⟨z0, rfl⟩
  have hz0mem : z0 ∈ zs := by
    obtain ⟨h, hget⟩ := List.get?_eq_some.mp hz0
    exact hget ▸ List.get_mem zs 0 h
  have h1mem : ((1 : ℕ), z0) ∈ L.enum := by
    rw [List.mem_enum_iff_get?]
    show L.get? 1 = some z0
    rw [hL]
    show (zs ++ [e]).get? 0 = some z0
    rw [List.get?_append (by omega), hz0]
  rcases thetaFold_cases g L with ⟨hst, hnone⟩ |
    ⟨ps1, q, ps2, t, hsplitq, hqodd, hqalloc, hst, hle, hlt⟩
  · exact absurd (hnone (1, z0) h1mem rfl) (halloc z0 hz0mem)
  have hθ1 : (thetaFold g L).1 = ((t : ℤ) : WithTop ℤ) := by rw [hst]
  have hθ2 : (thetaFold g L).2 = some q.2 := by rw [hst]
  have hqmem : q ∈ L.enum := by rw [hsplitq]; simp
  have hqget : L.get? q.1 = some q.2 := List.mem_enum_iff_get?.mp hqmem
  have hqlt : q.1 < L.length := (List.get?_eq_some.mp hqget).1
  have hLlen : L.length = zs.length + 2 := by rw [hL]; simp
  have hq1 : 1 ≤ q.1 := by omega
  have hqle : q.1 ≤ zs.length := by omega
  obtain ⟨iq, hiq⟩ : ∃ i, q.1 = i + 1 := ⟨q.1 - 1, by omega⟩
  have hlvget : zs.get? iq = some q.2 := by
    rw [hiq, hL] at hqget
    rw [List.get?_cons_succ, List.get?_append (by omega)] at hqget
    exact hqget
  have hlvmem : q.2 ∈ zs := by
    obtain ⟨h, hget⟩ := List.get?_eq_some.mp hlvget
    exact hget ▸ List.get_mem zs iq h
  have htake : L.take (L.length - 1) = e :: zs := by
    rw [hL]
    show (e :: (zs ++ [e])).take ((e :: (zs ++ [e])).length - 1) = e :: zs
    rw [show (e :: (zs ++ [e])).length - 1 = zs.length + 1 by simp]
    rw [List.take_succ_cons, List.take_left]
  have happ : pivotApplied g L =
      ((e :: zs).enum).foldl (pivotStep ((t : ℤ) : WithTop ℤ)) (pivotBase g) := by
    unfold pivotApplied
    rw [htake, hθ1]
  have hndsnd : (((e :: zs).enum).map Prod.snd).Nodup := by
    rw [List.enum_map_snd]
    exact hnd
  have hhead : L.head? = some e := by rw [hL]; rfl
  have hcellval : ∀ p ∈ (e :: zs).enum,
      ((applyPivot g L).1 p.2.1 p.2.2).allocation.getD 0 =
        (g p.2.1 p.2.2).allocation.getD 0 + (if p.1 % 2 = 0 then t else -t) := by
    intro p hp
    have hget : (e :: zs).get? p.1 = some p.2 := List.mem_enum_iff_get?.mp hp
    have hfold := pivotFold_value ((t : ℤ) : WithTop ℤ) ((e :: zs).enum) (pivotBase g)
      hndsnd p hp
    rw [← happ] at hfold
    rcases Nat.eq_zero_or_pos p.1 with hp0 | hppos
    · rw [hp0] at hget
      have hpe : p.2 = e := (Option.some.inj hget).symm
      rw [hp0] at hfold
      rw [if_pos (show (0 : ℕ) % 2 = 0 from rfl)] at hfold
      have hne_lv : ¬(p.2.1 = q.2.1 ∧ p.2.2 = q.2.2) := by
        intro hc
        have hpq : p.2 = q.2 := Prod.ext hc.1 hc.2
        rw [hpe] at hpq
        rw [← hpq] at hlvmem
        exact hmemE hlvmem
      have hleave : pivotAfterLeaving g L p.2.1 p.2.2 = pivotApplied g L p.2.1 p.2.2 := by
        rw [pivotAfterLeaving_eq g L hθ2, setCell_ne _ _ _ _ hne_lv]
      have hstart : pivotAfterStart g L p.2.1 p.2.2 =
          { pivotAfterLeaving g L p.2.1 p.2.2 with isBasin := true } := by
        rw [pivotAfterStart_eq g L hhead, hpe, setCell_same]
      have hib : (pivotAfterStart g L p.2.1 p.2.2).isBasin = true := by
        rw [hstart]
      rw [hp0, if_pos (show (0 : ℕ) % 2 = 0 from rfl),
        applyPivot_fst, if_pos hib, hstart, hleave, hfold]
      rfl
    · obtain ⟨i, hi⟩ : ∃ i, p.1 = i + 1 := ⟨p.1 - 1, by omega⟩
      have hgetz : zs.get? i = some p.2 := by
        rw [hi] at hget
        rw [List.get?_cons_succ] at hget
        exact hget
      have hilt : i < zs.length := (List.get?_eq_some.mp hgetz).1
      have hzmem : p.2 ∈ zs := by
        obtain ⟨h, hg2⟩ := List.get?_eq_some.mp hgetz
        exact hg2 ▸ List.get_mem zs i h
      have hzne : p.2 ≠ e := fun hc => hmemE (hc ▸ hzmem)
      have hne_e : ¬(p.2.1 = e.1 ∧ p.2.2 = e.2) := fun hc => hzne (Prod.ext hc.1 hc.2)
      have hzbasic := hbasic p.2 hzmem
      have hstart2 : pivotAfterStart g L p.2.1 p.2.2 = pivotAfterLeaving g L p.2.1 p.2.2 := by
        rw [pivotAfterStart_eq g L hhead, setCell_ne _ _ _ _ hne_e]
      by_cases hlv : p.2 = q.2
      · have hieq : i = iq :=
          List.get?_inj hilt hndzs (by rw [hgetz, hlvget, hlv])
        have hpodd : p.1 % 2 = 1 := by omega
        rw [if_neg (by omega)] at hfold
        rw [if_neg (by omega)]
        have hleave : pivotAfterLeaving g L p.2.1 p.2.2 =
            { pivotApplied g L p.2.1 p.2.2 with isBasin := false, allocation := none } := by
          rw [pivotAfterLeaving_eq g L hθ2, hlv, setCell_same]
        have hib : ¬(pivotAfterStart g L p.2.1 p.2.2).isBasin = true := by
          rw [hstart2, hleave]
          simp
        rw [applyPivot_fst, if_neg hib, hlv, hqalloc]
        show (0 : ℤ) = t + -t
        ring
      · have hne_lv : ¬(p.2.1 = q.2.1 ∧ p.2.2 = q.2.2) := fun hc => hlv (Prod.ext hc.1 hc.2)
        have hleave : pivotAfterLeaving g L p.2.1 p.2.2 = pivotApplied g L p.2.1 p.2.2 := by
          rw [pivotAfterLeaving_eq g L hθ2, setCell_ne _ _ _ _ hne_lv]
        by_cases hpar : p.1 % 2 = 0
        · rw [if_pos hpar] at hfold
          rw [if_pos hpar]
          have hib : (pivotAfterStart g L p.2.1 p.2.2).isBasin = true := by
            rw [hstart2, hleave, hfold]
          rw [applyPivot_fst, if_pos hib, hstart2, hleave, hfold]
          rfl
        · rw [if_neg hpar] at hfold
          rw [if_neg hpar]
          have hib : (pivotAfterStart g L p.2.1 p.2.2).isBasin = true := by
            rw [hstart2, hleave, hfold]
            exact hzbasic
          rw [applyPivot_fst, if_pos hib, hstart2, hleave, hfold]
          show (g p.2.1 p.2.2).allocation.getD 0 - t = (g p.2.1 p.2.2).allocation.getD 0 + -t
          ring
  have hoffcell : ∀ rc : Node rows cols, rc ∉ (e :: zs) →
      cellCost ((applyPivot g L).1 rc.1 rc.2) = cellCost (g rc.1 rc.2) := by
    intro rc hrc
    have hne_e : ¬(rc.1 = e.1 ∧ rc.2 = e.2) := fun hc =>
      hrc (by rw [show rc = e from Prod.ext hc.1 hc.2]; exact List.mem_cons_self e zs)
    have hne_lv : ¬(rc.1 = q.2.1 ∧ rc.2 = q.2.2) := fun hc =>
      hrc (by rw [show rc = q.2 from Prod.ext hc.1 hc.2]
              exact List.mem_cons_of_mem e hlvmem)
    have happlied : pivotApplied g L rc.1 rc.2 = pivotBase g rc.1 rc.2 := by
      rw [happ]
      refine pivotFold_off _ _ _ rc ?_
      intro p hp hcontra
      exact hrc (hcontra ▸ snd_mem_of_mem_enum hp)
    have hstart2 : pivotAfterStart g L rc.1 rc.2 = pivotBase g rc.1 rc.2 := by
      rw [pivotAfterStart_eq g L hhead, setCell_ne _ _ _ _ hne_e,
        pivotAfterLeaving_eq g L hθ2, setCell_ne _ _ _ _ hne_lv, happlied]
    by_cases hb : (g rc.1 rc.2).isBasin = true
    · have hib : (pivotAfterStart g L rc.1 rc.2).isBasin = true := by
        rw [hstart2]; exact hb
      rw [applyPivot_fst, if_pos hib, hstart2, cellCost_eq, cellCost_eq]
      rfl
    · have hib : ¬(pivotAfterStart g L rc.1 rc.2).isBasin = true := by
        rw [hstart2]; exact hb
      rw [applyPivot_fst, if_neg hib]
      have h1 : cellCost { pivotAfterStart g L rc.1 rc.2 with allocation := none } = 0 := by
        simp [cellCost]
      have h2 : cellCost (g rc.1 rc.2) = 0 := by
        rw [cellCost_eq, hclean rc hb]
        simp
      rw [h1, h2]
  have hcellcost : ∀ p ∈ (e :: zs).enum,
      cellCost ((applyPivot g L).1 p.2.1 p.2.2) - cellCost (g p.2.1 p.2.2) =
        (if p.1 % 2 = 0 then t else -t) * (g p.2.1 p.2.2).cost := by
    intro p hp
    rw [cellCost_eq, cellCost_eq, applyPivot_cost g L p.2, hcellval p hp]
    ring
  have hmapeq : ((e :: zs).map (fun rc =>
      cellCost ((applyPivot g L).1 rc.1 rc.2) - cellCost (g rc.1 rc.2))).sum =
      (((e :: zs).enum).map
        (fun p => (if p.1 % 2 = 0 then t else -t) * (g p.2.1 p.2.2).cost)).sum := by
    conv_lhs => rw [← List.enum_map_snd (e :: zs), List.map_map]
    exact congrArg List.sum (List.map_congr_left (fun p hp => hcellcost p hp))
  have hA : ∑ rc : Fin rows × Fin cols,
      (cellCost ((applyPivot g L).1 rc.1 rc.2) - cellCost (g rc.1 rc.2)) =
      t * altCostSum g true (e :: zs) := by
    have hsub : (∑ rc : Fin rows × Fin cols,
        (cellCost ((applyPivot g L).1 rc.1 rc.2) - cellCost (g rc.1 rc.2))) =
        ∑ rc ∈ (e :: zs).toFinset,
        (cellCost ((applyPivot g L).1 rc.1 rc.2) - cellCost (g rc.1 rc.2)) := by
      refine (Finset.sum_subset (Finset.subset_univ _) ?_).symm
      intro rc _ hrc
      rw [hoffcell rc (by simpa using hrc)]
      ring
    rw [hsub, List.sum_toFinset _ hnd, hmapeq, List.enum_eq_enumFrom,
      enumFrom_sign_sum g t (e :: zs) 0 true (by simp)]
  have htele : altCostSum g true (e :: zs) = (g e.1 e.2).cost - (uz e.1 + vz e.2) := by
    have h1 : altCostSum g true (e :: zs) = (g e.1 e.2).cost + altCostSum g false zs := rfl
    have h2 := chain_telescope g uz vz zs d0 e e hchain hdual
    rw [hlen, if_neg (by omega), Odd.neg_one_pow (Nat.odd_iff.mpr hlen)] at h2
    have h4 := potOf_split uz vz d0 e
    rw [h1, h2]
    linarith [h4]
  have hB : calculateTotalCost (applyPivot g L).1 - calculateTotalCost g =
      t * ((g e.1 e.2).cost - (uz e.1 + vz e.2)) := by
    rw [calculateTotalCost_eq_sum ((applyPivot g L).1), calculateTotalCost_eq_sum g,
      ← Finset.sum_sub_distrib, hA, htele]
  refine ⟨t, hθ1, by linarith [hB], ?_, ?_⟩
  · intro ht
    have hmul : t * ((g e.1 e.2).cost - (uz e.1 + vz e.2)) < 0 :=
      mul_neg_of_pos_of_neg ht hneg
    linarith [hB]
  · intro ht
    rw [ht, zero_mul] at hB
    linarith [hB]

/-- Witness for C6 at the concrete pivot of `Gex2` along `loopEx2` with the
potentials `uzEx2`, `vzEx2`: the entering cell (1,0) has reduced cost −6 and
the pivot yields θ = 5 with the promised cost change. -/
theorem C6_pivot_cost_change_witness :
    Chain true ((1, 0) : Node 2 2) ([((1, 1) : Node 2 2), (0, 1), (0, 0)] ++ [(1, 0)]) ∧
    (Gex2 1 0).cost - (uzEx2 1 + vzEx2 0) < 0 ∧
    ∃ t : ℤ, (applyPivot Gex2 loopEx2).2 = ((t : ℤ) : WithTop ℤ) ∧
      calculateTotalCost (applyPivot Gex2 loopEx2).1 =
        calculateTotalCost Gex2 + t * ((Gex2 1 0).cost - (uzEx2 1 + vzEx2 0)) ∧
      (0 < t → calculateTotalCost (applyPivot Gex2 loopEx2).1 < calculateTotalCost Gex2) ∧
      (t = 0 → calculateTotalCost (applyPivot Gex2 loopEx2).1 = calculateTotalCost Gex2) :=
  ⟨by decide, by decide,
   C6_pivot_cost_change Gex2 loopEx2 (1, 0) [(1, 1), (0, 1), (0, 0)] true uzEx2 vzEx2
     rfl (by decide) (by decide) rfl (by decide) (by decide) (by decide) (by decide)
     (by decide)⟩

/-- Witness for C3 at the concrete grid `Gex2`, whose basis is a spanning
tree: all potentials become known, `u[0] = 0`, and the dual equations hold
on the basic cells. -/
theorem C3_potentials_complete_witness :
    (∀ r, ((calculatePotentials Gex2).u r).isSome = true) ∧
    (∀ c, ((calculatePotentials Gex2).v c).isSome = true) ∧
    (calculatePotentials Gex2).u 0 = some 0 ∧
    (∀ rc : Node 2 2, (Gex2 rc.1 rc.2).isBasin = true →
      ∃ ur vc, (calculatePotentials Gex2).u rc.1 = some ur ∧
        (calculatePotentials Gex2).v rc.2 = some vc ∧ ur + vc = (Gex2 rc.1 rc.2).cost) :=
  C3_potentials_complete Gex2 (by omega) ⟨by decide, by decide⟩

/-- Claim C1, counterexample.  The balanced 3×3 problem `Pex3` defeats the
first half of the claim: `solveLeastCost` returns a grid with the right
number of basic cells (5 = 3 + 3 − 1), but the degeneracy repair closes a
cycle, the bipartite basis graph is disconnected, and the basis invariant
(spanning tree) fails. -/
theorem C1_counterexample :
    (∀ r, 0 ≤ Pex3.initialSupply r) ∧ (∀ c, 0 ≤ Pex3.initialDemand c) ∧
    Finset.univ.sum Pex3.initialSupply = Finset.univ.sum Pex3.initialDemand ∧
    countBasic (solveLeastCost Pex3) = 3 + 3 - 1 ∧
    ¬(basisGraph (solveLeastCost Pex3)).Connected ∧
    ¬basisInvariant (solveLeastCost Pex3) := by
  refine ⟨by decide, by decide, by decide, by decide, by decide, ?_⟩
  rintro ⟨_, htree⟩
  exact (by decide : ¬(basisGraph (solveLeastCost Pex3)).Connected) htree.isConnected

/-- Claim C1 (amended).  For every balanced problem, `solveLeastCost`
produces exactly `rows + cols − 1` basic cells (the spanning-tree half of
the invariant can fail, see the counterexample); and `applyPivot` along a
valid alternating cycle (entering cell `e` non-basic, intermediate cells
basic with non-empty allocations, alternating moves, no repeats) maps a grid
satisfying the full basis invariant — `rows + cols − 1` basic cells forming
a spanning tree of the bipartite graph — to a grid satisfying it again. -/
theorem C1_basis_invariant :
    (∀ (rows cols : ℕ) (p : ProblemState rows cols),
      1 ≤ rows → 1 ≤ cols →
      (∀ r, 0 ≤ p.initialSupply r) → (∀ c, 0 ≤ p.initialDemand c) →
      Finset.univ.sum p.initialSupply = Finset.univ.sum p.initialDemand →
      countBasic (solveLeastCost p) = rows + cols - 1) ∧
    (∀ (rows cols : ℕ) (g : Grid rows cols) (e : Node rows cols)
      (zs : List (Node rows cols)) (d0 : Bool),
      Chain d0 e (zs ++ [e]) → (e :: zs).Nodup → zs.length % 2 = 1 →
      (∀ z ∈ zs, (g z.1 z.2).isBasin = true) →
      (∀ z ∈ zs, (g z.1 z.2).allocation ≠ none) →
      ¬(g e.1 e.2).isBasin = true →
      basisInvariant g →
      basisInvariant (applyPivot g (e :: (zs ++ [e]))).1) := by
  constructor
  · intro rows cols p hr hc hs hd hbal
    exact (solveLeastCost_spec p hr hc hs hd hbal).1
  · intro rows cols g e zs d0 h1 h2 h3 h4 h5 h6 h7
    exact applyPivot_basisInvariant g e zs d0 h1 h2 h3 h4 h5 h6 h7

/-- Witness for C1: the count half at the balanced 2×2 problem `Pex2`, and
the preservation half at the concrete pivot of `Gex2` (whose basis is a
spanning tree) along its alternating cycle. -/
theorem C1_basis_invariant_witness :
    countBasic (solveLeastCost Pex2) = 2 + 2 - 1 ∧
    basisInvariant Gex2 ∧
    basisInvariant (applyPivot Gex2
      (((1, 0) : Node 2 2) :: ([((1, 1) : Node 2 2), (0, 1), (0, 0)] ++ [(1, 0)]))).1 :=
  ⟨C1_basis_invariant.1 2 2 Pex2 (by decide) (by decide) (by decide) (by decide) (by decide),
   ⟨by decide, by decide⟩,
   C1_basis_invariant.2 2 2 Gex2 (1, 0) [(1, 1), (0, 1), (0, 0)] true
     (by decide) (by decide) (by decide) (by decide) (by decide) (by decide)
     ⟨by decide, by decide⟩⟩

/-- C4: on a grid whose basic cells form a spanning-tree basis, `findLoop`
applied to any non-basic entering cell `e` does not report failure: it
returns the list `e :: zs ++ [e]`, which starts and ends at the entering
cell, strictly alternates row moves and column moves (starting with a row
move), passes only through basic cells, repeats no cell internally, and
visits an even number `zs.length + 1 ≥ 4` of distinct cells. -/
theorem C4_loop_search {rows cols : ℕ} (g : Grid rows cols)
    (hinv : basisInvariant g) (e : Node rows cols)
    (henb : ¬(g e.1 e.2).isBasin = true) :
    ∃ L zs, findLoop e g = some L ∧
      L = e :: (zs ++ [e]) ∧
      Chain true e (zs ++ [e]) ∧
      (∀ z ∈ zs, (g z.1 z.2).isBasin = true) ∧
      (e :: zs).Nodup ∧
      zs.length % 2 = 1 ∧
      3 ≤ zs.length := by
  obtain ⟨zs0, hchain0, hbasic0, hnd0, hlen0⟩ := cycle_exists g hinv e henb
  rcases zs0 with _ | ⟨z1, rest⟩
  · exact absurd hlen0 (by simp)
  cases hchain0 with
  | cons hsh htl =>
    have hz1e : z1 ≠ e := by
      intro h
      apply (List.nodup_cons.mp hnd0).1
      rw [← h]
      simp
    have hfirst : searchLoop g e (rows * cols + 2) e true [] ∅ ≠ none := by
      intro hnone
      rw [show rows * cols + 2 = (rows * cols + 1) + 1 from rfl, searchLoop] at hnone
      have hg1 : ¬(4 ≤ (([] : List (Node rows cols)) ++ [e]).length ∧ e = e) := by simp
      have hg2 : ¬(1 < (([] : List (Node rows cols)) ++ [e]).length ∧ e = e) := by simp
      rw [if_neg hg1, if_neg hg2, if_pos rfl, List.findSome?_eq_none] at hnone
      have hfz := hnone z1 (mem_nextNodesH g e e z1 hsh (Or.inr (hbasic0 z1 (by simp))))
      have hgz : ¬(([] : List (Node rows cols)).getLast? = some z1) := by simp
      have hmc : z1 ∉ insert e (∅ : Finset (Node rows cols)) ∨ z1 = e := by
        left
        simp [hz1e]
      rw [if_neg hgz, if_pos hmc] at hfz
      have hnds : (z1 :: rest).Nodup := (List.nodup_cons.mp hnd0).2
      have hcard := List.Nodup.length_le_card hnds
      have hcardN : Fintype.card (Node rows cols) = rows * cols := by
        rw [show Fintype.card (Node rows cols) = Fintype.card (Fin rows × Fin cols) from rfl,
          Fintype.card_prod, Fintype.card_fin, Fintype.card_fin]
      rw [hcardN] at hcard
      simp only [List.length_cons] at hcard hlen0
      exact searchLoop_complete g e rest (rows * cols + 1) z1 false []
        (by omega) (by simp only [List.length_nil]; omega) hnd0 hbasic0 htl hfz
    rcases hsl : searchLoop g e (rows * cols + 2) e true [] ∅ with _ | L
    · exact absurd hsl hfirst
    obtain ⟨tail, hL, hlen4, hlast, hchainL, hbasics, hdropnd, -⟩ :=
      searchLoop_sound g e (rows * cols + 2) e true [] ∅ L (by simp)
        List.nodup_nil (Or.inl (by simp)) hsl
    rw [List.nil_append] at hL
    have htne : tail ≠ [] := by
      intro h
      rw [hL, h] at hlen4
      simp at hlen4
    have hsplit := List.dropLast_append_getLast htne
    have hlaste : tail.getLast htne = e := by
      rw [hL, List.getLast?_eq_getLast (e :: tail) (List.cons_ne_nil e tail)] at hlast
      have h2 := Option.some.inj hlast
      rw [List.getLast_cons htne] at h2
      exact h2
    have htt : tail = tail.dropLast ++ [e] := by
      rw [← hlaste]
      exact hsplit.symm
    have hLze : L = e :: (tail.dropLast ++ [e]) := hL.trans (congrArg (fun l => e :: l) htt)
    have hchainz : Chain true e (tail.dropLast ++ [e]) := by
      rw [htt] at hchainL
      exact hchainL
    have hndz : (e :: tail.dropLast).Nodup := by
      have hdd : L.dropLast = e :: tail.dropLast := by
        rw [hLze, show e :: (tail.dropLast ++ [e]) = (e :: tail.dropLast) ++ [e] from rfl,
          List.dropLast_concat]
      rw [hdd] at hdropnd
      exact hdropnd
    have hlzs : 2 ≤ tail.dropLast.length := by
      rw [hLze] at hlen4
      simp only [List.length_cons, List.length_append, List.length_nil] at hlen4
      omega
    have hodd := chain_odd g (SimpleGraph.IsTree.IsAcyclic hinv.2) e tail.dropLast true
      hchainz hbasics hndz hlzs
    refine ⟨L, tail.dropLast, ?_, hLze, hchainz, hbasics, hndz, hodd, by omega⟩
    rw [findLoop, hsl]

/-- Witness for C4 at the concrete grid `Gex2` with entering cell (1,0). -/
theorem C4_loop_search_witness :
    basisInvariant Gex2 ∧ ¬(Gex2 1 0).isBasin = true ∧
    ∃ L zs, findLoop ((1, 0) : Node 2 2) Gex2 = some L ∧
      L = (1, 0) :: (zs ++ [(1, 0)]) ∧
      Chain true (1, 0) (zs ++ [(1, 0)]) ∧
      (∀ z ∈ zs, (Gex2 z.1 z.2).isBasin = true) ∧
      ((1, 0) :: zs).Nodup ∧
      zs.length % 2 = 1 ∧
      3 ≤ zs.length :=
  ⟨⟨by decide, by decide⟩, by decide,
    C4_loop_search Gex2 ⟨by decide, by decide⟩ ((1, 0) : Node 2 2) (by decide)⟩

end Transport
